import Mathlib

/-!
# DAEPlace: discrete cosine / sine transform operators

Shallow embedding of `dreamplace/ops/dct/src/dct_hip.cpp`, `dst_hip.cpp` (and its CPU twin
`dst.cpp`) together with the element kernels they launch.

* `N = x.size(-1)` and `M = x.numel()/N`: a batch `x` of `M` rows of length `N` is a function
  `Fin M → Fin N → K`.
* A half-complex spectrum (`M × (N/2+1) × 2` scalars) is `Fin M → Fin (N/2+1) → K × K`,
  the pair being (real part, imaginary part).
* A twiddle table is `Fin (N/2+1) → K × K`.
* `scalar_t` of `AT_DISPATCH_FLOATING_TYPES` is an arbitrary field `K`; the statements that are
  "exact over the reals" take `K = ℝ`.
* The orchestrators allocate their buffers per call and every kernel reads one buffer and
  writes another, so each kernel launch is a function from the buffer it reads to the buffer
  it writes; `mul_` and `negateOddEntries` update a buffer in place and are functions from its
  old contents to its new contents.
* The bodies of the element kernels are not in the sources (only their declarations in
  `dct_hip.h`); they are modelled from the specification, one row at a time, and the launchers
  apply them to every row.
* The FFT of the tensor library is a parameter (`FFTPrimitive`) of every orchestrator;
  `fftReal` is the exact discrete Fourier transform over the reals.
* The orchestrators here are the numeric pipelines; the device and contiguity assertions
  (`CHECK_GPU`, `CHECK_CONTIGUOUS`) at their entry do not take part in the values computed.
  The `_checked` versions run the assertions first and return `Except String`.
* The `_mem` versions of the orchestrators run on a memory of scalar cells with an allocation
  frontier, tensors being data pointers into it; they are used for the statements on what a
  call leaves unchanged.

The file also embeds `dreamplace/ops/move_boundary/src/move_boundary.cpp`,
`dreamplace/ops/hpwl/src/hpwl.cpp` and `density_potential_forward` of
`dreamplace/ops/density_potential/src/density_potential_hip.cpp`: arrays are functions
`ℕ → K` over a linearly ordered field `K`, loops are folds over the index range.

Further, `dreamplace/ops/utility/src/limits.hpp` (the members of each specialisation of
`hip::numeric_limits`, with the constants of `<limits.h>` and `<float.h>` as parameters),
`dreamplace/ops/utility/src/Box.hpp` (a box is a record of four coordinates, a member
function is a function returning the new box) and the final loop of `abacusLegalizationCPU`
in `dreamplace/ops/greedy_legalize/src/abacus_legalize_cpu.h` (node lists are lists of
indices).

The alignment loop and the boxes with `float` coordinates run on floating-point scalars
(`Flt`): a finite value is an integer number of units `2^(-emin)` of its format, every
operation rounds the exact result to nearest, ties to even, and infinities and NaNs are one
value `nonfinite` that the model does not follow further.
-/

namespace DreamPlace

/-- A batch of `M` rows of length `N`. -/
abbrev Batch (K : Type) (M N : ℕ) : Type := Fin M → Fin N → K

/-- A half-complex spectrum: `M` rows of `N/2+1` (real, imaginary) pairs. -/
abbrev Spectrum (K : Type) (M N : ℕ) : Type := Fin M → Fin (N / 2 + 1) → K × K

/-- A twiddle table for transform length `N`: `N/2+1` (real, imaginary) pairs. -/
abbrev Twiddle (K : Type) (N : ℕ) : Type := Fin (N / 2 + 1) → K × K

/-- External collaborator: the real-input FFT primitive of the tensor library
(`at::rfft(·, 1, false, true)` and `at::irfft(·, 1, false, true, {N})`), acting on one row. -/
structure FFTPrimitive (K : Type) where
  /-- Forward transform, real row of length `N` to `N/2+1` complex bins. -/
  rfft : (N : ℕ) → (Fin N → K) → Fin (N / 2 + 1) → K × K
  /-- Inverse transform, `N/2+1` complex bins to a real row of length `N`. -/
  irfft : (N : ℕ) → (Fin (N / 2 + 1) → K × K) → Fin N → K

section Kernels

variable {K : Type} [Field K]

/-- Modelled from the spec: the Reorder primitive on one row (the body of the kernel
`computeReorderHipLauncher` is not in the sources). `y[i] = x[2i]` and `y[N-1-i] = x[2i+1]`
for `i ∈ [0, N/2)`. For odd `N` the middle entry is written by neither rule; it is `0`
here. -/
def Reorder {N : ℕ} (x : Fin N → K) : Fin N → K :=
  fun j =>
    if h : j.val < N / 2 then x ⟨2 * j.val, by omega⟩
    else if h2 : N - 1 - j.val < N / 2 then x ⟨2 * (N - 1 - j.val) + 1, by omega⟩
    else 0

/-- Modelled from the spec: the ReorderReverse primitive on one row, "exact inverse of
Reorder": `z[2i] = y[i]` and `z[2i+1] = y[N-1-i]` for `i ∈ [0, N/2)`. For odd `N` the last
entry is written by neither rule; it is `0` here. -/
def ReorderReverse {N : ℕ} (y : Fin N → K) : Fin N → K :=
  fun n =>
    if h : n.val / 2 < N / 2 then
      if n.val % 2 = 0 then y ⟨n.val / 2, by omega⟩
      else y ⟨N - 1 - n.val / 2, by omega⟩
    else 0

/-- Modelled from the spec: the Flip primitive on one row (`dct_hip.h:119-129`):
`x_0, …, x_{N-1}` becomes `x_{N-1}, …, x_0`, that is `y[i] = x[N-1-i]`. -/
def Flip {N : ℕ} (x : Fin N → K) : Fin N → K :=
  fun i => x ⟨N - 1 - i.val, by omega⟩

/-- Modelled from the spec: the NegateOddEntries primitive on one row (`dct_hip.h:144-151`):
flips the sign of the odd entries, index starting from 0. -/
def NegateOddEntries {N : ℕ} (x : Fin N → K) : Fin N → K :=
  fun i => if i.val % 2 = 1 then - x i else x i

/-- Modelled from the spec: the MulExpk primitive on one row. For `k ∈ [0, N/2]`,
`c[k] = 2·Re(spectrum[k]·expk[k])`. The remaining bins `k ∈ (N/2, N)` follow from the
conjugate relation: the spectrum of a real row has `spectrum[k] = conj(spectrum[N-k])` and
the table continues as `expk[k] = -i·conj(expk[N-k])`, so
`c[k] = 2·Re(conj(spectrum[N-k])·(-i)·conj(expk[N-k])) = -2·Im(spectrum[N-k]·expk[N-k])`. -/
def MulExpk {N : ℕ} (y : Fin (N / 2 + 1) → K × K) (expk : Twiddle K N) : Fin N → K :=
  fun k =>
    if h : k.val ≤ N / 2 then
      let s := y ⟨k.val, by omega⟩
      let e := expk ⟨k.val, by omega⟩
      2 * (s.1 * e.1 - s.2 * e.2)
    else
      let s := y ⟨N - k.val, by omega⟩
      let e := expk ⟨N - k.val, by omega⟩
      (-2) * (s.1 * e.2 + s.2 * e.1)

/-- Modelled from the spec: the Vk primitive on one row. Spec and `dct_hip.cpp:66-67`:
`vk = 0.5·W_{4N}^k·(c[k] - c[N-k])` for `k ∈ [0, N/2]`, with a zero-phase special case at
`k = 0`, producing the Hermitian spectrum whose inverse FFT is the pre-reorder inverse-DCT
result (Makhoul's construction). The formula is read as the complex number of that
construction, `v[k] = 0.5·conj(expk[k])·(x[k] - i·x[N-k])`: the two coefficients are the real
and the imaginary part of the bracket and the twiddle factor enters conjugated. At `k = 0`
the `x[N-k]` term is absent. The formula taken as it is written, without the `i` and the
conjugation, is `VkSpec`. -/
def Vk {N : ℕ} (x : Fin N → K) (expk : Twiddle K N) : Fin (N / 2 + 1) → K × K :=
  fun k =>
    let e := expk k
    if h : k.val = 0 then
      if hN : 0 < N then
        let a := x ⟨0, hN⟩
        (1 / 2 * (a * e.1), 1 / 2 * (-(a * e.2)))
      else (0, 0)
    else
      let a := x ⟨k.val, by omega⟩
      let b := x ⟨N - k.val, by omega⟩
      (1 / 2 * (a * e.1 - b * e.2), 1 / 2 * (-(b * e.1) - a * e.2))

/-- Modelled from the spec: `computeReorderHipLauncher` (`dct_hip.h:68-74`), Reorder on each
of the `M` rows. -/
def computeReorderHipLauncher {M N : ℕ} (x : Batch K M N) : Batch K M N :=
  fun r => Reorder (x r)

/-- Modelled from the spec: `computeReorderReverseHipLauncher` (`dct_hip.h:94-100`),
ReorderReverse on each of the `M` rows. -/
def computeReorderReverseHipLauncher {M N : ℕ} (y : Batch K M N) : Batch K M N :=
  fun r => ReorderReverse (y r)

/-- Modelled from the spec: `computeFlipHipLauncher` (`dct_hip.h:119-129`), Flip on each of
the `M` rows. -/
def computeFlipHipLauncher {M N : ℕ} (x : Batch K M N) : Batch K M N :=
  fun r => Flip (x r)

/-- Modelled from the spec: `negateOddEntriesHipLauncher` (`dct_hip.h:144-151`),
NegateOddEntries on each of the `M` rows. It works in place; the result is the new contents
of the buffer. -/
def negateOddEntriesHipLauncher {M N : ℕ} (x : Batch K M N) : Batch K M N :=
  fun r => NegateOddEntries (x r)

/-- Modelled from the spec: `computeMulExpkHipLauncher` (`dct_hip.h:76-83`), MulExpk on each
of the `M` rows. -/
def computeMulExpkHipLauncher {M N : ℕ} (y : Spectrum K M N) (expk : Twiddle K N) :
    Batch K M N :=
  fun r => MulExpk (y r) expk

/-- Modelled from the spec: `computeVkHipLauncher` (`dct_hip.h:85-92`), Vk on each of the
`M` rows. -/
def computeVkHipLauncher {M N : ℕ} (x : Batch K M N) (expk : Twiddle K N) :
    Spectrum K M N :=
  fun r => Vk (x r) expk

/-- In-place `Tensor::mul_` by a scalar on a real batch. -/
def mul_ {M N : ℕ} (x : Batch K M N) (c : K) : Batch K M N :=
  fun r j => x r j * c

/-- In-place `Tensor::mul_` by a scalar on a half-complex spectrum (every stored scalar). -/
def mul_spectrum {M N : ℕ} (y : Spectrum K M N) (c : K) : Spectrum K M N :=
  fun r k => ((y r k).1 * c, (y r k).2 * c)

/-- `transpose(-2, -1)` followed by `contiguous()`. -/
def transpose {M N : ℕ} (x : Batch K M N) : Batch K N M :=
  fun j i => x i j

/-- `at::rfft(x, 1, false, true)` on a batch: the forward primitive on every row. -/
def at_rfft (F : FFTPrimitive K) {M N : ℕ} (x : Batch K M N) : Spectrum K M N :=
  fun r => F.rfft N (x r)

/-- `at::irfft(v, 1, false, true, {N})` on a batch: the inverse primitive on every row. -/
def at_irfft (F : FFTPrimitive K) {M N : ℕ} (v : Spectrum K M N) : Batch K M N :=
  fun r => F.irfft N (v r)

/-- `dct_forward`, `dct_hip.cpp:10-51`. -/
def dct_forward (F : FFTPrimitive K) {M N : ℕ} (x : Batch K M N) (expk : Twiddle K N) :
    Batch K M N :=
  let x_reorder := computeReorderHipLauncher x
  let y := at_rfft F x_reorder
  let y := mul_spectrum y (1 / (N : K))
  -- re-use x_reorder as output
  let x_reorder := computeMulExpkHipLauncher y expk
  x_reorder

/-- `idct_forward`, `dct_hip.cpp:53-104`. -/
def idct_forward (F : FFTPrimitive K) {M N : ℕ} (x : Batch K M N) (expk : Twiddle K N) :
    Batch K M N :=
  let v := computeVkHipLauncher x expk
  let y := at_irfft F v
  -- reuse v
  let v := computeReorderReverseHipLauncher y
  let v := mul_ v (1 / 2 * (N : K))
  v

/-- `dct2_forward`, `dct_hip.cpp:106-184`. -/
def dct2_forward (F : FFTPrimitive K) {M N : ℕ} (x : Batch K M N) (expk0 : Twiddle K M)
    (expk1 : Twiddle K N) : Batch K M N :=
  let x_reorder := computeReorderHipLauncher x
  let y := at_rfft F x_reorder
  let x_reorder := computeMulExpkHipLauncher y expk1
  -- 1D DCT to rows
  let xt := transpose x_reorder
  let x_reorder := computeReorderHipLauncher xt
  let y := at_rfft F x_reorder
  let x_reorder := computeMulExpkHipLauncher y expk0
  let x_reorder := mul_ x_reorder (1 / ((M * N : ℕ) : K))
  transpose x_reorder

/-- `idct2_forward`, `dct_hip.cpp:186-276`. -/
def idct2_forward (F : FFTPrimitive K) {M N : ℕ} (x : Batch K M N) (expk0 : Twiddle K M)
    (expk1 : Twiddle K N) : Batch K M N :=
  let v := computeVkHipLauncher x expk1
  let y := at_irfft F v
  let v := computeReorderReverseHipLauncher y
  -- 1D DCT to rows
  let xt := transpose v
  let v := computeVkHipLauncher xt expk0
  let y := at_irfft F v
  let v := computeReorderReverseHipLauncher y
  let v := mul_ v (1 / 4 * (M : K) * (N : K))
  transpose v

/-- `dst_forward`, `dst_hip.cpp:10-40` (the same text as `dst.cpp:10-40`). -/
def dst_forward (F : FFTPrimitive K) {M N : ℕ} (x : Batch K M N) (expk : Twiddle K N) :
    Batch K M N :=
  let x_reorder := x
  let x_reorder := negateOddEntriesHipLauncher x_reorder
  let y := dct_forward F x_reorder expk
  let x_reorder := computeFlipHipLauncher y
  x_reorder

/-- `idst_forward`, `dst_hip.cpp:42-73` (the same text as `dst.cpp:42-73`). -/
def idst_forward (F : FFTPrimitive K) {M N : ℕ} (x : Batch K M N) (expk : Twiddle K N) :
    Batch K M N :=
  let x_reorder := computeFlipHipLauncher x
  let y := idct_forward F x_reorder expk
  let y := negateOddEntriesHipLauncher y
  y

/-- The unscaled forward pass on one row, shared by `dct_forward` and `dct2_forward`:
Reorder, forward FFT, MulExpk. -/
def forwardPass (F : FFTPrimitive K) {N : ℕ} (x : Fin N → K) (expk : Twiddle K N) : Fin N → K :=
  MulExpk (F.rfft N (Reorder x)) expk

/-- The unscaled inverse pass on one row, shared by `idct_forward` and `idct2_forward`:
Vk, inverse FFT, ReorderReverse. -/
def inversePass (F : FFTPrimitive K) {N : ℕ} (x : Fin N → K) (expk : Twiddle K N) : Fin N → K :=
  ReorderReverse (F.irfft N (Vk x expk))

end Kernels

/-- The input position that Reorder copies to output position `j` (for even `N`):
`2j` for `j < N/2`, and `2(N-1-j)+1` for `j ≥ N/2`. -/
def reorderSrc (N : ℕ) (j : Fin N) : Fin N :=
  if h : j.val < N / 2 then ⟨2 * j.val, by omega⟩
  else if h2 : N - 1 - j.val < N / 2 then ⟨2 * (N - 1 - j.val) + 1, by omega⟩
  else j

section RealModel

/-- Modelled from the spec: the external real-input FFT primitive, forward direction. Bin `k`
of the unnormalised discrete Fourier transform of a real row,
`S[k] = Σ_m y[m]·exp(-2πi·m·k/N)`. -/
noncomputable def dftBin (N : ℕ) (y : Fin N → ℝ) (k : ℕ) : ℂ :=
  ∑ m : Fin N, (y m : ℂ) *
    Complex.exp (-(2 * (Real.pi : ℂ) * Complex.I * ((m.val : ℂ) * (k : ℂ) / (N : ℂ))))

/-- Modelled from the spec: the external real-input FFT primitive, forward (real array to
half-complex spectrum), `at::rfft(·, 1, false, true)` over the reals: the bins `0, …, N/2` of
the unnormalised DFT, stored as (real, imaginary) pairs. -/
noncomputable def rfftReal (N : ℕ) (y : Fin N → ℝ) : Fin (N / 2 + 1) → ℝ × ℝ :=
  fun k => ((dftBin N y k.val).re, (dftBin N y k.val).im)

/-- The full length-`N` spectrum that a one-sided spectrum stands for: bin `k ≤ N/2` is
stored, bin `k > N/2` is the conjugate of the stored bin `N-k`. -/
noncomputable def hermitianExtend (N : ℕ) (v : Fin (N / 2 + 1) → ℝ × ℝ) (k : Fin N) : ℂ :=
  if h : k.val ≤ N / 2 then
    ⟨(v ⟨k.val, by omega⟩).1, (v ⟨k.val, by omega⟩).2⟩
  else
    ⟨(v ⟨N - k.val, by omega⟩).1, -(v ⟨N - k.val, by omega⟩).2⟩

/-- Modelled from the spec: the external real-input FFT primitive, inverse (half-complex
spectrum to real array), `at::irfft(·, 1, false, true, {N})` over the reals: the inverse DFT,
with its `1/N` factor, of the Hermitian extension of the one-sided spectrum, so that it
undoes `rfftReal`; the output is real, an imaginary residue of the self-conjugate bins is
dropped. -/
noncomputable def irfftReal (N : ℕ) (v : Fin (N / 2 + 1) → ℝ × ℝ) : Fin N → ℝ :=
  fun n => 1 / (N : ℝ) *
    (∑ k : Fin N, hermitianExtend N v k *
      Complex.exp (2 * (Real.pi : ℂ) * Complex.I * ((k.val : ℂ) * (n.val : ℂ) / (N : ℂ)))).re

/-- The exact real FFT primitive. -/
noncomputable def fftReal : FFTPrimitive ℝ where
  rfft := rfftReal
  irfft := irfftReal

/-- Modelled from the spec: the caller-supplied twiddle table for length `N` (its generator
is outside the sources). Entry `k` is `W_{4N}^k = exp(-2πi·k/(4N))`, `k = 0, …, N/2`, stored
as a (real, imaginary) pair. -/
noncomputable def expkTable (N : ℕ) : Twiddle ℝ N :=
  fun k =>
    let w := Complex.exp (-(2 * (Real.pi : ℂ) * Complex.I * ((k.val : ℂ) / (4 * (N : ℂ)))))
    (w.re, w.im)

/-- The reference definition in the spec's words: the direct-summation DCT-II of one row,
`DCT-II[k] = Σ_n x[n]·cos(π/N·(n+0.5)·k)`. -/
noncomputable def dctII (N : ℕ) (x : Fin N → ℝ) (k : ℕ) : ℝ :=
  ∑ n : Fin N, x n * Real.cos (Real.pi / (N : ℝ) * ((n.val : ℝ) + 1 / 2) * (k : ℝ))

end RealModel

open Finset

/-! ## The writes of Reorder -/

/-- The output position of a write of Reorder: for `i ∈ [0, N/2)`, the even rule
`y[i] = x[2i]` writes position `i` and the odd rule `y[N-1-i] = x[2i+1]` writes position
`N-1-i`. A write is the pair of `i` and the rule (`false` the even rule, `true` the odd
one). -/
def reorderWriteDst (N : ℕ) (w : Fin (N / 2) × Bool) : Fin N :=
  if w.2 then ⟨N - 1 - w.1.val, by have := w.1.isLt; omega⟩
  else ⟨w.1.val, by have := w.1.isLt; omega⟩

/-- The input position read by a write of Reorder: `2i` for the even rule, `2i+1` for the odd
rule. -/
def reorderWriteSrc (N : ℕ) (w : Fin (N / 2) × Bool) : Fin N :=
  if w.2 then ⟨2 * w.1.val + 1, by have := w.1.isLt; omega⟩
  else ⟨2 * w.1.val, by have := w.1.isLt; omega⟩

/-! ## The entry assertions of the cosine orchestrators -/

/-- A tensor argument as the entry assertions see it: its contents and the two properties
they query, `is_cuda()` and `is_contiguous()`. -/
structure TensorArg (α : Type) where
  /-- The contents. -/
  data : α
  /-- The value of `is_cuda()`. -/
  is_cuda : Bool
  /-- The value of `is_contiguous()`. -/
  is_contiguous : Bool

/-- A twiddle-table argument: the kernels receive only its data pointer, so the argument is
the memory from that pointer on (complex coefficient `k` at offset `k`), of which the first
`numel` coefficients belong to the tensor, together with `is_cuda()` and
`is_contiguous()`. -/
structure TwiddleArg (K : Type) where
  /-- The number of complex coefficients the tensor holds. -/
  numel : ℕ
  /-- The memory from the data pointer on. -/
  mem : ℕ → K × K
  /-- The value of `is_cuda()`. -/
  is_cuda : Bool
  /-- The value of `is_contiguous()`. -/
  is_contiguous : Bool

/-- The coefficients a transform of length `N` reads through the data pointer of a table:
offsets `0, …, N/2`. They lie inside the tensor when `e.covers N`; for a shorter table the
kernels would read past the tensor, and what the model reads there is what the memory
holds. -/
def TwiddleArg.table {K : Type} (e : TwiddleArg K) (N : ℕ) : Twiddle K N :=
  fun k => e.mem k.val

/-- The table holds the `N/2+1` coefficients that a transform of length `N` reads: the reads
at the offsets `0, …, N/2` stay inside the tensor. -/
def TwiddleArg.covers {K : Type} (e : TwiddleArg K) (N : ℕ) : Prop :=
  N / 2 + 1 ≤ e.numel

/-- `CHECK_GPU(x)`, `dct_hip.h:14`: `AT_ASSERTM(x.is_cuda(), #x "must be a tensor on GPU")`;
a failed assertion throws. -/
def CHECK_GPU (name : String) (is_cuda : Bool) : Except String Unit :=
  if is_cuda then Except.ok () else Except.error (name ++ "must be a tensor on GPU")

/-- `CHECK_CONTIGUOUS(x)`, `dct_hip.h:17`:
`AT_ASSERTM(x.is_contiguous(), #x "must be contiguous")`; a failed assertion throws. -/
def CHECK_CONTIGUOUS (name : String) (is_contiguous : Bool) : Except String Unit :=
  if is_contiguous then Except.ok () else Except.error (name ++ "must be contiguous")

section Checked

variable {K : Type} [Field K]

/-- `dct_forward` with its entry assertions, `dct_hip.cpp:10-51`: the four assertions of
lines 14-17, then the pipeline. -/
def dct_forward_checked (F : FFTPrimitive K) {M N : ℕ} (x : TensorArg (Batch K M N))
    (expk : TwiddleArg K) : Except String (Batch K M N) := do
  CHECK_GPU "x" x.is_cuda
  CHECK_CONTIGUOUS "x" x.is_contiguous
  CHECK_GPU "expk" expk.is_cuda
  CHECK_CONTIGUOUS "expk" expk.is_contiguous
  pure (dct_forward F x.data (expk.table N))

/-- `idct_forward` with its entry assertions, `dct_hip.cpp:53-104`. -/
def idct_forward_checked (F : FFTPrimitive K) {M N : ℕ} (x : TensorArg (Batch K M N))
    (expk : TwiddleArg K) : Except String (Batch K M N) := do
  CHECK_GPU "x" x.is_cuda
  CHECK_CONTIGUOUS "x" x.is_contiguous
  CHECK_GPU "expk" expk.is_cuda
  CHECK_CONTIGUOUS "expk" expk.is_contiguous
  pure (idct_forward F x.data (expk.table N))

/-- `dct2_forward` with its entry assertions, `dct_hip.cpp:106-184`. -/
def dct2_forward_checked (F : FFTPrimitive K) {M N : ℕ} (x : TensorArg (Batch K M N))
    (expk0 expk1 : TwiddleArg K) : Except String (Batch K M N) := do
  CHECK_GPU "x" x.is_cuda
  CHECK_CONTIGUOUS "x" x.is_contiguous
  CHECK_GPU "expk0" expk0.is_cuda
  CHECK_CONTIGUOUS "expk0" expk0.is_contiguous
  CHECK_GPU "expk1" expk1.is_cuda
  CHECK_CONTIGUOUS "expk1" expk1.is_contiguous
  pure (dct2_forward F x.data (expk0.table M) (expk1.table N))

/-- `idct2_forward` with its entry assertions, `dct_hip.cpp:186-276`. -/
def idct2_forward_checked (F : FFTPrimitive K) {M N : ℕ} (x : TensorArg (Batch K M N))
    (expk0 expk1 : TwiddleArg K) : Except String (Batch K M N) := do
  CHECK_GPU "x" x.is_cuda
  CHECK_CONTIGUOUS "x" x.is_contiguous
  CHECK_GPU "expk0" expk0.is_cuda
  CHECK_CONTIGUOUS "expk0" expk0.is_contiguous
  CHECK_GPU "expk1" expk1.is_cuda
  CHECK_CONTIGUOUS "expk1" expk1.is_contiguous
  pure (idct2_forward F x.data (expk0.table M) (expk1.table N))

end Checked

/-! ## Move boundary (`move_boundary.cpp`) -/

section MoveBoundary

variable {K : Type} [LinearOrderedField K]

/-- One iteration of the loop of `computeMoveBoundaryMapLauncher`, `move_boundary.cpp:72-82`,
on the pair (`x_tensor`, `y_tensor`). -/
def moveBoundaryStep (node_size_x_tensor node_size_y_tensor : ℕ → K) (xl yl xh yh : K)
    (num_nodes : ℕ) (num_movable_nodes num_filler_nodes : ℤ) (s : (ℕ → K) × (ℕ → K)) (i : ℕ) :
    (ℕ → K) × (ℕ → K) :=
  if (i : ℤ) < num_movable_nodes ∨ (i : ℤ) ≥ (num_nodes : ℤ) - num_filler_nodes then
    let x_tensor := s.1
    let y_tensor := s.2
    let x_tensor := Function.update x_tensor i (max (x_tensor i) xl)
    let x_tensor := Function.update x_tensor i (min (x_tensor i) (xh - node_size_x_tensor i))
    let y_tensor := Function.update y_tensor i (max (y_tensor i) yl)
    let y_tensor := Function.update y_tensor i (min (y_tensor i) (yh - node_size_y_tensor i))
    (x_tensor, y_tensor)
  else s

/-- `computeMoveBoundaryMapLauncher`, `move_boundary.cpp:60-85`: the loop over
`i = 0, …, num_nodes-1`, started from the given contents of `x_tensor` and `y_tensor`; the
result is their contents after the loop. Arrays are indexed from their data pointer. -/
def computeMoveBoundaryMapLauncher (x_tensor y_tensor node_size_x_tensor node_size_y_tensor :
    ℕ → K) (xl yl xh yh : K) (num_nodes : ℕ) (num_movable_nodes num_filler_nodes : ℤ) :
    (ℕ → K) × (ℕ → K) :=
  (List.range num_nodes).foldl
    (moveBoundaryStep node_size_x_tensor node_size_y_tensor xl yl xh yh num_nodes
      num_movable_nodes num_filler_nodes)
    (x_tensor, y_tensor)

end MoveBoundary

/-! ## Half-perimeter wirelength (`hpwl.cpp`) -/

section HPWL

variable {K : Type} [LinearOrderedField K]

/-- One iteration of the pin loop of `computeHPWLLauncher`, `hpwl.cpp:86-92`, on
(`max_x`, `min_x`, `max_y`, `min_y`). -/
def hpwlPinStep (x y : ℕ → K) (flat_netpin : ℕ → ℕ) (s : K × K × K × K) (j : ℕ) :
    K × K × K × K :=
  let max_x := s.1
  let min_x := s.2.1
  let max_y := s.2.2.1
  let min_y := s.2.2.2
  let min_x := min min_x (x (flat_netpin j))
  let max_x := max max_x (x (flat_netpin j))
  let min_y := min min_y (y (flat_netpin j))
  let max_y := max max_y (y (flat_netpin j))
  (max_x, min_x, max_y, min_y)

/-- The value `computeHPWLLauncher` stores for net `i`, `hpwl.cpp:78-93`: the four
accumulators start at `∓numeric_limits<T>::max()` (`T_max`), the pin loop runs over
`j = netpin_start[i], …, netpin_start[i+1]-1`, and the value is
`max_x-min_x + max_y-min_y`. -/
def netHPWL (T_max : K) (x y : ℕ → K) (flat_netpin netpin_start : ℕ → ℕ) (i : ℕ) : K :=
  let max_x := -T_max
  let min_x := T_max
  let max_y := -T_max
  let min_y := T_max
  let s := (List.range' (netpin_start i) (netpin_start (i + 1) - netpin_start i)).foldl
    (hpwlPinStep x y flat_netpin) (max_x, min_x, max_y, min_y)
  s.1 - s.2.1 + s.2.2.1 - s.2.2.2

/-- One iteration of the net loop of `computeHPWLLauncher`, `hpwl.cpp:76-95`, on the array
`hpwl`. -/
def hpwlNetStep (T_max : K) (x y : ℕ → K) (flat_netpin netpin_start net_mask : ℕ → ℕ)
    (hpwl : ℕ → K) (i : ℕ) : ℕ → K :=
  if net_mask i ≠ 0 then
    Function.update hpwl i (netHPWL T_max x y flat_netpin netpin_start i)
  else hpwl

/-- `computeHPWLLauncher`, `hpwl.cpp:64-98`: the loop over the nets `i = 0, …, num_nets-1`,
started from the given contents of `hpwl`; the result is the contents of `hpwl` after the
loop. Arrays are indexed from their data pointer; `T_max` is `numeric_limits<T>::max()`. -/
def computeHPWLLauncher (T_max : K) (x y : ℕ → K) (flat_netpin netpin_start net_mask : ℕ → ℕ)
    (num_nets : ℕ) (hpwl : ℕ → K) : ℕ → K :=
  (List.range num_nets).foldl (hpwlNetStep T_max x y flat_netpin netpin_start net_mask) hpwl

/-- `hpwl_forward`, `hpwl.cpp:32-62`, after its entry assertions: `pos` holds the x
locations and then the y locations (`pos.data + pos.numel()/2`), `hpwl` is created by
`at::zeros(num_nets)` with `num_nets = netpin_start.numel() - 1`, and the result is
`hpwl.sum()`. -/
def hpwl_forward (T_max : K) (pos : ℕ → K) (pos_numel : ℕ) (flat_netpin netpin_start : ℕ → ℕ)
    (netpin_start_numel : ℕ) (net_mask : ℕ → ℕ) : K :=
  let num_nets := netpin_start_numel - 1
  let hpwl : ℕ → K := fun _ => 0
  let hpwl := computeHPWLLauncher T_max pos (fun i => pos (pos_numel / 2 + i)) flat_netpin
    netpin_start net_mask num_nets hpwl
  ∑ i in Finset.range num_nets, hpwl i

end HPWL

/-! ## Density potential (`density_potential_hip.cpp`) -/

section DensityPotential

variable {K : Type} [LinearOrderedField K]

/-- `density_potential_forward`, `density_potential_hip.cpp:94-187`, after its entry
assertions. The body of the kernel `computeDensityPotentialMapHipLauncher` is not in the
sources: it is the parameter `launcher`, a function of the arguments in which the two calls
differ (the offset of the first node, the number of nodes) and of `target_area`, from the
contents of `density_map` before the call to its contents after the call. The result is
(`density_cost`, `density_map`, `max_density`). -/
def density_potential_forward {num_bins_x num_bins_y : ℕ}
    (launcher : ℤ → ℤ → K → (Fin num_bins_x → Fin num_bins_y → K) →
      (Fin num_bins_x → Fin num_bins_y → K))
    (pos_numel : ℕ) (initial_density_map : Fin num_bins_x → Fin num_bins_y → K)
    (target_density bin_size_x bin_size_y : K) (num_movable_nodes num_filler_nodes : ℤ)
    (padding : ℤ) (padding_mask : Fin num_bins_x → Fin num_bins_y → Bool) :
    K × (Fin num_bins_x → Fin num_bins_y → K) × WithBot K :=
  let density_map := initial_density_map
  let target_area := target_density * bin_size_x * bin_size_y
  let num_nodes : ℤ := (pos_numel / 2 : ℕ)
  let density_map := launcher 0 num_movable_nodes target_area density_map
  let density_map :=
    if num_filler_nodes ≠ 0 then
      launcher (num_nodes - num_filler_nodes) num_filler_nodes target_area density_map
    else density_map
  let max_density : WithBot K :=
    Finset.univ.sup fun b : Fin num_bins_x × Fin num_bins_y =>
      ((density_map b.1 b.2 : K) : WithBot K)
  -- set padding density
  let density_map :=
    if padding > 0 then fun i j => if padding_mask i j then target_area else density_map i j
    else density_map
  -- (max(0, density-target_area))^2
  let delta := fun i j => (density_map i j - target_area) ^ 2
  let density_cost := ∑ i, ∑ j, delta i j
  (density_cost, density_map, max_density)

end DensityPotential

/-! ## Buffers: the sine orchestrators on device memory -/

/-- Device memory: the scalar stored in every cell, and the allocation frontier `brk`; every
tensor alive at some moment lies below `brk`, and an allocation takes the cells from `brk`
on. -/
structure Mem (K : Type) where
  /-- The scalar stored at an address. -/
  cells : ℕ → K
  /-- The first address that no tensor occupies. -/
  brk : ℕ

section Memory

variable {K : Type} [Field K]

/-- Allocation of `n` scalars (`at::empty`, and the storage of the result of an ATen
function): the data pointer of the new tensor and the memory after the allocation. The new
cells keep whatever they held. -/
def Mem.alloc (st : Mem K) (n : ℕ) : ℕ × Mem K :=
  (st.brk, { cells := st.cells, brk := st.brk + n })

/-- The `n` scalars from the data pointer `p` on. -/
def Mem.read (st : Mem K) (p n : ℕ) : Fin n → K :=
  fun i => st.cells (p + i.val)

/-- The memory after the `n` scalars `f` are stored from the data pointer `p` on. -/
def Mem.write (st : Mem K) (p : ℕ) {n : ℕ} (f : Fin n → K) : Mem K :=
  { cells := fun a => if h : p ≤ a ∧ a - p < n then f ⟨a - p, h.2⟩ else st.cells a
    brk := st.brk }

/-- Row-major layout of an `M × N` batch: entry `(r, j)` at offset `r·N + j`. -/
def flattenBatch {M N : ℕ} (x : Batch K M N) : Fin (M * N) → K :=
  fun i =>
    x ⟨i.val / N, Nat.div_lt_of_lt_mul (Nat.mul_comm M N ▸ i.isLt)⟩
      ⟨i.val % N, Nat.mod_lt _ (Nat.pos_of_ne_zero (by
        rintro rfl
        exact absurd i.isLt (by simp)))⟩

/-- The `M × N` batch stored in row-major layout. -/
def unflattenBatch {M N : ℕ} (f : Fin (M * N) → K) : Batch K M N :=
  fun r j => f ⟨r.val * N + j.val, by
    have hr := r.isLt
    have hj := j.isLt
    calc r.val * N + j.val < r.val * N + N := by omega
      _ = (r.val + 1) * N := by ring
      _ ≤ M * N := Nat.mul_le_mul_right N hr⟩

/-- Layout of an `M × (N/2+1) × 2` half-complex spectrum: the real part of bin `(r, k)` at
offset `2·(r·(N/2+1) + k)`, the imaginary part right after it. -/
def flattenSpectrum {M N : ℕ} (v : Spectrum K M N) : Fin (M * (N / 2 + 1) * 2) → K :=
  fun i =>
    let e := v ⟨i.val / 2 / (N / 2 + 1), by
        have h := i.isLt
        have h2 : i.val / 2 < M * (N / 2 + 1) := by omega
        exact Nat.div_lt_of_lt_mul (Nat.mul_comm M (N / 2 + 1) ▸ h2)⟩
      ⟨i.val / 2 % (N / 2 + 1), Nat.mod_lt _ (by omega)⟩
    if i.val % 2 = 0 then e.1 else e.2

/-- The half-complex spectrum stored in that layout. -/
def unflattenSpectrum {M N : ℕ} (f : Fin (M * (N / 2 + 1) * 2) → K) : Spectrum K M N :=
  fun r k =>
    have h : 2 * (r.val * (N / 2 + 1) + k.val) + 1 < M * (N / 2 + 1) * 2 := by
      have hr := r.isLt
      have hk := k.isLt
      have : (r.val + 1) * (N / 2 + 1) ≤ M * (N / 2 + 1) := Nat.mul_le_mul_right _ hr
      have e : (r.val + 1) * (N / 2 + 1) = r.val * (N / 2 + 1) + (N / 2 + 1) := by ring
      omega
    (f ⟨2 * (r.val * (N / 2 + 1) + k.val), by omega⟩,
     f ⟨2 * (r.val * (N / 2 + 1) + k.val) + 1, h⟩)

/-- The batch of `M` rows of length `N` at the data pointer `p`. -/
def readBatch (M N : ℕ) (p : ℕ) (st : Mem K) : Batch K M N :=
  unflattenBatch (st.read p (M * N))

/-- The memory after a kernel has written the batch `x` at the data pointer `p`. -/
def writeBatch {M N : ℕ} (p : ℕ) (x : Batch K M N) (st : Mem K) : Mem K :=
  st.write p (flattenBatch x)

/-- The half-complex spectrum at the data pointer `p`. -/
def readSpectrum (M N : ℕ) (p : ℕ) (st : Mem K) : Spectrum K M N :=
  unflattenSpectrum (st.read p (M * (N / 2 + 1) * 2))

/-- The memory after the half-complex spectrum `v` has been written at the data pointer
`p`. -/
def writeSpectrum {M N : ℕ} (p : ℕ) (v : Spectrum K M N) (st : Mem K) : Mem K :=
  st.write p (flattenSpectrum v)

/-- The twiddle table for length `N` at the data pointer `p`: the real part of coefficient `k`
at offset `2k`, the imaginary part right after it. -/
def readTwiddle (N : ℕ) (p : ℕ) (st : Mem K) : Twiddle K N :=
  fun k => (st.cells (p + 2 * k.val), st.cells (p + (2 * k.val + 1)))

/-- `dct_forward`, `dct_hip.cpp:10-51`, on device memory: `x` and `expk` are the data
pointers of its arguments; the result is the data pointer of the returned tensor and the
memory after the call. -/
def dct_forward_mem (F : FFTPrimitive K) (M N : ℕ) (x expk : ℕ) (st : Mem K) : ℕ × Mem K :=
  -- auto x_reorder = at::empty({M, N}, x.options());
  let a := st.alloc (M * N)
  let x_reorder := a.1
  let st := a.2
  -- computeReorderHipLauncher(x, M, N, x_reorder)
  let st := writeBatch x_reorder (computeReorderHipLauncher (readBatch M N x st)) st
  -- auto y = at::rfft(x_reorder, 1, false, true);
  let a := st.alloc (M * (N / 2 + 1) * 2)
  let y := a.1
  let st := a.2
  let st := writeSpectrum y (at_rfft F (readBatch M N x_reorder st)) st
  -- y.mul_(1.0/N);
  let st := writeSpectrum y (mul_spectrum (readSpectrum M N y st) (1 / (N : K))) st
  -- computeMulExpkHipLauncher(y, expk, M, N, x_reorder)
  let st := writeBatch x_reorder
    (computeMulExpkHipLauncher (readSpectrum M N y st) (readTwiddle N expk st)) st
  (x_reorder, st)

/-- `idct_forward`, `dct_hip.cpp:53-104`, on device memory. `resize_` keeps the storage when
it is large enough and takes a new one otherwise. -/
def idct_forward_mem (F : FFTPrimitive K) (M N : ℕ) (x expk : ℕ) (st : Mem K) : ℕ × Mem K :=
  -- auto v = at::empty({M*N+std::max(M, N)}, x.options()).resize_({M, N/2+1, 2});
  let a := st.alloc (M * N + max M N)
  let a := if M * (N / 2 + 1) * 2 ≤ M * N + max M N then a
    else a.2.alloc (M * (N / 2 + 1) * 2)
  let v := a.1
  let st := a.2
  -- computeVkHipLauncher(x, expk, M, N, v)
  let st := writeSpectrum v (computeVkHipLauncher (readBatch M N x st) (readTwiddle N expk st)) st
  -- auto y = at::irfft(v, 1, false, true, {N});
  let a := st.alloc (M * N)
  let y := a.1
  let st := a.2
  let st := writeBatch y (at_irfft F (readSpectrum M N v st)) st
  -- v.resize_({M, N}); computeReorderReverseHipLauncher(y, M, N, v)
  let st := writeBatch v (computeReorderReverseHipLauncher (readBatch M N y st)) st
  -- v.mul_(0.5*N);
  let st := writeBatch v (mul_ (readBatch M N v st) (1 / 2 * (N : K))) st
  (v, st)

/-- `dst_forward`, `dst_hip.cpp:10-40` (the same text as `dst.cpp:10-40`), on device
memory. -/
def dst_forward_mem (F : FFTPrimitive K) (M N : ℕ) (x expk : ℕ) (st : Mem K) : ℕ × Mem K :=
  -- auto x_reorder = x.clone();
  let a := st.alloc (M * N)
  let x_reorder := a.1
  let st := a.2
  let st := writeBatch x_reorder (readBatch M N x st) st
  -- negateOddEntriesHipLauncher(x_reorder, M, N)
  let st := writeBatch x_reorder (negateOddEntriesHipLauncher (readBatch M N x_reorder st)) st
  -- auto y = dct_forward(x_reorder, expk);
  let c := dct_forward_mem F M N x_reorder expk st
  let y := c.1
  let st := c.2
  -- computeFlipHipLauncher(y, M, N, x_reorder)
  let st := writeBatch x_reorder (computeFlipHipLauncher (readBatch M N y st)) st
  (x_reorder, st)

/-- `idst_forward`, `dst_hip.cpp:42-73` (the same text as `dst.cpp:42-73`), on device
memory. -/
def idst_forward_mem (F : FFTPrimitive K) (M N : ℕ) (x expk : ℕ) (st : Mem K) : ℕ × Mem K :=
  -- auto x_reorder = at::empty_like(x);
  let a := st.alloc (M * N)
  let x_reorder := a.1
  let st := a.2
  -- auto y = at::empty_like(x);
  let a := st.alloc (M * N)
  let st := a.2
  -- computeFlipHipLauncher(x, M, N, x_reorder)
  let st := writeBatch x_reorder (computeFlipHipLauncher (readBatch M N x st)) st
  -- y = idct_forward(x_reorder, expk);
  let c := idct_forward_mem F M N x_reorder expk st
  let y := c.1
  let st := c.2
  -- negateOddEntriesHipLauncher(y, M, N)
  let st := writeBatch y (negateOddEntriesHipLauncher (readBatch M N y st)) st
  (y, st)

/-- The memory `st'` keeps everything that was allocated in `st`: the frontier has not moved
back and every cell below the frontier of `st` holds the scalar it held. -/
def Mem.Preserved (st st' : Mem K) : Prop :=
  st.brk ≤ st'.brk ∧ ∀ a, a < st.brk → st'.cells a = st.cells a

end Memory

/-! ## Numeric limits (`utility/src/limits.hpp`) -/

/-- The constants of `<limits.h>` that `limits.hpp` reads. They belong to the C library of the
platform, not to the sources, and are parameters. -/
structure LimitsH where
  /-- `CHAR_MIN`. -/
  CHAR_MIN : ℤ
  /-- `CHAR_MAX`. -/
  CHAR_MAX : ℤ
  /-- `SHRT_MIN`. -/
  SHRT_MIN : ℤ
  /-- `SHRT_MAX`. -/
  SHRT_MAX : ℤ
  /-- `USHRT_MAX`. -/
  USHRT_MAX : ℤ
  /-- `INT_MIN`. -/
  INT_MIN : ℤ
  /-- `INT_MAX`. -/
  INT_MAX : ℤ
  /-- `UINT_MAX`. -/
  UINT_MAX : ℤ
  /-- `LONG_MIN`. -/
  LONG_MIN : ℤ
  /-- `LONG_MAX`. -/
  LONG_MAX : ℤ
  /-- `ULONG_MAX`. -/
  ULONG_MAX : ℤ
  /-- `LLONG_MIN`. -/
  LLONG_MIN : ℤ
  /-- `LLONG_MAX`. -/
  LLONG_MAX : ℤ
  /-- `ULLONG_MAX`. -/
  ULLONG_MAX : ℤ

/-- The constants of `<float.h>` that `limits.hpp` reads, as elements of the scalar type `K`
of the model; parameters like those of `LimitsH`. -/
structure FloatH (K : Type) where
  /-- `FLT_MIN`. -/
  FLT_MIN : K
  /-- `FLT_MAX`. -/
  FLT_MAX : K
  /-- `DBL_MIN`. -/
  DBL_MIN : K
  /-- `DBL_MAX`. -/
  DBL_MAX : K
  /-- `LDBL_MIN`. -/
  LDBL_MIN : K
  /-- `LDBL_MAX`. -/
  LDBL_MAX : K

/-- The static members of a specialisation `hip::numeric_limits<T>`, `limits.hpp:25-238`:
the values that `min()`, `max()` and `lowest()` return. -/
structure numeric_limits (T : Type) where
  /-- Value of `min()`. -/
  min : T
  /-- Value of `max()`. -/
  max : T
  /-- Value of `lowest()`. -/
  lowest : T

/-- `numeric_limits<char>`, `limits.hpp:25-36` (the body of `lowest()` is written
`return CHAR_MIN}` there, without the semicolon). -/
def numeric_limits_char (L : LimitsH) : numeric_limits ℤ :=
  { min := L.CHAR_MIN, max := L.CHAR_MAX, lowest := L.CHAR_MIN }

/-- `numeric_limits<unsigned char>`, `limits.hpp:38-50`: the three members return `0`. -/
def numeric_limits_unsigned_char : numeric_limits ℤ :=
  { min := 0, max := 0, lowest := 0 }

/-- `numeric_limits<short>`, `limits.hpp:52-63`. -/
def numeric_limits_short (L : LimitsH) : numeric_limits ℤ :=
  { min := L.SHRT_MIN, max := L.SHRT_MAX, lowest := L.SHRT_MIN }

/-- `numeric_limits<unsigned short>`, `limits.hpp:65-76`. -/
def numeric_limits_unsigned_short (L : LimitsH) : numeric_limits ℤ :=
  { min := 0, max := L.USHRT_MAX, lowest := 0 }

/-- `numeric_limits<int>`, `limits.hpp:78-94`. -/
def numeric_limits_int (L : LimitsH) : numeric_limits ℤ :=
  { min := L.INT_MIN, max := L.INT_MAX, lowest := L.INT_MIN }

/-- `numeric_limits<unsigned int>`, `limits.hpp:96-112`. -/
def numeric_limits_unsigned_int (L : LimitsH) : numeric_limits ℤ :=
  { min := 0, max := L.UINT_MAX, lowest := 0 }

/-- `numeric_limits<long>`, `limits.hpp:114-130`. -/
def numeric_limits_long (L : LimitsH) : numeric_limits ℤ :=
  { min := L.LONG_MIN, max := L.LONG_MAX, lowest := L.LONG_MIN }

/-- `numeric_limits<unsigned long>`, `limits.hpp:132-148`. -/
def numeric_limits_unsigned_long (L : LimitsH) : numeric_limits ℤ :=
  { min := 0, max := L.ULONG_MAX, lowest := 0 }

/-- `numeric_limits<long long>`, `limits.hpp:150-166`. -/
def numeric_limits_long_long (L : LimitsH) : numeric_limits ℤ :=
  { min := L.LLONG_MIN, max := L.LLONG_MAX, lowest := L.LLONG_MIN }

/-- `numeric_limits<unsigned long long>`, `limits.hpp:168-184`. -/
def numeric_limits_unsigned_long_long (L : LimitsH) : numeric_limits ℤ :=
  { min := 0, max := L.ULLONG_MAX, lowest := 0 }

/-- `numeric_limits<float>`, `limits.hpp:186-202`. -/
def numeric_limits_float {K : Type} [Neg K] (L : FloatH K) : numeric_limits K :=
  { min := L.FLT_MIN, max := L.FLT_MAX, lowest := -L.FLT_MAX }

/-- `numeric_limits<double>`, `limits.hpp:204-220`. -/
def numeric_limits_double {K : Type} [Neg K] (L : FloatH K) : numeric_limits K :=
  { min := L.DBL_MIN, max := L.DBL_MAX, lowest := -L.DBL_MAX }

/-- `numeric_limits<long double>`, `limits.hpp:222-238`. -/
def numeric_limits_long_double {K : Type} [Neg K] (L : FloatH K) : numeric_limits K :=
  { min := L.LDBL_MIN, max := L.LDBL_MAX, lowest := -L.LDBL_MAX }

/-- The values of `<limits.h>` on an LP64 platform with 8-bit signed `char`, 16-bit `short`,
32-bit `int` and 64-bit `long` and `long long` (x86-64 Linux); used for concrete inputs. -/
def limitsLP64 : LimitsH :=
  { CHAR_MIN := -128, CHAR_MAX := 127, SHRT_MIN := -32768, SHRT_MAX := 32767,
    USHRT_MAX := 65535, INT_MIN := -2147483648, INT_MAX := 2147483647,
    UINT_MAX := 4294967295, LONG_MIN := -9223372036854775808,
    LONG_MAX := 9223372036854775807, ULONG_MAX := 18446744073709551615,
    LLONG_MIN := -9223372036854775808, LLONG_MAX := 9223372036854775807,
    ULLONG_MAX := 18446744073709551615 }

/-! ## Boxes (`utility/src/Box.hpp`) -/

/-- `struct Box<T>`, `Box.hpp:9-15`; the constructor `Box(xxl, yyl, xxh, yyh)`
(`Box.hpp:22-28`) is `Box.mk`. -/
structure Box (T : Type) where
  /-- Left. -/
  xl : T
  /-- Bottom. -/
  yl : T
  /-- Right. -/
  xh : T
  /-- Top. -/
  yh : T
deriving DecidableEq

section BoxOps

variable {T : Type}

/-- `Box::invalidate`, `Box.hpp:31-37`; `lim` is `hip::numeric_limits<T>`. The members are
overwritten, so the result does not depend on the box it is called on. -/
def Box.invalidate (lim : numeric_limits T) (_b : Box T) : Box T :=
  { xl := lim.max, yl := lim.max, xh := lim.lowest, yh := lim.lowest }

/-- `Box::Box()`, `Box.hpp:17-20`: the default constructor calls `invalidate()` on the
members, which the C++ leaves uninitialised (`garbage` here). -/
def Box.default (lim : numeric_limits T) (garbage : Box T) : Box T :=
  Box.invalidate lim garbage

/-- `Box::valid`, `Box.hpp:39-42`. -/
def Box.valid [LinearOrder T] (b : Box T) : Bool :=
  decide (b.xl ≤ b.xh) && decide (b.yl ≤ b.yh)

/-- `Box::encompass(T x, T y)`, `Box.hpp:45-53`. -/
def Box.encompass [LinearOrder T] (b : Box T) (x y : T) : Box T :=
  let xl := min b.xl x
  let xh := max b.xh x
  let yl := min b.yl y
  let yh := min b.yh y
  { xl := xl, yl := yl, xh := xh, yh := yh }

/-- `Box::encompass(T xxl, T yyl, T xxh, T yyh)`, `Box.hpp:55-61`. -/
def Box.encompass4 [LinearOrder T] (b : Box T) (xxl yyl xxh yyh : T) : Box T :=
  (b.encompass xxl yyl).encompass xxh yyh

/-- `Box::bloat`, `Box.hpp:63-73`. -/
def Box.bloat [Add T] [Sub T] (b : Box T) (dx dy : T) : Box T :=
  let xl := b.xl - dx
  let xh := b.xh + dx
  let yl := b.yl - dy
  let yh := b.yh + dy
  { xl := xl, yl := yl, xh := xh, yh := yh }

/-- `Box::contains(T x, T y)`, `Box.hpp:75-78`. -/
def Box.contains [LinearOrder T] (b : Box T) (x y : T) : Bool :=
  decide (b.xl ≤ x) && decide (x ≤ b.xh) && decide (b.yl ≤ y) && decide (y ≤ b.yh)

/-- `Box::contains(T xxl, T yyl, T xxh, T yyh)`, `Box.hpp:80-83`. -/
def Box.contains4 [LinearOrder T] (b : Box T) (xxl yyl xxh yyh : T) : Bool :=
  b.contains xxl yyl && b.contains xxh yyh

/-- `Box::width`, `Box.hpp:85`. -/
def Box.width [Sub T] (b : Box T) : T := b.xh - b.xl

/-- `Box::height`, `Box.hpp:87`. -/
def Box.height [Sub T] (b : Box T) : T := b.yh - b.yl

end BoxOps

/-! ## Floating-point scalars -/

/-- A binary floating-point format: `prec` significand bits, least positive value
`2^(-emin)`, finite values of magnitude below `2^emax`. -/
structure FloatFormat where
  /-- Number of significand bits, the hidden bit included. -/
  prec : ℕ
  /-- The least positive (subnormal) value is `2^(-emin)`. -/
  emin : ℕ
  /-- Every finite value has magnitude below `2^emax`. -/
  emax : ℕ

/-- IEEE 754 binary32, the `float` of the sources. -/
def binary32 : FloatFormat := { prec := 24, emin := 149, emax := 128 }

/-- IEEE 754 binary64, the `double` of the sources. -/
def binary64 : FloatFormat := { prec := 53, emin := 1074, emax := 1024 }

/-- A value of a floating-point type. `fin n` is the finite number `n * 2^(-emin)` (every
finite value of the format is an integer multiple of its least positive value; the two zeros
are not told apart). `nonfinite` stands for an infinity or a NaN; the model does not follow
these, every operation with a `nonfinite` operand gives `nonfinite`. -/
inductive Flt (fmt : FloatFormat) where
  | fin (n : ℤ) : Flt fmt
  | nonfinite : Flt fmt
deriving DecidableEq

/-- Rounding of the fraction `num / den` to the nearest integer, ties to the even one. -/
def roundHalfEven (num den : ℕ) : ℕ :=
  let q := num / den
  let r := num % den
  if 2 * r < den then q
  else if 2 * r = den then (if q % 2 = 0 then q else q + 1)
  else q + 1

/-- Search for the least `s' ≥ s` with `num < den * 2^(prec + s')`, trying `fuel` values. -/
def quantumExpAux (prec num den : ℕ) : ℕ → ℕ → Option ℕ
  | 0, _ => none
  | fuel + 1, s =>
    if num < den * 2 ^ (prec + s) then some s else quantumExpAux prec num den fuel (s + 1)

/-- The exponent `s` of the spacing `2^s` (in units of `2^(-emin)`) of the floating-point
numbers around `num / den`: the least `s` with `num / den < 2^(prec + s)`; `none` when there
is none up to `emax + emin`, that is when `num / den` is beyond every finite value. -/
def quantumExp (fmt : FloatFormat) (num den : ℕ) : Option ℕ :=
  quantumExpAux fmt.prec num den (fmt.emax + fmt.emin + 1) 0

/-- Rounding to nearest, ties to even: the value of the format nearest to
`± (num / den) * 2^(-emin)`; `nonfinite` on overflow and for `den = 0`. -/
def Flt.round (fmt : FloatFormat) (neg : Bool) (num den : ℕ) : Flt fmt :=
  if den = 0 then Flt.nonfinite
  else
    match quantumExp fmt num den with
    | none => Flt.nonfinite
    | some s =>
      let m := 2 ^ s * roundHalfEven num (den * 2 ^ s)
      if m < 2 ^ (fmt.emax + fmt.emin) then Flt.fin (if neg then -(m : ℤ) else (m : ℤ))
      else Flt.nonfinite

section FltOps

variable {fmt : FloatFormat}

/-- The floating-point number nearest to the fraction `num / den`, as a decimal literal of
the sources is read. -/
def Flt.ofFrac (fmt : FloatFormat) (num : ℤ) (den : ℕ) : Flt fmt :=
  Flt.round fmt (decide (num < 0)) (num.natAbs * 2 ^ fmt.emin) den

/-- Floating-point addition. -/
def Flt.add : Flt fmt → Flt fmt → Flt fmt
  | Flt.fin a, Flt.fin b => Flt.round fmt (decide (a + b < 0)) (a + b).natAbs 1
  | _, _ => Flt.nonfinite

/-- Floating-point subtraction. -/
def Flt.sub : Flt fmt → Flt fmt → Flt fmt
  | Flt.fin a, Flt.fin b => Flt.round fmt (decide (a - b < 0)) (a - b).natAbs 1
  | _, _ => Flt.nonfinite

/-- Floating-point multiplication. -/
def Flt.mul : Flt fmt → Flt fmt → Flt fmt
  | Flt.fin a, Flt.fin b => Flt.round fmt (decide (a * b < 0)) (a * b).natAbs (2 ^ fmt.emin)
  | _, _ => Flt.nonfinite

/-- Floating-point division; a division by zero gives an infinity or a NaN. -/
def Flt.div : Flt fmt → Flt fmt → Flt fmt
  | Flt.fin a, Flt.fin b =>
    if b = 0 then Flt.nonfinite
    else Flt.round fmt (decide (a < 0) != decide (b < 0)) (a.natAbs * 2 ^ fmt.emin) b.natAbs
  | _, _ => Flt.nonfinite

instance : Add (Flt fmt) := ⟨Flt.add⟩
instance : Sub (Flt fmt) := ⟨Flt.sub⟩
instance : Mul (Flt fmt) := ⟨Flt.mul⟩
instance : Div (Flt fmt) := ⟨Flt.div⟩

/-- `floor` of `<math.h>`: the largest integer not above the value (exact). -/
def Flt.floor : Flt fmt → Flt fmt
  | Flt.fin a => Flt.fin (a / (2 : ℤ) ^ fmt.emin * (2 : ℤ) ^ fmt.emin)
  | Flt.nonfinite => Flt.nonfinite

/-- `ceil` of `<math.h>`: the least integer not below the value (exact). -/
def Flt.ceil : Flt fmt → Flt fmt
  | Flt.fin a => Flt.fin (-(-a / (2 : ℤ) ^ fmt.emin) * (2 : ℤ) ^ fmt.emin)
  | Flt.nonfinite => Flt.nonfinite

/-- `std::max(a, b)`, which is `(a < b) ? b : a`. -/
def Flt.max : Flt fmt → Flt fmt → Flt fmt
  | Flt.fin a, Flt.fin b => if a < b then Flt.fin b else Flt.fin a
  | _, _ => Flt.nonfinite

/-- `std::min(a, b)`, which is `(b < a) ? b : a`. -/
def Flt.min : Flt fmt → Flt fmt → Flt fmt
  | Flt.fin a, Flt.fin b => if b < a then Flt.fin b else Flt.fin a
  | _, _ => Flt.nonfinite

end FltOps

/-! ## Alignment to sites (`greedy_legalize/src/abacus_legalize_cpu.h`) -/

section Abacus

variable {fmt : FloatFormat}

/-- The body of the inner loop of `abacusLegalizationCPU`, `abacus_legalize_cpu.h:81-90`, for
one `node_id` of a bin; the state is the array `x` and the running left bound `xxl`. Every
operation is the floating-point operation of the scalar type `T`. -/
def alignNodeStep (node_size_x : ℕ → Flt fmt) (xl xh site_width : Flt fmt)
    (num_nodes num_movable_nodes num_filler_nodes : ℤ) (s : (ℕ → Flt fmt) × Flt fmt)
    (node_id : ℕ) : (ℕ → Flt fmt) × Flt fmt :=
  let x := s.1
  let xxl := s.2
  if (node_id : ℤ) < num_movable_nodes then
    let x := Function.update x node_id
      (Flt.max (Flt.min (x node_id) (xh - node_size_x node_id)) xxl)
    let x := Function.update x node_id
      (Flt.floor ((x node_id - xxl) / site_width) * site_width + xxl)
    let xxl := xxl + Flt.ceil (node_size_x node_id / site_width) * site_width
    (x, xxl)
  else if (node_id : ℤ) < num_nodes - num_filler_nodes then
    let xxl := Flt.ceil ((x node_id + node_size_x node_id - xl) / site_width) * site_width + xl
    (x, xxl)
  else (x, xxl)

/-- The body of the outer loop, `abacus_legalize_cpu.h:77-91`, for the cells of one bin:
`xxl` starts at `xl` and the nodes of the bin are visited in order. -/
def alignBinCells (node_size_x : ℕ → Flt fmt) (xl xh site_width : Flt fmt)
    (num_nodes num_movable_nodes num_filler_nodes : ℤ) (x : ℕ → Flt fmt) (cells : List ℕ) :
    ℕ → Flt fmt :=
  let xxl := xl
  (cells.foldl (alignNodeStep node_size_x xl xh site_width num_nodes num_movable_nodes
    num_filler_nodes) (x, xxl)).1

/-- The final loop of `abacusLegalizationCPU`, `abacus_legalize_cpu.h:74-92` ("align nodes to
sites"), on the array `x` and the lists `bin_cells` as `abacusLegalizeRowCPU` leaves them. -/
def alignNodesToSites (node_size_x : ℕ → Flt fmt) (xl xh site_width : Flt fmt)
    (num_nodes num_movable_nodes num_filler_nodes : ℤ) (bin_cells : List (List ℕ))
    (x : ℕ → Flt fmt) : ℕ → Flt fmt :=
  bin_cells.foldl (alignBinCells node_size_x xl xh site_width num_nodes num_movable_nodes
    num_filler_nodes) x

end Abacus

/-! ## The scratch buffer of the inverse transforms -/

/-- Number of elements of the buffer `v` that `idct_forward` (`dct_hip.cpp:68`) and
`idct2_forward` (`dct_hip.cpp:206`) allocate: `at::empty({M*N+std::max(M, N)})`. -/
def scratchNumel (M N : ℕ) : ℕ := M * N + max M N

/-- Number of elements of a tensor of shape `{M, N/2+1, 2}`, the shape `v` is resized to
(`dct_hip.cpp:68`, `206`; in the second pass of `idct2_forward`, `dct_hip.cpp:242`, with
`N` and `M` exchanged). -/
def halfComplexNumel (M N : ℕ) : ℕ := M * (N / 2 + 1) * 2

/-- `Tensor::resize_` of the tensor library on the storage: a tensor whose storage holds
`storage` elements keeps it when the new shape has `numel ≤ storage` elements and gets a
storage of `numel` elements otherwise. The result is the size of the storage afterwards. -/
def resize_ (storage numel : ℕ) : ℕ := if numel ≤ storage then storage else numel

/-- The sizes of the storage of `v` along `idct2_forward`, `dct_hip.cpp:206-262`: after
`at::empty`, after `resize_({M, N/2+1, 2})`, after `resize_({M, N})`, after
`resize_({N, M/2+1, 2})` and after `resize_({N, M})`. -/
def idct2_forward_storage (M N : ℕ) : List ℕ :=
  let s0 := scratchNumel M N
  let s1 := resize_ s0 (halfComplexNumel M N)
  let s2 := resize_ s1 (M * N)
  let s3 := resize_ s2 (halfComplexNumel N M)
  let s4 := resize_ s3 (N * M)
  [s0, s1, s2, s3, s4]

/-! ## The Vk formula as the specification writes it -/

section SpecVk

variable {K : Type} [Field K]

/-- Modelled from the spec: the Vk primitive on one row with the formula taken as it is
written, `v[k] = 0.5·W_{4N}^k·(x[k] − x[(N−k) mod N])` for `k ∈ [0, N/2]`: the real number
`x[k] − x[(N−k) mod N]` times the complex coefficient `0.5·expk[k]`. The spec names a
special case at `k = 0` without giving its value; `0.5·expk[0]·x[0]` is taken (the generic
formula gives `0` there). `Vk` is the other reading of the same sentence. -/
def VkSpec {N : ℕ} (x : Fin N → K) (expk : Twiddle K N) : Fin (N / 2 + 1) → K × K :=
  fun k =>
    let e := expk k
    if h : k.val = 0 then
      if hN : 0 < N then
        let a := x ⟨0, hN⟩
        (1 / 2 * (e.1 * a), 1 / 2 * (e.2 * a))
      else (0, 0)
    else
      let a := x ⟨k.val, by omega⟩
      let b := x ⟨(N - k.val) % N, Nat.mod_lt _ (by omega)⟩
      (1 / 2 * (e.1 * (a - b)), 1 / 2 * (e.2 * (a - b)))

/-- `computeVkHipLauncher` with `VkSpec` on each of the `M` rows. -/
def computeVkSpecLauncher {M N : ℕ} (x : Batch K M N) (expk : Twiddle K N) :
    Spectrum K M N :=
  fun r => VkSpec (x r) expk

/-- `idct_forward`, `dct_hip.cpp:53-104`, with `VkSpec` as the Vk kernel. -/
def idct_forward_specVk (F : FFTPrimitive K) {M N : ℕ} (x : Batch K M N)
    (expk : Twiddle K N) : Batch K M N :=
  let v := computeVkSpecLauncher x expk
  let y := at_irfft F v
  -- reuse v
  let v := computeReorderReverseHipLauncher y
  let v := mul_ v (1 / 2 * (N : K))
  v

/-- `idct2_forward`, `dct_hip.cpp:186-276`, with `VkSpec` as the Vk kernel. -/
def idct2_forward_specVk (F : FFTPrimitive K) {M N : ℕ} (x : Batch K M N)
    (expk0 : Twiddle K M) (expk1 : Twiddle K N) : Batch K M N :=
  let v := computeVkSpecLauncher x expk1
  let y := at_irfft F v
  let v := computeReorderReverseHipLauncher y
  -- 1D DCT to rows
  let xt := transpose v
  let v := computeVkSpecLauncher xt expk0
  let y := at_irfft F v
  let v := computeReorderReverseHipLauncher y
  let v := mul_ v (1 / 4 * (M : K) * (N : K))
  transpose v

end SpecVk

/-- The exact value of a finite floating-point number, `n * 2^(-emin)`; `0` for a value that
is not finite. -/
def Flt.toRat {fmt : FloatFormat} : Flt fmt → ℚ
  | Flt.fin n => (n : ℚ) / (2 : ℚ) ^ fmt.emin
  | Flt.nonfinite => 0

/-! ## The primitives on concrete rows -/

theorem Reorder_six :
    Reorder (![10, 11, 12, 13, 14, 15] : Fin 6 → ℚ) = ![10, 12, 14, 15, 13, 11] := by
  decide

theorem ReorderReverse_six :
    ReorderReverse (![10, 12, 14, 15, 13, 11] : Fin 6 → ℚ) = ![10, 11, 12, 13, 14, 15] := by
  decide

theorem Flip_four : Flip (![1, 2, 3, 4] : Fin 4 → ℚ) = ![4, 3, 2, 1] := by
  decide

theorem NegateOddEntries_four :
    NegateOddEntries (![1, 2, 3, 4] : Fin 4 → ℚ) = ![1, -2, 3, -4] := by
  decide

theorem MulExpk_four :
    MulExpk (![(10, 0), (2, 2), (-2, 0)] : Fin 3 → ℚ × ℚ)
        (![(1, 0), (3, -4), (0, -1)] : Twiddle ℚ 4)
      = ![20, 28, 0, 4] := by
  funext k
  fin_cases k <;> simp [MulExpk] <;> norm_num

theorem Vk_four :
    Vk (![20, 28, 0, 4] : Fin 4 → ℚ) (![(1, 0), (3, -4), (0, -1)] : Twiddle ℚ 4)
      = ![(10, 0), (50, 50), (0, 0)] := by
  funext k
  fin_cases k <;> simp [Vk] <;> norm_num

/-! ## Lemmas on the primitives -/

theorem reorderSrc_injective {N : ℕ} (hN : Even N) : Function.Injective (reorderSrc N) := by
  obtain ⟨H, rfl⟩ := hN
  intro a b hab
  have ha := a.isLt
  have hb := b.isLt
  simp only [reorderSrc] at hab
  apply Fin.ext
  split at hab <;> split at hab <;> (try split at hab) <;> (try split at hab) <;>
    simp only [Fin.mk.injEq, Fin.ext_iff] at hab <;> omega

theorem reorderSrc_bijective {N : ℕ} (hN : Even N) : Function.Bijective (reorderSrc N) :=
  Finite.injective_iff_bijective.mp (reorderSrc_injective hN)

section KernelLemmas

variable {K : Type} [Field K]

omit [Field K] in
theorem Flip_Flip {N : ℕ} (x : Fin N → K) : Flip (Flip x) = x := by
  funext i
  simp only [Flip]
  congr 1
  apply Fin.ext
  have := i.isLt
  simp only
  omega

theorem NegateOddEntries_NegateOddEntries {N : ℕ} (x : Fin N → K) :
    NegateOddEntries (NegateOddEntries x) = x := by
  funext i
  simp only [NegateOddEntries]
  split <;> simp

theorem Reorder_eq_comp {N : ℕ} (hN : Even N) (x : Fin N → K) (j : Fin N) :
    Reorder x j = x (reorderSrc N j) := by
  obtain ⟨H, rfl⟩ := hN
  have := j.isLt
  simp only [Reorder, reorderSrc]
  split
  · rfl
  · split
    · rfl
    · omega

theorem ReorderReverse_Reorder {N : ℕ} (hN : Even N) (x : Fin N → K) :
    ReorderReverse (Reorder x) = x := by
  obtain ⟨H, rfl⟩ := hN
  funext n
  have hn := n.isLt
  simp only [ReorderReverse, Reorder]
  rw [dif_pos (by omega)]
  split
  · rw [dif_pos (by omega)]
    congr 1; apply Fin.ext; simp only; omega
  · rw [dif_neg (by omega), dif_pos (by omega)]
    congr 1; apply Fin.ext; simp only; omega

end KernelLemmas

/-! ## The exact real FFT and the twiddle table -/

theorem ofReal_mul_exp_neg_re (a t : ℝ) :
    ((a : ℂ) * Complex.exp (-((t : ℂ) * Complex.I))).re = a * Real.cos t := by
  rw [← neg_mul, ← Complex.ofReal_neg, Complex.re_ofReal_mul, Complex.exp_ofReal_mul_I_re,
    Real.cos_neg]

theorem ofReal_mul_exp_neg_im (a t : ℝ) :
    ((a : ℂ) * Complex.exp (-((t : ℂ) * Complex.I))).im = -(a * Real.sin t) := by
  rw [← neg_mul, ← Complex.ofReal_neg, Complex.im_ofReal_mul, Complex.exp_ofReal_mul_I_im,
    Real.sin_neg, mul_neg]

/-- the DFT bin times a unit rotation, as one sum -/
theorem dftBin_mul_exp (N : ℕ) (y : Fin N → ℝ) (k : ℕ) (β : ℝ) :
    dftBin N y k * Complex.exp (-((β : ℂ) * Complex.I))
      = ∑ m : Fin N, (y m : ℂ) *
          Complex.exp (-(((2 * Real.pi * ((m.val : ℝ) * (k : ℝ) / (N : ℝ)) + β : ℝ) : ℂ)
            * Complex.I)) := by
  unfold dftBin
  rw [Finset.sum_mul]
  refine Finset.sum_congr rfl fun m _ => ?_
  rw [mul_assoc, ← Complex.exp_add]
  congr 2
  push_cast
  ring

theorem dftBin_mul_exp_re (N : ℕ) (y : Fin N → ℝ) (k : ℕ) (β : ℝ) :
    (dftBin N y k * Complex.exp (-((β : ℂ) * Complex.I))).re
      = ∑ m : Fin N, y m * Real.cos (2 * Real.pi * ((m.val : ℝ) * (k : ℝ) / (N : ℝ)) + β) := by
  rw [dftBin_mul_exp, Complex.re_sum]
  exact Finset.sum_congr rfl fun m _ => ofReal_mul_exp_neg_re _ _

theorem dftBin_mul_exp_im (N : ℕ) (y : Fin N → ℝ) (k : ℕ) (β : ℝ) :
    (dftBin N y k * Complex.exp (-((β : ℂ) * Complex.I))).im
      = -∑ m : Fin N, y m * Real.sin (2 * Real.pi * ((m.val : ℝ) * (k : ℝ) / (N : ℝ)) + β) := by
  rw [dftBin_mul_exp, Complex.im_sum, ← Finset.sum_neg_distrib]
  exact Finset.sum_congr rfl fun m _ => ofReal_mul_exp_neg_im _ _

/-- the table entry as a unit rotation -/
theorem expkTable_eq (N : ℕ) (k : Fin (N / 2 + 1)) :
    (⟨(expkTable N k).1, (expkTable N k).2⟩ : ℂ)
      = Complex.exp (-(((2 * Real.pi * ((k.val : ℝ) / (4 * (N : ℝ))) : ℝ) : ℂ) * Complex.I)) := by
  simp only [expkTable, Complex.eta]
  congr 1
  push_cast
  ring

theorem expkTable_fst (N : ℕ) (k : Fin (N / 2 + 1)) :
    (expkTable N k).1 = Real.cos (2 * Real.pi * ((k.val : ℝ) / (4 * (N : ℝ)))) := by
  have h := congrArg Complex.re (expkTable_eq N k)
  rw [← neg_mul, ← Complex.ofReal_neg, Complex.exp_ofReal_mul_I_re, Real.cos_neg] at h
  exact h

theorem expkTable_snd (N : ℕ) (k : Fin (N / 2 + 1)) :
    (expkTable N k).2 = -Real.sin (2 * Real.pi * ((k.val : ℝ) / (4 * (N : ℝ)))) := by
  have h := congrArg Complex.im (expkTable_eq N k)
  rw [← neg_mul, ← Complex.ofReal_neg, Complex.exp_ofReal_mul_I_im, Real.sin_neg] at h
  exact h

theorem dftBin_re (N : ℕ) (y : Fin N → ℝ) (k : ℕ) :
    (dftBin N y k).re
      = ∑ m : Fin N, y m * Real.cos (2 * Real.pi * ((m.val : ℝ) * (k : ℝ) / (N : ℝ))) := by
  have h := dftBin_mul_exp_re N y k 0
  simpa using h

theorem dftBin_im (N : ℕ) (y : Fin N → ℝ) (k : ℕ) :
    (dftBin N y k).im
      = -∑ m : Fin N, y m * Real.sin (2 * Real.pi * ((m.val : ℝ) * (k : ℝ) / (N : ℝ))) := by
  have h := dftBin_mul_exp_im N y k 0
  simpa using h

theorem MulExpk_rfftReal_low {N : ℕ} (y : Fin N → ℝ) (k : Fin N) (hk : k.val ≤ N / 2) :
    MulExpk (rfftReal N y) (expkTable N) k
      = 2 * ∑ m : Fin N, y m *
          Real.cos (2 * Real.pi * ((m.val : ℝ) * (k.val : ℝ) / (N : ℝ))
            + 2 * Real.pi * ((k.val : ℝ) / (4 * (N : ℝ)))) := by
  simp only [MulExpk, dif_pos hk, rfftReal]
  rw [← dftBin_mul_exp_re, ← expkTable_eq N ⟨k.val, by omega⟩, Complex.mul_re]

theorem MulExpk_rfftReal_high {N : ℕ} (y : Fin N → ℝ) (k : Fin N) (hk : ¬ k.val ≤ N / 2) :
    MulExpk (rfftReal N y) (expkTable N) k
      = 2 * ∑ m : Fin N, y m *
          Real.sin (2 * Real.pi * ((m.val : ℝ) * ((N - k.val : ℕ) : ℝ) / (N : ℝ))
            + 2 * Real.pi * (((N - k.val : ℕ) : ℝ) / (4 * (N : ℝ)))) := by
  have hlt := k.isLt
  simp only [MulExpk, dif_neg hk, rfftReal]
  have h := dftBin_mul_exp_im N y (N - k.val)
    (2 * Real.pi * (((N - k.val : ℕ) : ℝ) / (4 * (N : ℝ))))
  rw [← expkTable_eq N ⟨N - k.val, by omega⟩, Complex.mul_im] at h
  simp only at h
  linarith

theorem reorderSrc_val_low {N : ℕ} (m : Fin N) (h : m.val < N / 2) :
    ((reorderSrc N m).val : ℝ) = 2 * (m.val : ℝ) := by
  simp only [reorderSrc, dif_pos h]
  push_cast
  ring

theorem reorderSrc_val_high {N : ℕ} (hN : Even N) (m : Fin N) (h : ¬ m.val < N / 2) :
    ((reorderSrc N m).val : ℝ) = 2 * (N : ℝ) - 2 * (m.val : ℝ) - 1 := by
  obtain ⟨H, rfl⟩ := hN
  have hm := m.isLt
  have h2 : H + H - 1 - m.val < (H + H) / 2 := by omega
  simp only [reorderSrc, dif_neg h, dif_pos h2]
  have e : 2 * (H + H - 1 - m.val) + 1 + 2 * m.val + 1 = 2 * (H + H) := by omega
  have e' := congrArg (Nat.cast : ℕ → ℝ) e
  push_cast at e'
  push_cast
  linarith

/-- angle identity behind the low bins -/
theorem cos_angle_low {N : ℕ} (hN : Even N) (m : Fin N) (k : ℕ) :
    Real.cos (2 * Real.pi * ((m.val : ℝ) * (k : ℝ) / (N : ℝ))
        + 2 * Real.pi * ((k : ℝ) / (4 * (N : ℝ))))
      = Real.cos (Real.pi / (N : ℝ) * (((reorderSrc N m).val : ℝ) + 1 / 2) * (k : ℝ)) := by
  have hm := m.isLt
  have hN0 : (N : ℝ) ≠ 0 := by
    have : 0 < N := by omega
    exact_mod_cast this.ne'
  by_cases h : m.val < N / 2
  · rw [reorderSrc_val_low m h]
    congr 1
    field_simp
    ring
  · rw [reorderSrc_val_high hN m h]
    rw [← Real.cos_nat_mul_two_pi_sub _ k]
    congr 1
    field_simp
    ring

/-- angle identity behind the high bins -/
theorem sin_angle_high {N : ℕ} (hN : Even N) (m : Fin N) (k : ℕ) (hk : k ≤ N) :
    Real.sin (2 * Real.pi * ((m.val : ℝ) * ((N - k : ℕ) : ℝ) / (N : ℝ))
        + 2 * Real.pi * (((N - k : ℕ) : ℝ) / (4 * (N : ℝ))))
      = Real.cos (Real.pi / (N : ℝ) * (((reorderSrc N m).val : ℝ) + 1 / 2) * (k : ℝ)) := by
  have hm := m.isLt
  have hN0 : (N : ℝ) ≠ 0 := by
    have : 0 < N := by omega
    exact_mod_cast this.ne'
  rw [Nat.cast_sub hk]
  by_cases h : m.val < N / 2
  · rw [reorderSrc_val_low m h, ← Real.cos_pi_div_two_sub,
      ← Real.cos_add_nat_mul_two_pi _ m.val]
    congr 1
    field_simp
    ring
  · rw [reorderSrc_val_high hN m h, ← Real.cos_pi_div_two_sub, ← Real.cos_neg,
      ← Real.cos_add_int_mul_two_pi _ ((k : ℤ) - (m.val : ℤ))]
    congr 1
    push_cast
    field_simp
    ring

/-- The unscaled forward pass is twice the direct-summation DCT-II. -/
theorem MulExpk_rfftReal_Reorder {N : ℕ} (hN : Even N) (x : Fin N → ℝ) (k : Fin N) :
    MulExpk (rfftReal N (Reorder x)) (expkTable N) k = 2 * dctII N x k.val := by
  have hb := reorderSrc_bijective hN
  have key : ∀ c : Fin N → ℝ,
      (∀ m, c m = Real.cos (Real.pi / (N : ℝ) * (((reorderSrc N m).val : ℝ) + 1 / 2)
        * (k.val : ℝ))) →
      ∑ m : Fin N, Reorder x m * c m = dctII N x k.val := by
    intro c hc
    unfold dctII
    rw [← Function.Bijective.sum_comp hb
      (fun n => x n * Real.cos (Real.pi / (N : ℝ) * ((n.val : ℝ) + 1 / 2) * (k.val : ℝ)))]
    exact Finset.sum_congr rfl fun m _ => by rw [Reorder_eq_comp hN, hc]
  by_cases hk : k.val ≤ N / 2
  · rw [MulExpk_rfftReal_low _ _ hk, key _ fun m => cos_angle_low hN m k.val]
  · rw [MulExpk_rfftReal_high _ _ hk, key _ fun m => sin_angle_high hN m k.val k.isLt.le]

/-- orthogonality of the DFT exponentials -/
theorem sum_exp_orthogonal {N : ℕ} (n m : Fin N) :
    ∑ k : Fin N, Complex.exp (2 * (Real.pi : ℂ) * Complex.I *
        ((k.val : ℂ) * ((n.val : ℂ) - (m.val : ℂ)) / (N : ℂ)))
      = if n = m then (N : ℂ) else 0 := by
  have hn := n.isLt
  have hm := m.isLt
  have hN0 : (N : ℂ) ≠ 0 := by
    have : 0 < N := by omega
    exact_mod_cast this.ne'
  set ω : ℂ := Complex.exp (2 * (Real.pi : ℂ) * Complex.I *
    (((n.val : ℂ) - (m.val : ℂ)) / (N : ℂ))) with hω
  have hpow : ∀ k : ℕ, Complex.exp (2 * (Real.pi : ℂ) * Complex.I *
      ((k : ℂ) * ((n.val : ℂ) - (m.val : ℂ)) / (N : ℂ))) = ω ^ k := by
    intro k
    rw [hω, ← Complex.exp_nat_mul]
    congr 1
    ring
  simp only [hpow]
  rw [Fin.sum_univ_eq_sum_range (fun k => ω ^ k) N]
  split_ifs with h
  · have : ω = 1 := by
      rw [hω, h]
      simp
    rw [this]
    simp
  · have hne : ω ≠ 1 := by
      intro h1
      rw [hω, Complex.exp_eq_one_iff] at h1
      obtain ⟨j, hj⟩ := h1
      have hpi : (2 * (Real.pi : ℂ) * Complex.I) ≠ 0 := by
        simp [Real.pi_ne_zero]
      have e1 : ((n.val : ℂ) - (m.val : ℂ)) = (j : ℂ) * (N : ℂ) := by
        have : (2 * (Real.pi : ℂ) * Complex.I) * (((n.val : ℂ) - (m.val : ℂ)) / (N : ℂ))
            = (2 * (Real.pi : ℂ) * Complex.I) * (j : ℂ) := by
          rw [hj]; ring
        have h2 := mul_left_cancel₀ hpi this
        field_simp at h2
        exact h2
      have e2 : ((n.val : ℤ) - (m.val : ℤ)) = j * (N : ℤ) := by
        exact_mod_cast e1
      have hdvd : (N : ℤ) ∣ ((n.val : ℤ) - (m.val : ℤ)) := ⟨j, by rw [e2]; ring⟩
      have habs : |(n.val : ℤ) - (m.val : ℤ)| < (N : ℤ) := by
        rw [abs_lt]; constructor <;> omega
      have := Int.eq_zero_of_abs_lt_dvd hdvd habs
      apply h
      apply Fin.ext
      omega
    have hone : ω ^ N = 1 := by
      rw [hω, ← Complex.exp_nat_mul]
      have : (N : ℂ) * (2 * (Real.pi : ℂ) * Complex.I * (((n.val : ℂ) - (m.val : ℂ)) / (N : ℂ)))
          = (((n.val : ℤ) - (m.val : ℤ) : ℤ) : ℂ) * (2 * (Real.pi : ℂ) * Complex.I) := by
        push_cast
        field_simp
        ring
      rw [this, Complex.exp_int_mul_two_pi_mul_I]
    rw [geom_sum_eq hne, hone]
    simp

/-- the Hermitian extension of the one-sided spectrum of a real row is its full spectrum -/
theorem hermitianExtend_rfftReal {N : ℕ} (y : Fin N → ℝ) (k : Fin N) :
    hermitianExtend N (rfftReal N y) k = dftBin N y k.val := by
  have hk := k.isLt
  have hN0 : (N : ℝ) ≠ 0 := by
    have : 0 < N := by omega
    exact_mod_cast this.ne'
  unfold hermitianExtend
  split_ifs with h
  · simp only [rfftReal]
  · simp only [rfftReal]
    apply Complex.ext
    · simp only [dftBin_re]
      refine Finset.sum_congr rfl fun m _ => ?_
      rw [Nat.cast_sub hk.le, ← Real.cos_nat_mul_two_pi_sub _ m.val]
      congr 2
      field_simp
      ring
    · simp only [dftBin_im, neg_neg]
      rw [← Finset.sum_neg_distrib]
      refine Finset.sum_congr rfl fun m _ => ?_
      have e : 2 * Real.pi * ((m.val : ℝ) * ((N - k.val : ℕ) : ℝ) / (N : ℝ))
          = (m.val : ℝ) * (2 * Real.pi)
            - 2 * Real.pi * ((m.val : ℝ) * (k.val : ℝ) / (N : ℝ)) := by
        rw [Nat.cast_sub hk.le]
        field_simp
        ring
      rw [e, Real.sin_nat_mul_two_pi_sub, mul_neg]

/-- the inverse primitive undoes the forward primitive -/
theorem irfftReal_rfftReal {N : ℕ} (y : Fin N → ℝ) : irfftReal N (rfftReal N y) = y := by
  funext n
  have hn := n.isLt
  have hN0 : (N : ℝ) ≠ 0 := by
    have : 0 < N := by omega
    exact_mod_cast this.ne'
  unfold irfftReal
  have hsum : ∑ k : Fin N, hermitianExtend N (rfftReal N y) k *
      Complex.exp (2 * (Real.pi : ℂ) * Complex.I * ((k.val : ℂ) * (n.val : ℂ) / (N : ℂ)))
      = (N : ℂ) * (y n : ℂ) := by
    simp only [hermitianExtend_rfftReal, dftBin, Finset.sum_mul]
    rw [Finset.sum_comm]
    have : ∀ m : Fin N, ∑ k : Fin N, (y m : ℂ) *
        Complex.exp (-(2 * (Real.pi : ℂ) * Complex.I * ((m.val : ℂ) * (k.val : ℂ) / (N : ℂ)))) *
        Complex.exp (2 * (Real.pi : ℂ) * Complex.I * ((k.val : ℂ) * (n.val : ℂ) / (N : ℂ)))
        = (y m : ℂ) * (if n = m then (N : ℂ) else 0) := by
      intro m
      rw [← sum_exp_orthogonal n m, Finset.mul_sum]
      refine Finset.sum_congr rfl fun k _ => ?_
      rw [mul_assoc, ← Complex.exp_add]
      congr 2
      ring
    simp only [this]
    simp [mul_comm]
  rw [hsum]
  simp only [Complex.mul_re, Complex.natCast_re, Complex.ofReal_re, Complex.natCast_im,
    Complex.ofReal_im, mul_zero, sub_zero]
  field_simp

theorem expkTable_norm (N : ℕ) (k : Fin (N / 2 + 1)) :
    (expkTable N k).1 * (expkTable N k).1 + (expkTable N k).2 * (expkTable N k).2 = 1 := by
  rw [expkTable_fst, expkTable_snd]
  have := Real.cos_sq_add_sin_sq (2 * Real.pi * ((k.val : ℝ) / (4 * (N : ℝ))))
  nlinarith

theorem expkTable_zero (N : ℕ) (k : Fin (N / 2 + 1)) (hk : k.val = 0) :
    expkTable N k = (1, 0) := by
  apply Prod.ext
  · rw [expkTable_fst, hk]; simp
  · rw [expkTable_snd, hk]; simp

theorem expkTable_half {N : ℕ} (hN : Even N) (hpos : 0 < N) (k : Fin (N / 2 + 1))
    (hk : k.val = N / 2) :
    expkTable N k = (Real.sqrt 2 / 2, -(Real.sqrt 2 / 2)) := by
  obtain ⟨H, rfl⟩ := hN
  have hH : (H : ℝ) ≠ 0 := by
    have : 0 < H := by omega
    exact_mod_cast this.ne'
  have e : 2 * Real.pi * ((k.val : ℝ) / (4 * ((H + H : ℕ) : ℝ))) = Real.pi / 4 := by
    rw [hk]
    have : (H + H) / 2 = H := by omega
    rw [this]
    push_cast
    field_simp
    ring
  apply Prod.ext
  · rw [expkTable_fst, e, Real.cos_pi_div_four]
  · rw [expkTable_snd, e, Real.sin_pi_div_four]

theorem rfftReal_zero_im {N : ℕ} (y : Fin N → ℝ) (k : Fin (N / 2 + 1)) (hk : k.val = 0) :
    (rfftReal N y k).2 = 0 := by
  simp only [rfftReal, dftBin_im, hk]
  simp

theorem rfftReal_half_im {N : ℕ} (hN : Even N) (y : Fin N → ℝ) (k : Fin (N / 2 + 1))
    (hk : k.val = N / 2) : (rfftReal N y k).2 = 0 := by
  obtain ⟨H, rfl⟩ := hN
  simp only [rfftReal, dftBin_im, hk, neg_eq_zero]
  apply Finset.sum_eq_zero
  intro m _
  have hm := m.isLt
  have hH : (H : ℝ) ≠ 0 := by
    have : 0 < H := by omega
    exact_mod_cast this.ne'
  have e : 2 * Real.pi * ((m.val : ℝ) * (((H + H) / 2 : ℕ) : ℝ) / ((H + H : ℕ) : ℝ))
      = (m.val : ℝ) * Real.pi := by
    have : (H + H) / 2 = H := by omega
    rw [this]
    push_cast
    field_simp
    ring
  rw [e, Real.sin_nat_mul_pi, mul_zero]

/-- Vk rebuilds the one-sided spectrum from the coefficients MulExpk extracted from it. -/
theorem Vk_MulExpk {N : ℕ} (hN : Even N) (hpos : 0 < N) (s : Fin (N / 2 + 1) → ℝ × ℝ)
    (h0 : ∀ k : Fin (N / 2 + 1), k.val = 0 → (s k).2 = 0)
    (hH : ∀ k : Fin (N / 2 + 1), k.val = N / 2 → (s k).2 = 0) :
    Vk (MulExpk s (expkTable N)) (expkTable N) = s := by
  funext k
  have hk := k.isLt
  have hnorm := expkTable_norm N k
  by_cases hk0 : k.val = 0
  · have hz := expkTable_zero N k hk0
    have hs := h0 k hk0
    have hidx : (⟨(⟨0, hpos⟩ : Fin N).val, by simp⟩ : Fin (N / 2 + 1)) = k :=
      Fin.ext (by simp [hk0])
    simp only [Vk, dif_pos hk0, dif_pos hpos, MulExpk]
    rw [dif_pos (by simp)]
    simp only [hidx, hz]
    apply Prod.ext <;> simp [hs]
  · simp only [Vk, dif_neg hk0, MulExpk]
    rw [dif_pos (by omega)]
    by_cases hkH : k.val = N / 2
    · have e1 : N - k.val = k.val := by
        obtain ⟨H, rfl⟩ := hN
        omega
      have hs := hH k hkH
      have hz := expkTable_half hN hpos k hkH
      rw [dif_pos (by omega)]
      simp only [e1, Fin.eta, hz, hs]
      have h2 : Real.sqrt 2 * Real.sqrt 2 = 2 := Real.mul_self_sqrt (by norm_num)
      apply Prod.ext
      · simp only
        linear_combination (1 / 2 * (s k).1) * h2
      · simp only
        rw [hs]
        ring
    · have e2 : N - (N - k.val) = k.val := by omega
      rw [dif_neg (by omega)]
      simp only [e2, Fin.eta]
      apply Prod.ext
      · simp only
        linear_combination (s k).1 * hnorm
      · simp only
        linear_combination (s k).2 * hnorm

/-- The unscaled inverse pass undoes the unscaled forward pass. -/
theorem inverse_pass_forward_pass {N : ℕ} (hN : Even N) (x : Fin N → ℝ) :
    ReorderReverse (irfftReal N (Vk (MulExpk (rfftReal N (Reorder x)) (expkTable N))
      (expkTable N))) = x := by
  by_cases hpos : 0 < N
  · rw [Vk_MulExpk hN hpos _ (rfftReal_zero_im _) (rfftReal_half_im hN _), irfftReal_rfftReal,
      ReorderReverse_Reorder hN]
  · funext n
    exact absurd n.isLt (by omega)

/-! ## Linearity -/

section
variable {K : Type} [Field K]

theorem Reorder_isLinearMap (N : ℕ) : IsLinearMap K (Reorder : (Fin N → K) → Fin N → K) where
  map_add x y := by
    funext j
    simp only [Reorder, Pi.add_apply]
    split_ifs <;> simp
  map_smul c x := by
    funext j
    simp only [Reorder, Pi.smul_apply]
    split_ifs <;> simp

theorem ReorderReverse_isLinearMap (N : ℕ) :
    IsLinearMap K (ReorderReverse : (Fin N → K) → Fin N → K) where
  map_add x y := by
    funext j
    simp only [ReorderReverse, Pi.add_apply]
    split_ifs <;> simp
  map_smul c x := by
    funext j
    simp only [ReorderReverse, Pi.smul_apply]
    split_ifs <;> simp

theorem MulExpk_isLinearMap {N : ℕ} (expk : Twiddle K N) :
    IsLinearMap K (fun s : Fin (N / 2 + 1) → K × K => MulExpk s expk) where
  map_add x y := by
    funext j
    simp only [MulExpk, Pi.add_apply, Prod.fst_add, Prod.snd_add]
    split_ifs <;> ring
  map_smul c x := by
    funext j
    simp only [MulExpk, Pi.smul_apply, Prod.smul_fst, Prod.smul_snd, smul_eq_mul]
    split_ifs <;> ring

theorem Vk_isLinearMap {N : ℕ} (expk : Twiddle K N) :
    IsLinearMap K (fun x : Fin N → K => Vk x expk) where
  map_add x y := by
    funext j
    simp only [Vk, Pi.add_apply]
    split_ifs <;> apply Prod.ext <;> simp <;> ring
  map_smul c x := by
    funext j
    simp only [Vk, Pi.smul_apply, smul_eq_mul]
    split_ifs <;> apply Prod.ext <;> simp <;> ring
end

theorem rfftReal_isLinearMap (N : ℕ) : IsLinearMap ℝ (rfftReal N) where
  map_add x y := by
    funext k
    apply Prod.ext
    · simp only [rfftReal, dftBin_re, Pi.add_apply, Prod.fst_add, add_mul, Finset.sum_add_distrib]
    · simp only [rfftReal, dftBin_im, Pi.add_apply, Prod.snd_add, add_mul, Finset.sum_add_distrib,
        neg_add]
  map_smul c x := by
    funext k
    apply Prod.ext
    · simp only [rfftReal, dftBin_re, Pi.smul_apply, Prod.smul_fst, smul_eq_mul, Finset.mul_sum,
        mul_assoc]
    · simp only [rfftReal, dftBin_im, Pi.smul_apply, Prod.smul_snd, smul_eq_mul, Finset.mul_sum,
        mul_assoc, mul_neg]

theorem hermitianExtend_add (N : ℕ) (v w : Fin (N / 2 + 1) → ℝ × ℝ) (k : Fin N) :
    hermitianExtend N (v + w) k = hermitianExtend N v k + hermitianExtend N w k := by
  unfold hermitianExtend
  split_ifs <;> apply Complex.ext <;> simp [add_comm]

theorem hermitianExtend_smul (N : ℕ) (c : ℝ) (v : Fin (N / 2 + 1) → ℝ × ℝ) (k : Fin N) :
    hermitianExtend N (c • v) k = (c : ℂ) * hermitianExtend N v k := by
  unfold hermitianExtend
  split_ifs <;> apply Complex.ext <;> simp

theorem irfftReal_isLinearMap (N : ℕ) : IsLinearMap ℝ (irfftReal N) where
  map_add x y := by
    funext n
    simp only [irfftReal, hermitianExtend_add, add_mul, Finset.sum_add_distrib, Complex.add_re,
      Pi.add_apply, mul_add]
  map_smul c x := by
    funext n
    simp only [irfftReal, hermitianExtend_smul, Pi.smul_apply, smul_eq_mul, mul_assoc,
      ← Finset.mul_sum, Complex.re_ofReal_mul]
    ring

/-- a linear map on rows commutes with a linear map on columns -/
theorem rows_cols_comm {N N' M M' : ℕ} (f : (Fin N → ℝ) → Fin N' → ℝ) (hf : IsLinearMap ℝ f)
    (g : (Fin M → ℝ) → Fin M' → ℝ) (hg : IsLinearMap ℝ g) (X : Fin M → Fin N → ℝ)
    (r : Fin M') :
    f (fun c => g (fun i => X i c) r) = fun c => g (fun i => f (X i) c) r := by
  have hgs : ∀ v : Fin M → ℝ,
      g v = ∑ i, v i • g (fun j => if i = j then (1 : ℝ) else 0) := fun v =>
    LinearMap.pi_apply_eq_sum_univ (hg.mk' g) v
  have h1 : (fun c => g (fun i => X i c) r)
      = ∑ i, (g (fun j => if i = j then (1 : ℝ) else 0) r) • X i := by
    funext c
    rw [hgs (fun i => X i c)]
    simp [Finset.sum_apply, mul_comm]
  rw [h1]
  have h2 := map_sum (hf.mk' f)
    (fun i => (g (fun j => if i = j then (1 : ℝ) else 0) r) • X i) Finset.univ
  simp only [IsLinearMap.mk'_apply] at h2
  rw [h2]
  funext c
  rw [hgs (fun i => f (X i) c)]
  simp only [Finset.sum_apply, Pi.smul_apply, smul_eq_mul]
  refine Finset.sum_congr rfl fun i _ => ?_
  rw [hf.map_smul]
  simp [mul_comm]

/-! ## The row passes -/

section
variable {K : Type} [Field K]

theorem dct_forward_apply (F : FFTPrimitive K) {M N : ℕ} (x : Batch K M N) (expk : Twiddle K N)
    (r : Fin M) (k : Fin N) :
    dct_forward F x expk r k = 1 / (N : K) * forwardPass F (x r) expk k := by
  simp only [dct_forward, computeMulExpkHipLauncher, MulExpk, mul_spectrum, forwardPass,
    at_rfft, computeReorderHipLauncher]
  split <;> ring

theorem idct_forward_apply (F : FFTPrimitive K) {M N : ℕ} (x : Batch K M N)
    (expk : Twiddle K N) (r : Fin M) (n : Fin N) :
    idct_forward F x expk r n = inversePass F (x r) expk n * (1 / 2 * (N : K)) :=
  rfl

theorem dct2_forward_apply (F : FFTPrimitive K) {M N : ℕ} (x : Batch K M N)
    (expk0 : Twiddle K M) (expk1 : Twiddle K N) (r : Fin M) (c : Fin N) :
    dct2_forward F x expk0 expk1 r c
      = forwardPass F (fun i => forwardPass F (x i) expk1 c) expk0 r
          * (1 / ((M * N : ℕ) : K)) :=
  rfl

theorem idct2_forward_apply (F : FFTPrimitive K) {M N : ℕ} (x : Batch K M N)
    (expk0 : Twiddle K M) (expk1 : Twiddle K N) (r : Fin M) (c : Fin N) :
    idct2_forward F x expk0 expk1 r c
      = inversePass F (fun i => inversePass F (x i) expk1 c) expk0 r
          * (1 / 4 * (M : K) * (N : K)) :=
  rfl

theorem MulExpk_smul_table {N : ℕ} (t : K) (s : Fin (N / 2 + 1) → K × K) (expk : Twiddle K N) :
    MulExpk s (t • expk) = t • MulExpk s expk := by
  funext k
  simp only [MulExpk, Pi.smul_apply, Prod.smul_fst, Prod.smul_snd, smul_eq_mul]
  split_ifs <;> ring

theorem Vk_smul_table {N : ℕ} (t : K) (x : Fin N → K) (expk : Twiddle K N) :
    Vk x (t • expk) = t • Vk x expk := by
  funext k
  simp only [Vk, Pi.smul_apply, Prod.smul_fst, Prod.smul_snd, smul_eq_mul]
  split_ifs <;> apply Prod.ext <;> simp <;> ring
end

theorem forwardPass_isLinearMap {N : ℕ} (expk : Twiddle ℝ N) :
    IsLinearMap ℝ (fun x : Fin N → ℝ => forwardPass fftReal x expk) where
  map_add x y := by
    simp only [forwardPass, fftReal, (Reorder_isLinearMap N).map_add,
      (rfftReal_isLinearMap N).map_add]
    exact (MulExpk_isLinearMap expk).map_add _ _
  map_smul c x := by
    simp only [forwardPass, fftReal, (Reorder_isLinearMap N).map_smul,
      (rfftReal_isLinearMap N).map_smul]
    exact (MulExpk_isLinearMap expk).map_smul _ _

theorem inversePass_isLinearMap {N : ℕ} (expk : Twiddle ℝ N) :
    IsLinearMap ℝ (fun x : Fin N → ℝ => inversePass fftReal x expk) where
  map_add x y := by
    simp only [inversePass, fftReal]
    rw [(Vk_isLinearMap expk).map_add, (irfftReal_isLinearMap N).map_add,
      (ReorderReverse_isLinearMap N).map_add]
  map_smul c x := by
    simp only [inversePass, fftReal]
    rw [(Vk_isLinearMap expk).map_smul, (irfftReal_isLinearMap N).map_smul,
      (ReorderReverse_isLinearMap N).map_smul]

theorem forwardPass_smul_table {N : ℕ} (t : ℝ) (x : Fin N → ℝ) (expk : Twiddle ℝ N) :
    forwardPass fftReal x (t • expk) = t • forwardPass fftReal x expk := by
  simp only [forwardPass, MulExpk_smul_table]

theorem inversePass_smul_table {N : ℕ} (t : ℝ) (x : Fin N → ℝ) (expk : Twiddle ℝ N) :
    inversePass fftReal x (t • expk) = t • inversePass fftReal x expk := by
  simp only [inversePass, fftReal, Vk_smul_table]
  rw [(irfftReal_isLinearMap N).map_smul, (ReorderReverse_isLinearMap N).map_smul]

theorem forwardPass_eq_dctII {N : ℕ} (hN : Even N) (x : Fin N → ℝ) (k : Fin N) :
    forwardPass fftReal x (expkTable N) k = 2 * dctII N x k.val :=
  MulExpk_rfftReal_Reorder hN x k

theorem inversePass_forwardPass {N : ℕ} (hN : Even N) (x : Fin N → ℝ) :
    inversePass fftReal (forwardPass fftReal x (expkTable N)) (expkTable N) = x :=
  inverse_pass_forward_pass hN x

/-- with the table `t·W_{4N}^k`, the 1D round trip multiplies by `t²/2` -/
theorem idct_dct_scaled {M N : ℕ} (hN : Even N) (t : ℝ) (x : Batch ℝ M N) (r : Fin M)
    (n : Fin N) :
    idct_forward fftReal (dct_forward fftReal x (t • expkTable N)) (t • expkTable N) r n
      = t * t / 2 * x r n := by
  have hN0 : (N : ℝ) ≠ 0 := by
    have : 0 < N := by have := n.isLt; omega
    exact_mod_cast this.ne'
  rw [idct_forward_apply]
  have h1 : dct_forward fftReal x (t • expkTable N) r
      = (1 / (N : ℝ) * t) • forwardPass fftReal (x r) (expkTable N) := by
    funext k
    rw [dct_forward_apply, forwardPass_smul_table]
    simp only [Pi.smul_apply, smul_eq_mul]
    ring
  rw [h1, inversePass_smul_table, (inversePass_isLinearMap (expkTable N)).map_smul,
    inversePass_forwardPass hN]
  simp only [Pi.smul_apply, smul_eq_mul]
  field_simp
  ring

theorem idct_dct_half {M N : ℕ} (hN : Even N) (x : Batch ℝ M N) (r : Fin M) (n : Fin N) :
    idct_forward fftReal (dct_forward fftReal x (expkTable N)) (expkTable N) r n
      = 1 / 2 * x r n := by
  have h := idct_dct_scaled hN 1 x r n
  rw [one_smul] at h
  rw [h]
  ring

theorem idct2_dct2_quarter {M N : ℕ} (hM : Even M) (hN : Even N) (x : Batch ℝ M N)
    (r : Fin M) (c : Fin N) :
    idct2_forward fftReal (dct2_forward fftReal x (expkTable M) (expkTable N))
        (expkTable M) (expkTable N) r c
      = 1 / 4 * x r c := by
  have hM0 : (M : ℝ) ≠ 0 := by
    have : 0 < M := by have := r.isLt; omega
    exact_mod_cast this.ne'
  have hN0 : (N : ℝ) ≠ 0 := by
    have : 0 < N := by have := c.isLt; omega
    exact_mod_cast this.ne'
  rw [idct2_forward_apply]
  -- row `i` of the forward result, after the inverse pass along the last axis
  have hrow : ∀ i : Fin M,
      inversePass fftReal (dct2_forward fftReal x (expkTable M) (expkTable N) i) (expkTable N)
        = (1 / ((M * N : ℕ) : ℝ)) •
            fun c' => forwardPass fftReal (fun i' => x i' c') (expkTable M) i := by
    intro i
    have h1 : dct2_forward fftReal x (expkTable M) (expkTable N) i
        = (1 / ((M * N : ℕ) : ℝ)) • fun c' =>
            forwardPass fftReal (fun i' => forwardPass fftReal (x i') (expkTable N) c')
              (expkTable M) i := by
      funext c'
      rw [dct2_forward_apply]
      simp only [Pi.smul_apply, smul_eq_mul]
      ring
    rw [h1, (inversePass_isLinearMap (expkTable N)).map_smul]
    congr 1
    rw [rows_cols_comm (fun v => inversePass fftReal v (expkTable N))
      (inversePass_isLinearMap (expkTable N))
      (fun v => forwardPass fftReal v (expkTable M))
      (forwardPass_isLinearMap (expkTable M))
      (fun i' => forwardPass fftReal (x i') (expkTable N)) i]
    funext c'
    simp only [inversePass_forwardPass hN]
  have hcol : (fun i => inversePass fftReal
        (dct2_forward fftReal x (expkTable M) (expkTable N) i) (expkTable N) c)
      = (1 / ((M * N : ℕ) : ℝ)) • forwardPass fftReal (fun i' => x i' c) (expkTable M) := by
    funext i
    rw [hrow i]
    simp only [Pi.smul_apply, smul_eq_mul]
  rw [hcol, (inversePass_isLinearMap (expkTable M)).map_smul, inversePass_forwardPass hM]
  simp only [Pi.smul_apply, smul_eq_mul]
  push_cast
  field_simp


theorem sqrt_two_table_roundtrip {M N : ℕ} (hN : Even N) (z : Batch ℝ M N) :
    idct_forward fftReal (dct_forward fftReal z (Real.sqrt 2 • expkTable N))
      (Real.sqrt 2 • expkTable N) = z := by
  funext r n
  rw [idct_dct_scaled hN, Real.mul_self_sqrt (by norm_num)]
  ring


/-! ## The round trip under the two readings of Vk -/

section SpecVkLemmas

variable {K : Type} [Field K]

/-- `VkSpec` does not read the coefficient `N/2` of its input: there the formula takes the
difference of `x[N/2]` with itself. -/
theorem VkSpec_congr {N : ℕ} (hN : Even N) (hN2 : 2 ≤ N) (x x' : Fin N → K)
    (expk : Twiddle K N) (h : ∀ k : Fin N, k.val ≠ N / 2 → x k = x' k) :
    VkSpec x expk = VkSpec x' expk := by
  obtain ⟨n, rfl⟩ := hN
  have hhalf : (n + n) / 2 = n := by omega
  funext k
  simp only [VkSpec]
  by_cases hk : k.val = 0
  · simp only [hk, dif_pos, show 0 < n + n by omega]
    rw [h ⟨0, by omega⟩ (by simp only [hhalf]; omega)]
  · simp only [hk, dif_neg, not_false_eq_true]
    have hklt : k.val < n + 1 := by have := k.isLt; omega
    by_cases hkn : k.val = n
    · have e1 : (⟨(n + n - k.val) % (n + n), Nat.mod_lt _ (by omega)⟩ : Fin (n + n))
          = ⟨k.val, by omega⟩ := by
        apply Fin.ext
        simp only [hkn]
        rw [Nat.add_sub_cancel, Nat.mod_eq_of_lt (by omega)]
      rw [e1]
      simp
    · have hmod : (n + n - k.val) % (n + n) = n + n - k.val := Nat.mod_eq_of_lt (by omega)
      rw [h ⟨k.val, by omega⟩ (by simp only [hhalf]; omega),
        h ⟨(n + n - k.val) % (n + n), Nat.mod_lt _ (by omega)⟩
          (by simp only [hhalf, hmod]; omega)]

theorem idct_forward_specVk_congr (F : FFTPrimitive K) {M N : ℕ} (hN : Even N) (hN2 : 2 ≤ N)
    (x x' : Batch K M N) (expk : Twiddle K N)
    (h : ∀ (r : Fin M) (k : Fin N), k.val ≠ N / 2 → x r k = x' r k) :
    idct_forward_specVk F x expk = idct_forward_specVk F x' expk := by
  have e : computeVkSpecLauncher x expk = computeVkSpecLauncher x' expk := by
    funext r
    exact VkSpec_congr hN hN2 (x r) (x' r) expk (h r)
  simp only [idct_forward_specVk, e]

theorem idct2_forward_specVk_congr (F : FFTPrimitive K) {M N : ℕ} (hN : Even N)
    (hN2 : 2 ≤ N) (x x' : Batch K M N) (expk0 : Twiddle K M) (expk1 : Twiddle K N)
    (h : ∀ (r : Fin M) (k : Fin N), k.val ≠ N / 2 → x r k = x' r k) :
    idct2_forward_specVk F x expk0 expk1 = idct2_forward_specVk F x' expk0 expk1 := by
  have e : computeVkSpecLauncher x expk1 = computeVkSpecLauncher x' expk1 := by
    funext r
    exact VkSpec_congr hN hN2 (x r) (x' r) expk1 (h r)
  simp only [idct2_forward_specVk, e]

end SpecVkLemmas

theorem dct_forward_isLinearMap {M N : ℕ} (expk : Twiddle ℝ N) :
    IsLinearMap ℝ (fun x : Batch ℝ M N => dct_forward fftReal x expk) where
  map_add x y := by
    funext r k
    simp only [Pi.add_apply, dct_forward_apply]
    rw [(forwardPass_isLinearMap expk).map_add]
    simp only [Pi.add_apply]
    ring
  map_smul c x := by
    funext r k
    simp only [Pi.smul_apply, dct_forward_apply, smul_eq_mul]
    rw [(forwardPass_isLinearMap expk).map_smul]
    simp only [Pi.smul_apply, smul_eq_mul]
    ring

theorem dct2_forward_isLinearMap {M N : ℕ} (expk0 : Twiddle ℝ M) (expk1 : Twiddle ℝ N) :
    IsLinearMap ℝ (fun x : Batch ℝ M N => dct2_forward fftReal x expk0 expk1) where
  map_add x y := by
    funext r c
    simp only [Pi.add_apply, dct2_forward_apply]
    have e : (fun i => forwardPass fftReal (x i + y i) expk1 c)
        = (fun i => forwardPass fftReal (x i) expk1 c)
          + (fun i => forwardPass fftReal (y i) expk1 c) := by
      funext i
      rw [(forwardPass_isLinearMap expk1).map_add]
      rfl
    rw [e, (forwardPass_isLinearMap expk0).map_add]
    simp only [Pi.add_apply]
    ring
  map_smul a x := by
    funext r c
    simp only [Pi.smul_apply, dct2_forward_apply, smul_eq_mul]
    have e : (fun i => forwardPass fftReal (a • x i) expk1 c)
        = a • (fun i => forwardPass fftReal (x i) expk1 c) := by
      funext i
      rw [(forwardPass_isLinearMap expk1).map_smul]
      rfl
    rw [e, (forwardPass_isLinearMap expk0).map_smul]
    simp only [Pi.smul_apply, smul_eq_mul]
    ring

/-- With the `W_{4N}^k` table the forward transform reaches every batch. -/
theorem dct_forward_surjective {M N : ℕ} (hN : Even N) :
    Function.Surjective (fun x : Batch ℝ M N => dct_forward fftReal x (expkTable N)) := by
  have hinj : Function.Injective
      ((dct_forward_isLinearMap (expkTable N)).mk' (fun x : Batch ℝ M N =>
        dct_forward fftReal x (expkTable N))) := by
    intro x x' h
    have h' : dct_forward fftReal x (expkTable N) = dct_forward fftReal x' (expkTable N) := h
    funext r n
    have h1 := idct_dct_half hN x r n
    have h2 := idct_dct_half hN x' r n
    rw [h'] at h1
    linarith
  exact LinearMap.injective_iff_surjective.mp hinj

/-- With the `W` tables the 2D forward transform reaches every array. -/
theorem dct2_forward_surjective {M N : ℕ} (hM : Even M) (hN : Even N) :
    Function.Surjective (fun x : Batch ℝ M N =>
      dct2_forward fftReal x (expkTable M) (expkTable N)) := by
  have hinj : Function.Injective
      ((dct2_forward_isLinearMap (expkTable M) (expkTable N)).mk' (fun x : Batch ℝ M N =>
        dct2_forward fftReal x (expkTable M) (expkTable N))) := by
    intro x x' h
    have h' : dct2_forward fftReal x (expkTable M) (expkTable N)
        = dct2_forward fftReal x' (expkTable M) (expkTable N) := h
    funext r c
    have h1 := idct2_dct2_quarter hM hN x r c
    have h2 := idct2_dct2_quarter hM hN x' r c
    rw [h'] at h1
    linarith
  exact LinearMap.injective_iff_surjective.mp hinj

/-- With `VkSpec` the 1D round trip is not the identity: the inverse does not read the
coefficient `N/2`, and the forward transform reaches batches that differ only there. -/
theorem idct_specVk_dct_not_identity {M N : ℕ} (hM : 1 ≤ M) (hN : Even N) (hN2 : 2 ≤ N) :
    ∃ x : Batch ℝ M N,
      idct_forward_specVk fftReal (dct_forward fftReal x (expkTable N)) (expkTable N) ≠ x := by
  by_contra hcon
  push_neg at hcon
  obtain ⟨x0, hx0⟩ := dct_forward_surjective (M := M) hN
    (fun _ k => if k.val = N / 2 then 1 else 0)
  have hz : dct_forward fftReal (0 : Batch ℝ M N) (expkTable N) = 0 :=
    (dct_forward_isLinearMap (expkTable N)).map_zero
  have e := idct_forward_specVk_congr fftReal hN hN2
    (dct_forward fftReal x0 (expkTable N)) (dct_forward fftReal (0 : Batch ℝ M N) (expkTable N))
    (expkTable N) (by
      intro r k hk
      have := congrFun (congrFun hx0 r) k
      simp only at this
      rw [this, hz, if_neg hk]
      rfl)
  rw [hcon x0, hcon 0] at e
  have h1 := congrFun (congrFun hx0 ⟨0, by omega⟩) ⟨N / 2, by omega⟩
  simp only at h1
  rw [e, hz] at h1
  simp at h1

/-- With `VkSpec` the 2D round trip is not the identity. -/
theorem idct2_specVk_dct2_not_identity {M N : ℕ} (hM1 : 1 ≤ M) (hM : Even M) (hN : Even N)
    (hN2 : 2 ≤ N) :
    ∃ x : Batch ℝ M N,
      idct2_forward_specVk fftReal (dct2_forward fftReal x (expkTable M) (expkTable N))
        (expkTable M) (expkTable N) ≠ x := by
  by_contra hcon
  push_neg at hcon
  obtain ⟨x0, hx0⟩ := dct2_forward_surjective (M := M) hM hN
    (fun _ k => if k.val = N / 2 then 1 else 0)
  have hz : dct2_forward fftReal (0 : Batch ℝ M N) (expkTable M) (expkTable N) = 0 :=
    (dct2_forward_isLinearMap (expkTable M) (expkTable N)).map_zero
  have e := idct2_forward_specVk_congr fftReal hN hN2
    (dct2_forward fftReal x0 (expkTable M) (expkTable N))
    (dct2_forward fftReal (0 : Batch ℝ M N) (expkTable M) (expkTable N))
    (expkTable M) (expkTable N) (by
      intro r k hk
      have := congrFun (congrFun hx0 r) k
      simp only at this
      rw [this, hz, if_neg hk]
      rfl)
  rw [hcon x0, hcon 0] at e
  have h1 := congrFun (congrFun hx0 ⟨0, by omega⟩) ⟨N / 2, by omega⟩
  simp only at h1
  rw [e, hz] at h1
  simp at h1

theorem computeVkSpecLauncher_zero {M N : ℕ} (expk : Twiddle ℝ N) :
    computeVkSpecLauncher (0 : Batch ℝ M N) expk = 0 := by
  funext r k
  simp only [computeVkSpecLauncher, VkSpec, Pi.zero_apply]
  split_ifs <;> simp

theorem at_irfft_fftReal_zero {M N : ℕ} :
    at_irfft fftReal (0 : Spectrum ℝ M N) = 0 := by
  funext r
  exact (irfftReal_isLinearMap N).map_zero

theorem computeReorderReverseHipLauncher_zero {M N : ℕ} :
    computeReorderReverseHipLauncher (0 : Batch ℝ M N) = 0 := by
  funext r
  exact (ReorderReverse_isLinearMap N).map_zero

/-- With `VkSpec` the inverse transform of the zero batch is zero. -/
theorem idct_forward_specVk_zero {M N : ℕ} (expk : Twiddle ℝ N) :
    idct_forward_specVk fftReal (0 : Batch ℝ M N) expk = 0 := by
  simp only [idct_forward_specVk, computeVkSpecLauncher_zero, at_irfft_fftReal_zero,
    computeReorderReverseHipLauncher_zero]
  funext r n
  simp [mul_]

/-- With `VkSpec` the 2D inverse transform of the zero array is zero. -/
theorem idct2_forward_specVk_zero {M N : ℕ} (expk0 : Twiddle ℝ M) (expk1 : Twiddle ℝ N) :
    idct2_forward_specVk fftReal (0 : Batch ℝ M N) expk0 expk1 = 0 := by
  have ht : transpose (0 : Batch ℝ M N) = 0 := rfl
  simp only [idct2_forward_specVk, computeVkSpecLauncher_zero, at_irfft_fftReal_zero,
    computeReorderReverseHipLauncher_zero, ht]
  funext r n
  simp [mul_, transpose]

/-- For `N = 2` the forward transform of `[1, -1]` has the coefficient `0` at `k = 0`. -/
theorem dct_forward_one_neg_one :
    dct_forward fftReal (![![1, -1]] : Batch ℝ 1 2) (expkTable 2) 0 0 = 0 := by
  rw [dct_forward_apply, forwardPass_eq_dctII (by decide)]
  simp [dctII, Fin.sum_univ_two]

/-- For `M = N = 2` the 2D forward transform of `[[1, -1], [0, 0]]` has the column `0`
equal to zero. -/
theorem dct2_forward_one_neg_one (r : Fin 2) :
    dct2_forward fftReal (![![1, -1], ![0, 0]] : Batch ℝ 2 2) (expkTable 2) (expkTable 2) r 0
      = 0 := by
  rw [dct2_forward_apply]
  have e : (fun i => forwardPass fftReal ((![![1, -1], ![0, 0]] : Batch ℝ 2 2) i)
      (expkTable 2) 0) = 0 := by
    funext i
    rw [forwardPass_eq_dctII (by decide)]
    fin_cases i <;> simp [dctII, Fin.sum_univ_two]
  rw [e, (forwardPass_isLinearMap (expkTable 2)).map_zero]
  simp

/-- With the table `2·W_{4N}^k` the code's round trip returns `2·x`: for that table the
factor `0.25·N`, which `dct_hip.cpp:99` calls the normal one, would be the exactly inverting
one. -/
theorem idct_dct_two_table {M N : ℕ} (hN : Even N) (x : Batch ℝ M N) :
    idct_forward fftReal (dct_forward fftReal x ((2 : ℝ) • expkTable N))
      ((2 : ℝ) • expkTable N) = fun r n => 2 * x r n := by
  funext r n
  rw [idct_dct_scaled hN]
  ring

theorem dct2_forward_smul_table {M N : ℕ} (t : ℝ) (x : Batch ℝ M N) (expk0 : Twiddle ℝ M)
    (expk1 : Twiddle ℝ N) :
    dct2_forward fftReal x (t • expk0) (t • expk1)
      = (t * t) • dct2_forward fftReal x expk0 expk1 := by
  funext r c
  simp only [dct2_forward_apply, Pi.smul_apply, smul_eq_mul, forwardPass_smul_table]
  have e : (fun i => t * forwardPass fftReal (x i) expk1 c)
      = t • (fun i => forwardPass fftReal (x i) expk1 c) := rfl
  rw [e, (forwardPass_isLinearMap expk0).map_smul]
  simp only [Pi.smul_apply, smul_eq_mul]
  ring

theorem idct2_forward_smul_table {M N : ℕ} (t : ℝ) (x : Batch ℝ M N) (expk0 : Twiddle ℝ M)
    (expk1 : Twiddle ℝ N) :
    idct2_forward fftReal x (t • expk0) (t • expk1)
      = (t * t) • idct2_forward fftReal x expk0 expk1 := by
  funext r c
  simp only [idct2_forward_apply, Pi.smul_apply, smul_eq_mul, inversePass_smul_table]
  have e : (fun i => t * inversePass fftReal (x i) expk1 c)
      = t • (fun i => inversePass fftReal (x i) expk1 c) := rfl
  rw [e, (inversePass_isLinearMap expk0).map_smul]
  simp only [Pi.smul_apply, smul_eq_mul]
  ring

theorem idct2_forward_smul {M N : ℕ} (a : ℝ) (x : Batch ℝ M N) (expk0 : Twiddle ℝ M)
    (expk1 : Twiddle ℝ N) :
    idct2_forward fftReal (a • x) expk0 expk1 = a • idct2_forward fftReal x expk0 expk1 := by
  funext r c
  simp only [idct2_forward_apply, Pi.smul_apply, smul_eq_mul]
  have e : (fun i => inversePass fftReal (a • x i) expk1 c)
      = a • (fun i => inversePass fftReal (x i) expk1 c) := by
    funext i
    rw [(inversePass_isLinearMap expk1).map_smul]
    rfl
  rw [e, (inversePass_isLinearMap expk0).map_smul]
  simp only [Pi.smul_apply, smul_eq_mul]
  ring

/-- With the tables `2·W` the code's 2D round trip returns `4·x`: for those tables the factor
`0.25·0.25·M·N`, which `dct_hip.cpp:270` calls the normal one, would be the exactly inverting
one. -/
theorem idct2_dct2_two_table {M N : ℕ} (hM : Even M) (hN : Even N) (x : Batch ℝ M N) :
    idct2_forward fftReal
        (dct2_forward fftReal x ((2 : ℝ) • expkTable M) ((2 : ℝ) • expkTable N))
        ((2 : ℝ) • expkTable M) ((2 : ℝ) • expkTable N) = fun r c => 4 * x r c := by
  rw [dct2_forward_smul_table, idct2_forward_smul_table, idct2_forward_smul]
  funext r c
  simp only [Pi.smul_apply, smul_eq_mul]
  rw [idct2_dct2_quarter hM hN]
  ring

/-! ## The claims -/

/-- Claim C1 (as amended): the round trip of the 1D transforms is not the identity. For every
`M ≥ 1` and every even `N ≥ 2`, with the `W_{4N}^k` twiddle table and the scale factors `1/N`
(forward) and `0.5·N` (inverse), there is a real `M × N` batch `x` with
`idct_forward(dct_forward(x, expk), expk) ≠ x`; this holds with Vk read as the Hermitian
spectrum of the inverse algorithm (`idct_forward`) and with Vk as the specification writes
its formula (`idct_forward_specVk`). -/
theorem idct_dct_not_identity {M N : ℕ} (hM : 1 ≤ M) (hN : Even N) (hN2 : 2 ≤ N) :
    (∃ x : Batch ℝ M N,
      idct_forward fftReal (dct_forward fftReal x (expkTable N)) (expkTable N) ≠ x) ∧
    (∃ x : Batch ℝ M N,
      idct_forward_specVk fftReal (dct_forward fftReal x (expkTable N)) (expkTable N)
        ≠ x) := by
  refine ⟨⟨fun _ _ => 1, fun h => ?_⟩, idct_specVk_dct_not_identity hM hN hN2⟩
  have h1 := congrFun (congrFun h ⟨0, by omega⟩) ⟨0, by omega⟩
  rw [idct_dct_half hN] at h1
  norm_num at h1

/-- Witness for `idct_dct_not_identity`: `M = 1`, `N = 2`. -/
theorem idct_dct_not_identity_witness :
    1 ≤ 1 ∧ Even 2 ∧ 2 ≤ 2 ∧
    (∃ x : Batch ℝ 1 2,
      idct_forward fftReal (dct_forward fftReal x (expkTable 2)) (expkTable 2) ≠ x) ∧
    (∃ x : Batch ℝ 1 2,
      idct_forward_specVk fftReal (dct_forward fftReal x (expkTable 2)) (expkTable 2) ≠ x) :=
  ⟨by decide, by decide, by decide,
    idct_dct_not_identity (by decide) (by decide) (by decide)⟩

/-- Claim C1 as stated fails: for `M = 1`, `N = 2` and the `W_8^k` table,
`idct_forward(dct_forward(x, expk), expk)` is not `x` for `x = [1, 1]` (with `idct_forward`
it is `[1/2, 1/2]`), and with Vk as the specification writes it the round trip of
`x = [1, -1]` is `[0, 0]`. -/
theorem idct_dct_ne_self :
    ¬ (idct_forward fftReal (dct_forward fftReal (![![1, 1]] : Batch ℝ 1 2) (expkTable 2))
        (expkTable 2) = ![![1, 1]]) ∧
    idct_forward_specVk fftReal (dct_forward fftReal (![![1, -1]] : Batch ℝ 1 2) (expkTable 2))
        (expkTable 2) = 0 ∧
    ¬ (idct_forward_specVk fftReal
        (dct_forward fftReal (![![1, -1]] : Batch ℝ 1 2) (expkTable 2)) (expkTable 2)
        = ![![1, -1]]) := by
  have hz : idct_forward_specVk fftReal
      (dct_forward fftReal (![![1, -1]] : Batch ℝ 1 2) (expkTable 2)) (expkTable 2) = 0 := by
    rw [idct_forward_specVk_congr fftReal (by decide) (by decide) _ (0 : Batch ℝ 1 2)
      (expkTable 2) (by
        intro r k hk
        have hk0 : k = 0 := by
          apply Fin.ext
          have := k.isLt
          simp only [Nat.reduceDiv] at hk
          simp only [Fin.val_zero]
          omega
        have hr : r = 0 := Subsingleton.elim _ _
        rw [hk0, hr, dct_forward_one_neg_one]
        rfl)]
    exact idct_forward_specVk_zero _
  refine ⟨?_, hz, ?_⟩
  · intro h
    have h1 := congrFun (congrFun h 0) 0
    rw [idct_dct_half (by decide)] at h1
    norm_num at h1
  · rw [hz]
    intro h
    have h1 := congrFun (congrFun h 0) 0
    norm_num at h1

/-- Claim C2 (as amended): reference definition of the forward transform. For every even `N`,
every real row of length `N` and every `k ∈ [0, N)`, with `expk[k] = W_{4N}^k`,
`dct_forward(x, expk)[k] = (2/N)·DCT-II[k]`, where
`DCT-II[k] = Σ_n x[n]·cos(π/N·(n+0.5)·k)`. -/
theorem dct_forward_eq_two_div_dctII {M N : ℕ} (hN : Even N) (x : Batch ℝ M N) (r : Fin M)
    (k : Fin N) :
    dct_forward fftReal x (expkTable N) r k = 2 / (N : ℝ) * dctII N (x r) k.val := by
  rw [dct_forward_apply, forwardPass_eq_dctII hN]
  ring

/-- Witness for `dct_forward_eq_two_div_dctII`: the reference case `N = 4`, `M = 1`,
`x = [1, 2, 3, 4]`, at `k = 1`. -/
theorem dct_forward_eq_two_div_dctII_witness :
    Even 4 ∧
      dct_forward fftReal (![![1, 2, 3, 4]] : Batch ℝ 1 4) (expkTable 4) 0 1
        = 2 / ((4 : ℕ) : ℝ) * dctII 4 ((![![1, 2, 3, 4]] : Batch ℝ 1 4) 0) (1 : Fin 4).val :=
  ⟨by decide, dct_forward_eq_two_div_dctII (by decide) _ 0 1⟩

/-- Claim C2 as stated fails on its own reference case: for `N = 4`, `M = 1`,
`x = [1, 2, 3, 4]` and `k = 0`, `dct_forward(x, expk)[0] = 5` while
`(1/N)·DCT-II[0] = 10/4`. -/
theorem dct_forward_ne_dctII_div :
    ¬ (dct_forward fftReal (![![1, 2, 3, 4]] : Batch ℝ 1 4) (expkTable 4) 0 0
        = 1 / ((4 : ℕ) : ℝ) * dctII 4 ((![![1, 2, 3, 4]] : Batch ℝ 1 4) 0) 0) := by
  rw [dct_forward_apply, forwardPass_eq_dctII (by decide)]
  simp [dctII, Fin.sum_univ_four]
  norm_num

section Structure

variable {K : Type} [Field K]

/-- Claim C3: `dst_forward(x, expk)` equals `Flip(dct_forward(NegateOddEntries(x), expk))`
element for element, for every batch, every twiddle table and every FFT primitive. -/
theorem dst_forward_eq_flip_dct_negateOdd (F : FFTPrimitive K) {M N : ℕ} (x : Batch K M N)
    (expk : Twiddle K N) :
    dst_forward F x expk
      = computeFlipHipLauncher (dct_forward F (negateOddEntriesHipLauncher x) expk) :=
  rfl

/-- Claim C4: IDST is the inverse of DST. For every `x` and `expk`, if
`idct_forward(dct_forward(z, expk), expk) = z` for all `z`, then
`idst_forward(dst_forward(x, expk), expk) = x`. -/
theorem idst_dst_of_idct_dct (F : FFTPrimitive K) {M N : ℕ} (expk : Twiddle K N)
    (h : ∀ z : Batch K M N, idct_forward F (dct_forward F z expk) expk = z)
    (x : Batch K M N) :
    idst_forward F (dst_forward F x expk) expk = x := by
  have hflip : ∀ y : Batch K M N, computeFlipHipLauncher (computeFlipHipLauncher y) = y := by
    intro y; funext r; exact Flip_Flip (y r)
  have hneg : ∀ y : Batch K M N,
      negateOddEntriesHipLauncher (negateOddEntriesHipLauncher y) = y := by
    intro y; funext r; exact NegateOddEntries_NegateOddEntries (y r)
  simp only [idst_forward, dst_forward]
  rw [hflip, h, hneg]

end Structure

/-- Witness for `idst_dst_of_idct_dct`: over the reals with the exact FFT, `M = 1`, `N = 2`
and the table `√2·W_8^k`, for which the cosine round trip is the identity; `x = [1, 2]`. -/
theorem idst_dst_of_idct_dct_witness :
    (∀ z : Batch ℝ 1 2,
        idct_forward fftReal (dct_forward fftReal z (Real.sqrt 2 • expkTable 2))
          (Real.sqrt 2 • expkTable 2) = z) ∧
      idst_forward fftReal
          (dst_forward fftReal (![![1, 2]] : Batch ℝ 1 2) (Real.sqrt 2 • expkTable 2))
          (Real.sqrt 2 • expkTable 2)
        = ![![1, 2]] :=
  ⟨fun z => sqrt_two_table_roundtrip (by decide) z,
    idst_dst_of_idct_dct fftReal _ (fun z => sqrt_two_table_roundtrip (by decide) z) _⟩

/-- Claim C5 (as amended): the round trip of the 2D transforms is not the identity. For all
even `M ≥ 2` and `N ≥ 2`, with the `W` twiddle tables for the lengths `M` and `N` and the
single final scale factors `1/(M·N)` (forward) and `0.25·M·N` (inverse), there is a real
`M × N` array `x` with `idct2_forward(dct2_forward(x, expk0, expk1), expk0, expk1) ≠ x`;
this holds with Vk read as the Hermitian spectrum of the inverse algorithm
(`idct2_forward`) and with Vk as the specification writes its formula
(`idct2_forward_specVk`). -/
theorem idct2_dct2_not_identity {M N : ℕ} (hM : Even M) (hM2 : 2 ≤ M) (hN : Even N)
    (hN2 : 2 ≤ N) :
    (∃ x : Batch ℝ M N,
      idct2_forward fftReal (dct2_forward fftReal x (expkTable M) (expkTable N))
        (expkTable M) (expkTable N) ≠ x) ∧
    (∃ x : Batch ℝ M N,
      idct2_forward_specVk fftReal (dct2_forward fftReal x (expkTable M) (expkTable N))
        (expkTable M) (expkTable N) ≠ x) := by
  refine ⟨⟨fun _ _ => 1, fun h => ?_⟩,
    idct2_specVk_dct2_not_identity (by omega) hM hN hN2⟩
  have h1 := congrFun (congrFun h ⟨0, by omega⟩) ⟨0, by omega⟩
  rw [idct2_dct2_quarter hM hN] at h1
  norm_num at h1

/-- Witness for `idct2_dct2_not_identity`: `M = N = 2`. -/
theorem idct2_dct2_not_identity_witness :
    Even 2 ∧ 2 ≤ 2 ∧ Even 2 ∧ 2 ≤ 2 ∧
    (∃ x : Batch ℝ 2 2,
      idct2_forward fftReal (dct2_forward fftReal x (expkTable 2) (expkTable 2))
        (expkTable 2) (expkTable 2) ≠ x) ∧
    (∃ x : Batch ℝ 2 2,
      idct2_forward_specVk fftReal (dct2_forward fftReal x (expkTable 2) (expkTable 2))
        (expkTable 2) (expkTable 2) ≠ x) :=
  ⟨by decide, by decide, by decide, by decide,
    idct2_dct2_not_identity (by decide) (by decide) (by decide) (by decide)⟩

/-- Claim C5 as stated fails: for `M = N = 2` and the `W_8^k` tables,
`idct2_forward(dct2_forward(x, expk0, expk1), expk0, expk1)` is not `x` for
`x = [[1, 1], [1, 1]]` (with `idct2_forward` every entry is `1/4`), and with Vk as the
specification writes it the round trip of `x = [[1, -1], [0, 0]]` is the zero array. -/
theorem idct2_dct2_ne_self :
    ¬ (idct2_forward fftReal
        (dct2_forward fftReal (![![1, 1], ![1, 1]] : Batch ℝ 2 2) (expkTable 2) (expkTable 2))
        (expkTable 2) (expkTable 2) = ![![1, 1], ![1, 1]]) ∧
    idct2_forward_specVk fftReal
        (dct2_forward fftReal (![![1, -1], ![0, 0]] : Batch ℝ 2 2) (expkTable 2)
          (expkTable 2))
        (expkTable 2) (expkTable 2) = 0 ∧
    ¬ (idct2_forward_specVk fftReal
        (dct2_forward fftReal (![![1, -1], ![0, 0]] : Batch ℝ 2 2) (expkTable 2)
          (expkTable 2))
        (expkTable 2) (expkTable 2) = ![![1, -1], ![0, 0]]) := by
  have hz : idct2_forward_specVk fftReal
      (dct2_forward fftReal (![![1, -1], ![0, 0]] : Batch ℝ 2 2) (expkTable 2)
        (expkTable 2))
      (expkTable 2) (expkTable 2) = 0 := by
    rw [idct2_forward_specVk_congr fftReal (by decide) (by decide) _ (0 : Batch ℝ 2 2)
      (expkTable 2) (expkTable 2) (by
        intro r k hk
        have hk0 : k = 0 := by
          apply Fin.ext
          have := k.isLt
          simp only [Nat.reduceDiv] at hk
          simp only [Fin.val_zero]
          omega
        rw [hk0, dct2_forward_one_neg_one]
        rfl)]
    exact idct2_forward_specVk_zero _ _
  refine ⟨?_, hz, ?_⟩
  · intro h
    have h1 := congrFun (congrFun h 0) 0
    rw [idct2_dct2_quarter (by decide) (by decide)] at h1
    norm_num at h1
  · rw [hz]
    intro h
    have h1 := congrFun (congrFun h 0) 0
    norm_num at h1

section Composition

variable {K : Type} [Field K]

/-- Claim C6: `dct_forward(x, expk) = (1/N)·MulExpk(ForwardRealFFT(Reorder(x)), expk)`, `N`
the length of the last axis: scaling the FFT spectrum by `1/N` before MulExpk (as the code
does) gives the same result as scaling the MulExpk result afterwards. -/
theorem dct_forward_eq_composition (F : FFTPrimitive K) {M N : ℕ} (x : Batch K M N)
    (expk : Twiddle K N) (r : Fin M) (k : Fin N) :
    dct_forward F x expk r k
      = (1 / (N : K)) *
          computeMulExpkHipLauncher
            (at_rfft F (computeReorderHipLauncher x)) expk r k := by
  simp only [dct_forward, computeMulExpkHipLauncher, MulExpk, mul_spectrum]
  split <;> ring

/-- Claim C7: `idct_forward(x, expk) = 0.5·N · ReorderReverse(InverseRealFFT(Vk(x, expk)))`,
`N` the length of the last axis and the output length of the inverse FFT; the factor is
`0.5·N`. -/
theorem idct_forward_eq_composition (F : FFTPrimitive K) {M N : ℕ} (x : Batch K M N)
    (expk : Twiddle K N) (r : Fin M) (n : Fin N) :
    idct_forward F x expk r n
      = (1 / 2 * (N : K)) *
          computeReorderReverseHipLauncher
            (at_irfft F (computeVkHipLauncher x expk)) r n := by
  simp only [idct_forward, mul_]
  ring

end Composition

/-- Claim C8: DCT2 is the separable composition of the 1D transform. For every `M × N` input,
`dct2_forward(x, expk0, expk1)
  = transpose(dct_forward(transpose(dct_forward(x, expk1)), expk0))`: the two unscaled passes
followed by one multiplication by `1/(M·N)` equal the passes scaled by `1/N` and `1/M`. -/
theorem dct2_forward_eq_separable {M N : ℕ} (x : Batch ℝ M N) (expk0 : Twiddle ℝ M)
    (expk1 : Twiddle ℝ N) :
    dct2_forward fftReal x expk0 expk1
      = transpose (dct_forward fftReal (transpose (dct_forward fftReal x expk1)) expk0) := by
  funext r c
  rw [dct2_forward_apply]
  simp only [transpose]
  rw [dct_forward_apply]
  have h : (fun i => dct_forward fftReal x expk1 i c)
      = (1 / (N : ℝ)) • fun i => forwardPass fftReal (x i) expk1 c := by
    funext i
    rw [dct_forward_apply]
    simp only [Pi.smul_apply, smul_eq_mul]
  have hT : transpose (dct_forward fftReal x expk1) c
      = fun i => dct_forward fftReal x expk1 i c := rfl
  rw [hT, h, (forwardPass_isLinearMap expk0).map_smul]
  simp only [Pi.smul_apply, smul_eq_mul]
  push_cast
  rw [one_div, one_div, one_div, mul_inv]
  ring

/-- Claim C9: IDCT2 mirrors DCT2 with one combined scale. For every `M × N` input,
`idct2_forward(x, expk0, expk1)` is Vk, inverse FFT, ReorderReverse along the last axis with
`expk1`, then along the other axis with `expk0`, times `0.25·M·N`, transposed back; hence
`idct2_forward(x, expk0, expk1)
  = transpose(idct_forward(transpose(idct_forward(x, expk1)), expk0))`. -/
theorem idct2_forward_eq_separable {M N : ℕ} (x : Batch ℝ M N) (expk0 : Twiddle ℝ M)
    (expk1 : Twiddle ℝ N) :
    (∀ (r : Fin M) (c : Fin N),
        idct2_forward fftReal x expk0 expk1 r c
          = 1 / 4 * (M : ℝ) * (N : ℝ) *
              ReorderReverse (irfftReal M (Vk
                (fun i => ReorderReverse (irfftReal N (Vk (x i) expk1)) c) expk0)) r) ∧
      idct2_forward fftReal x expk0 expk1
        = transpose (idct_forward fftReal (transpose (idct_forward fftReal x expk1)) expk0) := by
  constructor
  · intro r c
    rw [idct2_forward_apply]
    simp only [inversePass, fftReal]
    ring
  funext r c
  rw [idct2_forward_apply]
  simp only [transpose]
  rw [idct_forward_apply]
  have h : (fun i => idct_forward fftReal x expk1 i c)
      = (1 / 2 * (N : ℝ)) • fun i => inversePass fftReal (x i) expk1 c := by
    funext i
    rw [idct_forward_apply]
    simp only [Pi.smul_apply, smul_eq_mul]
    ring
  have hT : transpose (idct_forward fftReal x expk1) c
      = fun i => idct_forward fftReal x expk1 i c := rfl
  rw [hT, h, (inversePass_isLinearMap expk0).map_smul]
  simp only [Pi.smul_apply, smul_eq_mul]
  ring

/-- Claim C10: `idst_forward(x, expk) = NegateOddEntries(idct_forward(Flip(x), expk))`: each
row is reversed, inverse-cosine-transformed, and then its odd-indexed entries are negated. -/
theorem idst_forward_eq_negateOdd_idct_flip {K : Type} [Field K] (F : FFTPrimitive K)
    {M N : ℕ} (x : Batch K M N) (expk : Twiddle K N) :
    idst_forward F x expk
      = negateOddEntriesHipLauncher (idct_forward F (computeFlipHipLauncher x) expk) :=
  rfl

/-! ## Lemmas for the entry checks, move-boundary, wirelength and the memory model -/

/-! ## Reorder as a permutation -/

theorem reorderWriteDst_bijective {N : ℕ} (hN : Even N) :
    Function.Bijective (reorderWriteDst N) := by
  obtain ⟨H, rfl⟩ := hN
  rw [Fintype.bijective_iff_injective_and_card]
  constructor
  · rintro ⟨i, b⟩ ⟨j, c⟩ h
    have hi := i.isLt
    have hj := j.isLt
    have hij : i.val = j.val ∧ b = c := by
      cases b <;> cases c <;>
        simp only [reorderWriteDst, Bool.false_eq_true, if_true, if_false, Fin.mk.injEq] at h <;>
        first
          | exact ⟨by omega, rfl⟩
          | omega
    exact Prod.ext (Fin.ext hij.1) hij.2
  · simp only [Fintype.card_prod, Fintype.card_fin, Fintype.card_bool]
    omega

theorem reorderWriteSrc_bijective {N : ℕ} (hN : Even N) :
    Function.Bijective (reorderWriteSrc N) := by
  obtain ⟨H, rfl⟩ := hN
  rw [Fintype.bijective_iff_injective_and_card]
  constructor
  · rintro ⟨i, b⟩ ⟨j, c⟩ h
    have hi := i.isLt
    have hj := j.isLt
    have hij : i.val = j.val ∧ b = c := by
      cases b <;> cases c <;>
        simp only [reorderWriteSrc, Bool.false_eq_true, if_true, if_false, Fin.mk.injEq] at h <;>
        first
          | exact ⟨by omega, rfl⟩
          | omega
    exact Prod.ext (Fin.ext hij.1) hij.2
  · simp only [Fintype.card_prod, Fintype.card_fin, Fintype.card_bool]
    omega

theorem Reorder_write {K : Type} [Field K] {N : ℕ} (x : Fin N → K) (w : Fin (N / 2) × Bool) :
    Reorder x (reorderWriteDst N w) = x (reorderWriteSrc N w) := by
  obtain ⟨i, b⟩ := w
  have hi := i.isLt
  cases b
  · simp only [Reorder, reorderWriteDst, reorderWriteSrc, Bool.false_eq_true, if_false]
    rw [dif_pos hi]
  · simp only [Reorder, reorderWriteDst, reorderWriteSrc, if_true]
    rw [dif_neg (by omega), dif_pos (by omega)]
    congr 1
    apply Fin.ext
    simp only
    omega

/-! ## The entry assertions -/

section
variable {K : Type} [Field K]

theorem dct_forward_checked_ok (F : FFTPrimitive K) {M N : ℕ} (x : TensorArg (Batch K M N))
    (expk : TwiddleArg K) (hx : x.is_cuda = true) (hxc : x.is_contiguous = true)
    (he : expk.is_cuda = true) (hec : expk.is_contiguous = true) :
    dct_forward_checked F x expk = Except.ok (dct_forward F x.data (expk.table N)) := by
  simp [dct_forward_checked, CHECK_GPU, CHECK_CONTIGUOUS, hx, hxc, he, hec]
  rfl

end

section MoveBoundary

variable {K : Type} [LinearOrderedField K]

/-- the loop of `computeMoveBoundaryMapLauncher`, entry by entry, after `n` iterations -/
theorem moveBoundary_foldl_apply (x_tensor y_tensor sx sy : ℕ → K)
    (xl yl xh yh : K) (num_movable_nodes num_filler_nodes : ℤ) (total : ℕ) (n : ℕ) :
    ∀ i : ℕ,
    ((List.range n).foldl
        (moveBoundaryStep sx sy xl yl xh yh total num_movable_nodes num_filler_nodes)
        (x_tensor, y_tensor)).1 i
      = (if i < n ∧ ((i : ℤ) < num_movable_nodes ∨ (i : ℤ) ≥ (total : ℤ) - num_filler_nodes)
          then min (max (x_tensor i) xl) (xh - sx i) else x_tensor i) ∧
    ((List.range n).foldl
        (moveBoundaryStep sx sy xl yl xh yh total num_movable_nodes num_filler_nodes)
        (x_tensor, y_tensor)).2 i
      = (if i < n ∧ ((i : ℤ) < num_movable_nodes ∨ (i : ℤ) ≥ (total : ℤ) - num_filler_nodes)
          then min (max (y_tensor i) yl) (yh - sy i) else y_tensor i) := by
  induction n with
  | zero => intro i; simp
  | succ n ih =>
    intro i
    rw [List.range_succ, List.foldl_append]
    simp only [List.foldl_cons, List.foldl_nil]
    have ihn := ih n
    have ihi := ih i
    generalize (List.range n).foldl
      (moveBoundaryStep sx sy xl yl xh yh total num_movable_nodes num_filler_nodes)
      (x_tensor, y_tensor) = s at ihn ihi ⊢
    simp only [lt_irrefl, false_and, if_false] at ihn
    unfold moveBoundaryStep
    by_cases hc : (n : ℤ) < num_movable_nodes ∨ (n : ℤ) ≥ (total : ℤ) - num_filler_nodes
    · rw [if_pos hc]
      by_cases hin : i = n
      · subst hin
        simp only [Function.update_same, ihn.1, ihn.2, Nat.lt_succ_self, true_and, if_pos hc]
      · have hlt : i < n + 1 ↔ i < n := by omega
        simp only [Function.update_noteq hin, ihi.1, ihi.2, hlt]
        exact ⟨trivial, trivial⟩
    · rw [if_neg hc]
      by_cases hin : i = n
      · subst hin
        simp only [ihn.1, ihn.2, hc, and_false, if_false]
        exact ⟨trivial, trivial⟩
      · have hlt : i < n + 1 ↔ i < n := by omega
        simp only [ihi.1, ihi.2, hlt]
        exact ⟨trivial, trivial⟩

theorem moveBoundary_inside (x_tensor y_tensor sx sy : ℕ → K)
    (xl yl xh yh : K) (num_nodes : ℕ) (num_movable_nodes num_filler_nodes : ℤ) (i : ℕ)
    (hi : i < num_nodes)
    (hnode : (i : ℤ) < num_movable_nodes ∨ (i : ℤ) ≥ (num_nodes : ℤ) - num_filler_nodes)
    (hx : sx i ≤ xh - xl) (hy : sy i ≤ yh - yl) :
    xl ≤ (computeMoveBoundaryMapLauncher x_tensor y_tensor sx sy xl yl xh yh num_nodes
        num_movable_nodes num_filler_nodes).1 i ∧
    (computeMoveBoundaryMapLauncher x_tensor y_tensor sx sy xl yl xh yh num_nodes
        num_movable_nodes num_filler_nodes).1 i ≤ xh - sx i ∧
    yl ≤ (computeMoveBoundaryMapLauncher x_tensor y_tensor sx sy xl yl xh yh num_nodes
        num_movable_nodes num_filler_nodes).2 i ∧
    (computeMoveBoundaryMapLauncher x_tensor y_tensor sx sy xl yl xh yh num_nodes
        num_movable_nodes num_filler_nodes).2 i ≤ yh - sy i := by
  have h := moveBoundary_foldl_apply x_tensor y_tensor sx sy xl yl xh yh num_movable_nodes
    num_filler_nodes num_nodes num_nodes i
  unfold computeMoveBoundaryMapLauncher
  rw [h.1, h.2, if_pos ⟨hi, hnode⟩, if_pos ⟨hi, hnode⟩]
  refine ⟨le_min (le_max_right _ _) (by linarith), min_le_right _ _,
    le_min (le_max_right _ _) (by linarith), min_le_right _ _⟩

end MoveBoundary

section HPWL

variable {K : Type} [LinearOrderedField K]

/-- the net loop of `computeHPWLLauncher`, entry by entry -/
theorem computeHPWLLauncher_apply (T_max : K) (x y : ℕ → K)
    (flat_netpin netpin_start net_mask : ℕ → ℕ) (hpwl : ℕ → K) (num_nets : ℕ) :
    ∀ i : ℕ,
    computeHPWLLauncher T_max x y flat_netpin netpin_start net_mask num_nets hpwl i
      = if i < num_nets ∧ net_mask i ≠ 0 then netHPWL T_max x y flat_netpin netpin_start i
        else hpwl i := by
  unfold computeHPWLLauncher
  induction num_nets with
  | zero => intro i; simp
  | succ n ih =>
    intro i
    rw [List.range_succ, List.foldl_append]
    simp only [List.foldl_cons, List.foldl_nil]
    have ihi := ih i
    have ihn := ih n
    generalize (List.range n).foldl
      (hpwlNetStep T_max x y flat_netpin netpin_start net_mask) hpwl = h at ihi ihn ⊢
    simp only [lt_irrefl, false_and, if_false] at ihn
    unfold hpwlNetStep
    have hlt : i ≠ n → (i < n + 1 ↔ i < n) := by omega
    by_cases hm : net_mask n ≠ 0
    · rw [if_pos hm]
      by_cases hin : i = n
      · subst hin
        simp [hm]
      · rw [Function.update_noteq hin, ihi]
        simp only [hlt hin]
    · rw [if_neg hm]
      by_cases hin : i = n
      · subst hin
        rw [ihn]
        simp [hm]
      · rw [ihi]
        simp only [hlt hin]

end HPWL

section Memory

variable {K : Type}

theorem Mem.write_cells_of_lt (st : Mem K) (p : ℕ) {n : ℕ} (f : Fin n → K) (a : ℕ)
    (h : a < p) : (st.write p f).cells a = st.cells a := by
  simp only [Mem.write]
  rw [dif_neg (by omega)]

theorem Mem.write_brk (st : Mem K) (p : ℕ) {n : ℕ} (f : Fin n → K) :
    (st.write p f).brk = st.brk :=
  rfl

theorem Mem.read_write_same (st : Mem K) (p : ℕ) {n : ℕ} (f : Fin n → K) :
    (st.write p f).read p n = f := by
  funext i
  have hi := i.isLt
  simp only [Mem.read, Mem.write]
  rw [dif_pos (by omega)]
  congr 1
  apply Fin.ext
  simp

theorem Mem.read_write_of_disjoint (st : Mem K) (p : ℕ) {n : ℕ} (f : Fin n → K) (q m : ℕ)
    (h : q + m ≤ p ∨ p + n ≤ q) : (st.write p f).read q m = st.read q m := by
  funext i
  have hi := i.isLt
  simp only [Mem.read, Mem.write]
  rw [dif_neg (by omega)]

theorem readTwiddle_write (st : Mem K) (p : ℕ) {n : ℕ} (f : Fin n → K) (N q : ℕ)
    (h : q + (N / 2 + 1) * 2 ≤ p) : readTwiddle N q (st.write p f) = readTwiddle N q st := by
  funext k
  have hk := k.isLt
  simp only [readTwiddle]
  rw [Mem.write_cells_of_lt _ _ _ _ (by omega), Mem.write_cells_of_lt _ _ _ _ (by omega)]

theorem unflattenBatch_flattenBatch {M N : ℕ} (x : Batch K M N) :
    unflattenBatch (flattenBatch x) = x := by
  funext r j
  have hj := j.isLt
  simp only [unflattenBatch, flattenBatch]
  congr 1
  · apply Fin.ext
    simp only
    rw [Nat.mul_comm, Nat.mul_add_div (by omega), Nat.div_eq_of_lt hj, Nat.add_zero]
  · apply Fin.ext
    simp only
    rw [Nat.mul_comm, Nat.mul_add_mod, Nat.mod_eq_of_lt hj]

theorem unflattenSpectrum_flattenSpectrum {M N : ℕ} (v : Spectrum K M N) :
    unflattenSpectrum (flattenSpectrum v) = v := by
  funext r k
  have hk := k.isLt
  have e1 : 2 * (r.val * (N / 2 + 1) + k.val) / 2 = r.val * (N / 2 + 1) + k.val := by omega
  have e2 : (2 * (r.val * (N / 2 + 1) + k.val) + 1) / 2 = r.val * (N / 2 + 1) + k.val := by
    omega
  have e3 : (r.val * (N / 2 + 1) + k.val) / (N / 2 + 1) = r.val := by
    rw [Nat.mul_comm, Nat.mul_add_div (by omega), Nat.div_eq_of_lt hk, Nat.add_zero]
  have e4 : (r.val * (N / 2 + 1) + k.val) % (N / 2 + 1) = k.val := by
    rw [Nat.mul_comm, Nat.mul_add_mod, Nat.mod_eq_of_lt hk]
  have e5 : 2 * (r.val * (N / 2 + 1) + k.val) % 2 = 0 := by omega
  have e6 : (2 * (r.val * (N / 2 + 1) + k.val) + 1) % 2 = 1 := by omega
  simp only [unflattenSpectrum, flattenSpectrum, e1, e2, e3, e4, e5, e6, Fin.eta, if_true,
    one_ne_zero, if_false]

theorem readBatch_writeBatch_same {M N : ℕ} (p : ℕ) (x : Batch K M N) (st : Mem K) :
    readBatch M N p (writeBatch p x st) = x := by
  simp only [readBatch, writeBatch, Mem.read_write_same, unflattenBatch_flattenBatch]

theorem readSpectrum_writeSpectrum_same {M N : ℕ} (p : ℕ) (v : Spectrum K M N) (st : Mem K) :
    readSpectrum M N p (writeSpectrum p v st) = v := by
  simp only [readSpectrum, writeSpectrum, Mem.read_write_same,
    unflattenSpectrum_flattenSpectrum]

theorem Mem.Preserved.refl (st : Mem K) : st.Preserved st :=
  ⟨le_rfl, fun _ _ => rfl⟩

theorem Mem.Preserved.trans {st st' st'' : Mem K} (h : st.Preserved st')
    (h' : st'.Preserved st'') : st.Preserved st'' :=
  ⟨h.1.trans h'.1, fun a ha => (h'.2 a (lt_of_lt_of_le ha h.1)).trans (h.2 a ha)⟩

theorem Mem.Preserved.alloc {st st' : Mem K} (h : st.Preserved st') (n : ℕ) :
    st.Preserved (st'.alloc n).2 :=
  ⟨h.1.trans (Nat.le_add_right _ _), h.2⟩

theorem Mem.Preserved.write {st st' : Mem K} (h : st.Preserved st') (p : ℕ) {n : ℕ}
    (f : Fin n → K) (hp : st.brk ≤ p) : st.Preserved (st'.write p f) :=
  ⟨h.1, fun a ha => (Mem.write_cells_of_lt st' p f a (lt_of_lt_of_le ha hp)).trans (h.2 a ha)⟩

theorem Mem.Preserved.read {st st' : Mem K} (h : st.Preserved st') (p n : ℕ)
    (hp : p + n ≤ st.brk) : st'.read p n = st.read p n := by
  funext i
  have hi := i.isLt
  exact h.2 _ (by omega)

theorem Mem.Preserved.readBatch {st st' : Mem K} (h : st.Preserved st') (M N p : ℕ)
    (hp : p + M * N ≤ st.brk) : readBatch M N p st' = readBatch M N p st := by
  simp only [DreamPlace.readBatch, h.read p (M * N) hp]

theorem Mem.Preserved.readTwiddle {st st' : Mem K} (h : st.Preserved st') (N p : ℕ)
    (hp : p + (N / 2 + 1) * 2 ≤ st.brk) : readTwiddle N p st' = readTwiddle N p st := by
  funext k
  have hk := k.isLt
  simp only [DreamPlace.readTwiddle]
  rw [h.2 _ (by omega), h.2 _ (by omega)]

theorem Mem.alloc_fst (st : Mem K) (n : ℕ) : (st.alloc n).1 = st.brk :=
  rfl

theorem Mem.alloc_brk (st : Mem K) (n : ℕ) : (st.alloc n).2.brk = st.brk + n :=
  rfl

theorem writeBatch_brk {M N : ℕ} (p : ℕ) (x : Batch K M N) (st : Mem K) :
    (writeBatch p x st).brk = st.brk :=
  rfl

theorem writeSpectrum_brk {M N : ℕ} (p : ℕ) (v : Spectrum K M N) (st : Mem K) :
    (writeSpectrum p v st).brk = st.brk :=
  rfl

theorem readBatch_alloc (M N p n : ℕ) (st : Mem K) :
    readBatch M N p (st.alloc n).2 = readBatch M N p st :=
  rfl

theorem readSpectrum_alloc (M N p n : ℕ) (st : Mem K) :
    readSpectrum M N p (st.alloc n).2 = readSpectrum M N p st :=
  rfl

theorem readTwiddle_alloc (N p n : ℕ) (st : Mem K) :
    readTwiddle N p (st.alloc n).2 = readTwiddle N p st :=
  rfl

theorem readTwiddle_writeBatch {M N' : ℕ} (p : ℕ) (x : Batch K M N') (st : Mem K) (N q : ℕ)
    (h : q + (N / 2 + 1) * 2 ≤ p) :
    readTwiddle N q (writeBatch p x st) = readTwiddle N q st :=
  readTwiddle_write st p _ N q h

theorem readTwiddle_writeSpectrum {M N' : ℕ} (p : ℕ) (v : Spectrum K M N') (st : Mem K)
    (N q : ℕ) (h : q + (N / 2 + 1) * 2 ≤ p) :
    readTwiddle N q (writeSpectrum p v st) = readTwiddle N q st :=
  readTwiddle_write st p _ N q h

theorem Mem.Preserved.writeBatch {st st' : Mem K} (h : st.Preserved st') {M N : ℕ} (p : ℕ)
    (x : Batch K M N) (hp : st.brk ≤ p) : st.Preserved (DreamPlace.writeBatch p x st') :=
  h.write p _ hp

theorem Mem.Preserved.writeSpectrum {st st' : Mem K} (h : st.Preserved st') {M N : ℕ} (p : ℕ)
    (v : Spectrum K M N) (hp : st.brk ≤ p) :
    st.Preserved (DreamPlace.writeSpectrum p v st') :=
  h.write p _ hp

end Memory

section MemoryOrchestrators

variable {K : Type} [Field K]

/-- `dct_forward` on device memory: it keeps everything allocated before the call, returns a
buffer allocated during the call, and that buffer holds `dct_forward` of the contents of its
arguments -/
theorem dct_forward_mem_spec (F : FFTPrimitive K) (M N x expk : ℕ) (st : Mem K)
    (he : expk + (N / 2 + 1) * 2 ≤ st.brk) :
    st.Preserved (dct_forward_mem F M N x expk st).2 ∧
    st.brk ≤ (dct_forward_mem F M N x expk st).1 ∧
    (dct_forward_mem F M N x expk st).1 + M * N ≤ (dct_forward_mem F M N x expk st).2.brk ∧
    readBatch M N (dct_forward_mem F M N x expk st).1 (dct_forward_mem F M N x expk st).2
      = dct_forward F (readBatch M N x st) (readTwiddle N expk st) := by
  refine ⟨?_, ?_, ?_, ?_⟩
  · simp only [dct_forward_mem]
    refine Mem.Preserved.writeBatch ?_ _ _ ?_
    · refine Mem.Preserved.writeSpectrum ?_ _ _ ?_
      · refine Mem.Preserved.writeSpectrum ?_ _ _ ?_
        · refine Mem.Preserved.alloc ?_ _
          refine Mem.Preserved.writeBatch ?_ _ _ ?_
          · exact Mem.Preserved.alloc (Mem.Preserved.refl st) _
          · exact le_rfl
        · simp only [Mem.alloc_fst, Mem.alloc_brk, writeBatch_brk]; omega
      · simp only [Mem.alloc_fst, Mem.alloc_brk, writeBatch_brk]; omega
    · exact le_rfl
  · exact le_rfl
  · simp only [dct_forward_mem, writeBatch_brk, writeSpectrum_brk, Mem.alloc_fst,
      Mem.alloc_brk]
    omega
  · simp only [dct_forward_mem, readBatch_writeBatch_same, readSpectrum_writeSpectrum_same,
      readBatch_alloc, readSpectrum_alloc, Mem.alloc_fst]
    rw [readTwiddle_writeSpectrum _ _ _ _ _
        (by simp only [Mem.alloc_brk, writeBatch_brk]; omega),
      readTwiddle_writeSpectrum _ _ _ _ _
        (by simp only [Mem.alloc_brk, writeBatch_brk]; omega),
      readTwiddle_alloc, readTwiddle_writeBatch _ _ _ _ _ (by omega), readTwiddle_alloc]
    rfl

/-- `idct_forward` on device memory: it keeps everything allocated before the call, returns
a buffer allocated during the call, and that buffer holds `idct_forward` of the contents of
its arguments -/
theorem idct_forward_mem_spec (F : FFTPrimitive K) (M N x expk : ℕ) (st : Mem K) :
    st.Preserved (idct_forward_mem F M N x expk st).2 ∧
    st.brk ≤ (idct_forward_mem F M N x expk st).1 ∧
    (idct_forward_mem F M N x expk st).1 + M * N ≤ (idct_forward_mem F M N x expk st).2.brk ∧
    readBatch M N (idct_forward_mem F M N x expk st).1 (idct_forward_mem F M N x expk st).2
      = idct_forward F (readBatch M N x st) (readTwiddle N expk st) := by
  by_cases hcap : M * (N / 2 + 1) * 2 ≤ M * N + max M N
  · refine ⟨?_, ?_, ?_, ?_⟩
    · simp only [idct_forward_mem, if_pos hcap]
      refine Mem.Preserved.writeBatch ?_ _ _ le_rfl
      refine Mem.Preserved.writeBatch ?_ _ _ le_rfl
      refine Mem.Preserved.writeBatch ?_ _ _ ?_
      · refine Mem.Preserved.alloc ?_ _
        refine Mem.Preserved.writeSpectrum ?_ _ _ le_rfl
        exact Mem.Preserved.alloc (Mem.Preserved.refl st) _
      · simp only [Mem.alloc_fst, Mem.alloc_brk, writeSpectrum_brk]; omega
    · simp only [idct_forward_mem, if_pos hcap]
      exact le_rfl
    · simp only [idct_forward_mem, if_pos hcap, writeBatch_brk, writeSpectrum_brk,
        Mem.alloc_fst, Mem.alloc_brk]
      omega
    · simp only [idct_forward_mem, if_pos hcap, readBatch_writeBatch_same,
        readSpectrum_writeSpectrum_same, readBatch_alloc, readSpectrum_alloc,
        readTwiddle_alloc, Mem.alloc_fst]
      rfl
  · refine ⟨?_, ?_, ?_, ?_⟩
    · simp only [idct_forward_mem, if_neg hcap]
      refine Mem.Preserved.writeBatch ?_ _ _ ?_
      · refine Mem.Preserved.writeBatch ?_ _ _ ?_
        · refine Mem.Preserved.writeBatch ?_ _ _ ?_
          · refine Mem.Preserved.alloc ?_ _
            refine Mem.Preserved.writeSpectrum ?_ _ _ ?_
            · exact Mem.Preserved.alloc (Mem.Preserved.alloc (Mem.Preserved.refl st) _) _
            · simp only [Mem.alloc_fst, Mem.alloc_brk]; omega
          · simp only [Mem.alloc_fst, Mem.alloc_brk, writeSpectrum_brk]; omega
        · simp only [Mem.alloc_fst, Mem.alloc_brk]; omega
      · simp only [Mem.alloc_fst, Mem.alloc_brk]; omega
    · simp only [idct_forward_mem, if_neg hcap, Mem.alloc_fst, Mem.alloc_brk]
      omega
    · simp only [idct_forward_mem, if_neg hcap, writeBatch_brk, writeSpectrum_brk,
        Mem.alloc_fst, Mem.alloc_brk]
      have : M * N ≤ M * (N / 2 + 1) * 2 := by
        rw [Nat.mul_assoc]
        exact Nat.mul_le_mul_left M (by omega)
      omega
    · simp only [idct_forward_mem, if_neg hcap, readBatch_writeBatch_same,
        readSpectrum_writeSpectrum_same, readBatch_alloc, readSpectrum_alloc,
        readTwiddle_alloc, Mem.alloc_fst]
      rfl

/-- `dst_forward` on device memory -/
theorem dst_forward_mem_spec (F : FFTPrimitive K) (M N x expk : ℕ) (st : Mem K)
    (he : expk + (N / 2 + 1) * 2 ≤ st.brk) :
    st.Preserved (dst_forward_mem F M N x expk st).2 ∧
    st.brk ≤ (dst_forward_mem F M N x expk st).1 ∧
    readBatch M N (dst_forward_mem F M N x expk st).1 (dst_forward_mem F M N x expk st).2
      = dst_forward F (readBatch M N x st) (readTwiddle N expk st) := by
  have hspec := dct_forward_mem_spec F M N (st.alloc (M * N)).1 expk
    (writeBatch (st.alloc (M * N)).1
      (negateOddEntriesHipLauncher (readBatch M N (st.alloc (M * N)).1
        (writeBatch (st.alloc (M * N)).1 (readBatch M N x (st.alloc (M * N)).2)
          (st.alloc (M * N)).2)))
      (writeBatch (st.alloc (M * N)).1 (readBatch M N x (st.alloc (M * N)).2)
        (st.alloc (M * N)).2))
    (by simp only [writeBatch_brk, Mem.alloc_brk]; omega)
  obtain ⟨hp, hfresh, -, hval⟩ := hspec
  have hpre : st.Preserved
      (writeBatch (st.alloc (M * N)).1
        (negateOddEntriesHipLauncher (readBatch M N (st.alloc (M * N)).1
          (writeBatch (st.alloc (M * N)).1 (readBatch M N x (st.alloc (M * N)).2)
            (st.alloc (M * N)).2)))
        (writeBatch (st.alloc (M * N)).1 (readBatch M N x (st.alloc (M * N)).2)
          (st.alloc (M * N)).2)) :=
    Mem.Preserved.writeBatch
      (Mem.Preserved.writeBatch (Mem.Preserved.alloc (Mem.Preserved.refl st) _) _ _ le_rfl)
      _ _ le_rfl
  refine ⟨?_, le_rfl, ?_⟩
  · simp only [dst_forward_mem]
    exact Mem.Preserved.writeBatch (hpre.trans hp) _ _ le_rfl
  · rw [hpre.readTwiddle N expk he] at hval
    simp only [dst_forward_mem, readBatch_writeBatch_same, readBatch_alloc] at hval ⊢
    rw [hval]
    rfl

/-- `idst_forward` on device memory -/
theorem idst_forward_mem_spec (F : FFTPrimitive K) (M N x expk : ℕ) (st : Mem K)
    (he : expk + (N / 2 + 1) * 2 ≤ st.brk) :
    st.Preserved (idst_forward_mem F M N x expk st).2 ∧
    st.brk ≤ (idst_forward_mem F M N x expk st).1 ∧
    readBatch M N (idst_forward_mem F M N x expk st).1 (idst_forward_mem F M N x expk st).2
      = idst_forward F (readBatch M N x st) (readTwiddle N expk st) := by
  have hspec := idct_forward_mem_spec F M N (st.alloc (M * N)).1 expk
    (writeBatch (st.alloc (M * N)).1
      (computeFlipHipLauncher (readBatch M N x ((st.alloc (M * N)).2.alloc (M * N)).2))
      ((st.alloc (M * N)).2.alloc (M * N)).2)
  obtain ⟨hp, hfresh, -, hval⟩ := hspec
  have hpre : st.Preserved
      (writeBatch (st.alloc (M * N)).1
        (computeFlipHipLauncher (readBatch M N x ((st.alloc (M * N)).2.alloc (M * N)).2))
        ((st.alloc (M * N)).2.alloc (M * N)).2) :=
    Mem.Preserved.writeBatch
      (Mem.Preserved.alloc (Mem.Preserved.alloc (Mem.Preserved.refl st) _) _) _ _ le_rfl
  have hfresh' := hpre.1.trans hfresh
  refine ⟨?_, ?_, ?_⟩
  · simp only [idst_forward_mem]
    exact Mem.Preserved.writeBatch (hpre.trans hp) _ _ hfresh'
  · simp only [idst_forward_mem]
    exact hfresh'
  · rw [hpre.readTwiddle N expk he] at hval
    simp only [idst_forward_mem, readBatch_writeBatch_same, readBatch_alloc] at hval ⊢
    rw [hval]
    rfl

end MemoryOrchestrators

section
variable {K : Type} [Field K]

theorem idct_forward_checked_ok (F : FFTPrimitive K) {M N : ℕ} (x : TensorArg (Batch K M N))
    (expk : TwiddleArg K) (hx : x.is_cuda = true) (hxc : x.is_contiguous = true)
    (he : expk.is_cuda = true) (hec : expk.is_contiguous = true) :
    idct_forward_checked F x expk = Except.ok (idct_forward F x.data (expk.table N)) := by
  simp [idct_forward_checked, CHECK_GPU, CHECK_CONTIGUOUS, hx, hxc, he, hec]
  rfl

theorem dct2_forward_checked_ok (F : FFTPrimitive K) {M N : ℕ} (x : TensorArg (Batch K M N))
    (expk0 expk1 : TwiddleArg K) (hx : x.is_cuda = true) (hxc : x.is_contiguous = true)
    (he0 : expk0.is_cuda = true) (he0c : expk0.is_contiguous = true)
    (he1 : expk1.is_cuda = true) (he1c : expk1.is_contiguous = true) :
    dct2_forward_checked F x expk0 expk1
      = Except.ok (dct2_forward F x.data (expk0.table M) (expk1.table N)) := by
  simp [dct2_forward_checked, CHECK_GPU, CHECK_CONTIGUOUS, hx, hxc, he0, he0c, he1, he1c]
  rfl

theorem idct2_forward_checked_ok (F : FFTPrimitive K) {M N : ℕ} (x : TensorArg (Batch K M N))
    (expk0 expk1 : TwiddleArg K) (hx : x.is_cuda = true) (hxc : x.is_contiguous = true)
    (he0 : expk0.is_cuda = true) (he0c : expk0.is_contiguous = true)
    (he1 : expk1.is_cuda = true) (he1c : expk1.is_contiguous = true) :
    idct2_forward_checked F x expk0 expk1
      = Except.ok (idct2_forward F x.data (expk0.table M) (expk1.table N)) := by
  simp [idct2_forward_checked, CHECK_GPU, CHECK_CONTIGUOUS, hx, hxc, he0, he0c, he1, he1c]
  rfl

theorem dct_forward_checked_error_of_not_cuda (F : FFTPrimitive K) {M N : ℕ}
    (x : TensorArg (Batch K M N)) (expk : TwiddleArg K) (hx : x.is_cuda = false) :
    dct_forward_checked F x expk = Except.error "xmust be a tensor on GPU" := by
  simp [dct_forward_checked, CHECK_GPU, hx]
  rfl
end

/-! ## The claims C11 to C20 -/

/-- Claim C11: linearity of the forward transform. For all real scalars `a`, `b` and all
batches `x`, `y` of the same shape `M × N`,
`dct_forward(a·x + b·y, expk) = a·dct_forward(x, expk) + b·dct_forward(y, expk)` exactly over
the reals. -/
theorem dct_forward_linear {M N : ℕ} (a b : ℝ) (x y : Batch ℝ M N) (expk : Twiddle ℝ N) :
    dct_forward fftReal (fun r n => a * x r n + b * y r n) expk
      = fun r k => a * dct_forward fftReal x expk r k + b * dct_forward fftReal y expk r k := by
  funext r k
  simp only [dct_forward_apply]
  have h : (fun n => a * x r n + b * y r n) = a • x r + b • y r := by
    funext n
    simp
  rw [h, (forwardPass_isLinearMap expk).map_add, (forwardPass_isLinearMap expk).map_smul,
    (forwardPass_isLinearMap expk).map_smul]
  simp only [Pi.add_apply, Pi.smul_apply, smul_eq_mul]
  ring

/-- Claim C12: Reorder is an invertible index permutation. For every even `N`, the writes
`y[i] = x[2i]`, `y[N-1-i] = x[2i+1]` (`i ∈ [0, N/2)`) hit every output position exactly once,
read pairwise distinct input positions, Reorder stores at each written position the input it
reads, and `ReorderReverse(Reorder(x)) = x` exactly for every batch size `M`. -/
theorem Reorder_invertible_permutation {K : Type} [Field K] {N : ℕ} (hN : Even N) :
    Function.Bijective (reorderWriteDst N) ∧
    Function.Injective (reorderWriteSrc N) ∧
    (∀ (x : Fin N → K) (w : Fin (N / 2) × Bool),
      Reorder x (reorderWriteDst N w) = x (reorderWriteSrc N w)) ∧
    ∀ (M : ℕ) (x : Batch K M N),
      computeReorderReverseHipLauncher (computeReorderHipLauncher x) = x :=
  ⟨reorderWriteDst_bijective hN, (reorderWriteSrc_bijective hN).1, Reorder_write,
    fun _ x => funext fun r => ReorderReverse_Reorder hN (x r)⟩

/-- Witness for `Reorder_invertible_permutation`: `N = 4` over the rationals. -/
theorem Reorder_invertible_permutation_witness :
    Even 4 ∧
    (Function.Bijective (reorderWriteDst 4) ∧
    Function.Injective (reorderWriteSrc 4) ∧
    (∀ (x : Fin 4 → ℚ) (w : Fin (4 / 2) × Bool),
      Reorder x (reorderWriteDst 4 w) = x (reorderWriteSrc 4 w)) ∧
    ∀ (M : ℕ) (x : Batch ℚ M 4),
      computeReorderReverseHipLauncher (computeReorderHipLauncher x) = x) :=
  ⟨by decide, @Reorder_invertible_permutation ℚ _ 4 (by decide)⟩

section Rejection

variable {K : Type} [Field K]

/-- Claim C13 (as amended): an odd transform length is not rejected. The four cosine
orchestrators assert only that their tensor arguments are on the GPU and contiguous; when
they are, `dct_forward`, `idct_forward`, `dct2_forward` and `idct2_forward` return a result
also for an input whose last-axis length `N` is odd. -/
theorem odd_length_returns (F : FFTPrimitive K) {M N : ℕ} (x : TensorArg (Batch K M N))
    (expk expk0 expk1 : TwiddleArg K) (hx : x.is_cuda = true) (hxc : x.is_contiguous = true)
    (he : expk.is_cuda = true) (hec : expk.is_contiguous = true)
    (he0 : expk0.is_cuda = true) (he0c : expk0.is_contiguous = true)
    (he1 : expk1.is_cuda = true) (he1c : expk1.is_contiguous = true) :
    Odd N →
      (∃ y, dct_forward_checked F x expk = Except.ok y) ∧
      (∃ y, idct_forward_checked F x expk = Except.ok y) ∧
      (∃ y, dct2_forward_checked F x expk0 expk1 = Except.ok y) ∧
      (∃ y, idct2_forward_checked F x expk0 expk1 = Except.ok y) :=
  fun _ =>
    ⟨⟨_, dct_forward_checked_ok F x expk hx hxc he hec⟩,
      ⟨_, idct_forward_checked_ok F x expk hx hxc he hec⟩,
      ⟨_, dct2_forward_checked_ok F x expk0 expk1 hx hxc he0 he0c he1 he1c⟩,
      ⟨_, idct2_forward_checked_ok F x expk0 expk1 hx hxc he0 he0c he1 he1c⟩⟩

end Rejection

/-- Witness for `odd_length_returns`: one row of length `N = 3` on the GPU, contiguous, with
tables on the GPU, contiguous. -/
theorem odd_length_returns_witness :
    Odd 3 ∧
      (∃ y, dct_forward_checked fftReal
          (⟨(![![1, 2, 3]] : Batch ℝ 1 3), true, true⟩ : TensorArg (Batch ℝ 1 3))
          (⟨2, fun _ => (1, 0), true, true⟩ : TwiddleArg ℝ) = Except.ok y) ∧
      (∃ y, idct_forward_checked fftReal
          (⟨(![![1, 2, 3]] : Batch ℝ 1 3), true, true⟩ : TensorArg (Batch ℝ 1 3))
          (⟨2, fun _ => (1, 0), true, true⟩ : TwiddleArg ℝ) = Except.ok y) ∧
      (∃ y, dct2_forward_checked fftReal
          (⟨(![![1, 2, 3]] : Batch ℝ 1 3), true, true⟩ : TensorArg (Batch ℝ 1 3))
          (⟨1, fun _ => (1, 0), true, true⟩ : TwiddleArg ℝ)
          (⟨2, fun _ => (1, 0), true, true⟩ : TwiddleArg ℝ) = Except.ok y) ∧
      (∃ y, idct2_forward_checked fftReal
          (⟨(![![1, 2, 3]] : Batch ℝ 1 3), true, true⟩ : TensorArg (Batch ℝ 1 3))
          (⟨1, fun _ => (1, 0), true, true⟩ : TwiddleArg ℝ)
          (⟨2, fun _ => (1, 0), true, true⟩ : TwiddleArg ℝ) = Except.ok y) :=
  ⟨by decide,
    odd_length_returns fftReal
      (⟨(![![1, 2, 3]] : Batch ℝ 1 3), true, true⟩ : TensorArg (Batch ℝ 1 3))
      (⟨2, fun _ => (1, 0), true, true⟩ : TwiddleArg ℝ)
      (⟨1, fun _ => (1, 0), true, true⟩ : TwiddleArg ℝ)
      (⟨2, fun _ => (1, 0), true, true⟩ : TwiddleArg ℝ)
      rfl rfl rfl rfl rfl rfl rfl rfl (by decide)⟩

/-- Claim C13 as stated fails: for the row `[1, 2, 3]` (`N = 3`, odd) on the GPU and
contiguous, `dct_forward` does not fail, it returns the result of its pipeline. -/
theorem dct_forward_odd_not_rejected :
    Odd 3 ∧
      dct_forward_checked fftReal
          (⟨(![![1, 2, 3]] : Batch ℝ 1 3), true, true⟩ : TensorArg (Batch ℝ 1 3))
          (⟨2, fun _ => (1, 0), true, true⟩ : TwiddleArg ℝ)
        = Except.ok (dct_forward fftReal (![![1, 2, 3]] : Batch ℝ 1 3)
            (fun _ => (1, 0))) :=
  ⟨by decide, dct_forward_checked_ok fftReal _ _ rfl rfl rfl rfl⟩

section Rejection

variable {K : Type} [Field K]

/-- Claim C14 (as amended): a twiddle table that is longer than required is not rejected. The
cosine orchestrators never examine the length of a table: when the tensors are on the GPU
and contiguous and `expk` holds more than the `N/2+1` coefficients required, `dct_forward`
and `idct_forward` return a result instead of failing; likewise `dct2_forward` and
`idct2_forward` when `expk0` and `expk1` hold at least the `M/2+1` and `N/2+1` coefficients
required and one of them more. -/
theorem long_table_not_rejected (F : FFTPrimitive K) {M N : ℕ} (x : TensorArg (Batch K M N))
    (expk expk0 expk1 : TwiddleArg K) (hx : x.is_cuda = true) (hxc : x.is_contiguous = true)
    (he : expk.is_cuda = true) (hec : expk.is_contiguous = true)
    (he0 : expk0.is_cuda = true) (he0c : expk0.is_contiguous = true)
    (he1 : expk1.is_cuda = true) (he1c : expk1.is_contiguous = true) :
    expk.covers N → expk.numel ≠ N / 2 + 1 →
    expk0.covers M → expk1.covers N →
    (expk0.numel ≠ M / 2 + 1 ∨ expk1.numel ≠ N / 2 + 1) →
      (∃ y, dct_forward_checked F x expk = Except.ok y) ∧
      (∃ y, idct_forward_checked F x expk = Except.ok y) ∧
      (∃ y, dct2_forward_checked F x expk0 expk1 = Except.ok y) ∧
      (∃ y, idct2_forward_checked F x expk0 expk1 = Except.ok y) :=
  fun _ _ _ _ _ => ⟨⟨_, dct_forward_checked_ok F x expk hx hxc he hec⟩,
    ⟨_, idct_forward_checked_ok F x expk hx hxc he hec⟩,
    ⟨_, dct2_forward_checked_ok F x expk0 expk1 hx hxc he0 he0c he1 he1c⟩,
    ⟨_, idct2_forward_checked_ok F x expk0 expk1 hx hxc he0 he0c he1 he1c⟩⟩

end Rejection

/-- Witness for `long_table_not_rejected`: a `2 × 4` batch with tables of 5 coefficients
where 3 (for `N = 4`) and 2 (for `M = 2`) are required. -/
theorem long_table_not_rejected_witness :
    (⟨5, fun k => ((k : ℝ), 1), true, true⟩ : TwiddleArg ℝ).covers 4 ∧
    (5 : ℕ) ≠ 4 / 2 + 1 ∧
    (⟨5, fun k => ((k : ℝ), 1), true, true⟩ : TwiddleArg ℝ).covers 2 ∧
    ((5 : ℕ) ≠ 2 / 2 + 1 ∨ (5 : ℕ) ≠ 4 / 2 + 1) ∧
    ((∃ y, dct_forward_checked fftReal
          (⟨(![![1, 2, 3, 4], ![5, 6, 7, 8]] : Batch ℝ 2 4), true, true⟩ :
            TensorArg (Batch ℝ 2 4))
          (⟨5, fun k => ((k : ℝ), 1), true, true⟩ : TwiddleArg ℝ) = Except.ok y) ∧
      (∃ y, idct_forward_checked fftReal
          (⟨(![![1, 2, 3, 4], ![5, 6, 7, 8]] : Batch ℝ 2 4), true, true⟩ :
            TensorArg (Batch ℝ 2 4))
          (⟨5, fun k => ((k : ℝ), 1), true, true⟩ : TwiddleArg ℝ) = Except.ok y) ∧
      (∃ y, dct2_forward_checked fftReal
          (⟨(![![1, 2, 3, 4], ![5, 6, 7, 8]] : Batch ℝ 2 4), true, true⟩ :
            TensorArg (Batch ℝ 2 4))
          (⟨5, fun k => ((k : ℝ), 1), true, true⟩ : TwiddleArg ℝ)
          (⟨5, fun k => ((k : ℝ), 1), true, true⟩ : TwiddleArg ℝ) = Except.ok y) ∧
      (∃ y, idct2_forward_checked fftReal
          (⟨(![![1, 2, 3, 4], ![5, 6, 7, 8]] : Batch ℝ 2 4), true, true⟩ :
            TensorArg (Batch ℝ 2 4))
          (⟨5, fun k => ((k : ℝ), 1), true, true⟩ : TwiddleArg ℝ)
          (⟨5, fun k => ((k : ℝ), 1), true, true⟩ : TwiddleArg ℝ) = Except.ok y)) :=
  ⟨by simp [TwiddleArg.covers], by decide, by simp [TwiddleArg.covers], Or.inl (by decide),
    long_table_not_rejected fftReal
      (⟨(![![1, 2, 3, 4], ![5, 6, 7, 8]] : Batch ℝ 2 4), true, true⟩ :
        TensorArg (Batch ℝ 2 4))
      (⟨5, fun k => ((k : ℝ), 1), true, true⟩ : TwiddleArg ℝ)
      (⟨5, fun k => ((k : ℝ), 1), true, true⟩ : TwiddleArg ℝ)
      (⟨5, fun k => ((k : ℝ), 1), true, true⟩ : TwiddleArg ℝ)
      rfl rfl rfl rfl rfl rfl rfl rfl (by simp [TwiddleArg.covers]) (by decide)
      (by simp [TwiddleArg.covers]) (by simp [TwiddleArg.covers]) (Or.inl (by decide))⟩

/-- Claim C14 as stated fails: for a row of length `N = 4` and a table of 5 coefficients
(3 are required), both on the GPU and contiguous, `dct_forward` does not fail: it returns a
result. -/
theorem dct_forward_long_table_not_rejected :
    (5 : ℕ) ≠ 4 / 2 + 1 ∧
    (⟨5, fun k => ((k : ℝ), 1), true, true⟩ : TwiddleArg ℝ).covers 4 ∧
    ∃ y, dct_forward_checked fftReal
        (⟨(![![1, 2, 3, 4]] : Batch ℝ 1 4), true, true⟩ : TensorArg (Batch ℝ 1 4))
        (⟨5, fun k => ((k : ℝ), 1), true, true⟩ : TwiddleArg ℝ) = Except.ok y :=
  ⟨by decide, by simp [TwiddleArg.covers],
    ⟨_, dct_forward_checked_ok fftReal _ _ rfl rfl rfl rfl⟩⟩

section Frame

variable {K : Type} [Field K]

/-- Claim C16: the sine orchestrators do not modify their inputs. With `x` and `expk` in
memory allocated before the call, after `dst_forward(x, expk)` and after
`idst_forward(x, expk)` every cell allocated before the call holds the scalar it held, so `x`
and `expk` hold the same values as before; the returned buffer is allocated during the call
(it is distinct from `x`, and it is the only one of the two that NegateOddEntries and Flip
write), and it holds the result of the orchestrator on the values of `x` and `expk`. -/
theorem sine_orchestrators_keep_inputs (F : FFTPrimitive K) (M N x expk : ℕ) (st : Mem K)
    (hx : x + M * N ≤ st.brk) (he : expk + (N / 2 + 1) * 2 ≤ st.brk) :
    (st.Preserved (dst_forward_mem F M N x expk st).2 ∧
      readBatch M N x (dst_forward_mem F M N x expk st).2 = readBatch M N x st ∧
      readTwiddle N expk (dst_forward_mem F M N x expk st).2 = readTwiddle N expk st ∧
      x + M * N ≤ (dst_forward_mem F M N x expk st).1 ∧
      readBatch M N (dst_forward_mem F M N x expk st).1 (dst_forward_mem F M N x expk st).2
        = dst_forward F (readBatch M N x st) (readTwiddle N expk st)) ∧
    (st.Preserved (idst_forward_mem F M N x expk st).2 ∧
      readBatch M N x (idst_forward_mem F M N x expk st).2 = readBatch M N x st ∧
      readTwiddle N expk (idst_forward_mem F M N x expk st).2 = readTwiddle N expk st ∧
      x + M * N ≤ (idst_forward_mem F M N x expk st).1 ∧
      readBatch M N (idst_forward_mem F M N x expk st).1 (idst_forward_mem F M N x expk st).2
        = idst_forward F (readBatch M N x st) (readTwiddle N expk st)) := by
  obtain ⟨h1, h2, h3⟩ := dst_forward_mem_spec F M N x expk st he
  obtain ⟨h4, h5, h6⟩ := idst_forward_mem_spec F M N x expk st he
  exact ⟨⟨h1, h1.readBatch M N x hx, h1.readTwiddle N expk he, hx.trans h2, h3⟩,
    ⟨h4, h4.readBatch M N x hx, h4.readTwiddle N expk he, hx.trans h5, h6⟩⟩

end Frame

/-- Witness for `sine_orchestrators_keep_inputs`: `M = 1`, `N = 2`, `x` at address 0 (two
scalars), `expk` at address 2 (two coefficients, four scalars), allocation frontier 6, every
cell holding its address. -/
theorem sine_orchestrators_keep_inputs_witness :
    0 + 1 * 2 ≤ (⟨fun a => (a : ℝ), 6⟩ : Mem ℝ).brk ∧
    2 + (2 / 2 + 1) * 2 ≤ (⟨fun a => (a : ℝ), 6⟩ : Mem ℝ).brk ∧
    ((⟨fun a => (a : ℝ), 6⟩ : Mem ℝ).Preserved
        (dst_forward_mem fftReal 1 2 0 2 ⟨fun a => (a : ℝ), 6⟩).2 ∧
      readBatch 1 2 0 (dst_forward_mem fftReal 1 2 0 2 ⟨fun a => (a : ℝ), 6⟩).2
        = readBatch 1 2 0 ⟨fun a => (a : ℝ), 6⟩ ∧
      readTwiddle 2 2 (dst_forward_mem fftReal 1 2 0 2 ⟨fun a => (a : ℝ), 6⟩).2
        = readTwiddle 2 2 ⟨fun a => (a : ℝ), 6⟩ ∧
      0 + 1 * 2 ≤ (dst_forward_mem fftReal 1 2 0 2 ⟨fun a => (a : ℝ), 6⟩).1 ∧
      readBatch 1 2 (dst_forward_mem fftReal 1 2 0 2 ⟨fun a => (a : ℝ), 6⟩).1
          (dst_forward_mem fftReal 1 2 0 2 ⟨fun a => (a : ℝ), 6⟩).2
        = dst_forward fftReal (readBatch 1 2 0 ⟨fun a => (a : ℝ), 6⟩)
            (readTwiddle 2 2 ⟨fun a => (a : ℝ), 6⟩)) ∧
    ((⟨fun a => (a : ℝ), 6⟩ : Mem ℝ).Preserved
        (idst_forward_mem fftReal 1 2 0 2 ⟨fun a => (a : ℝ), 6⟩).2 ∧
      readBatch 1 2 0 (idst_forward_mem fftReal 1 2 0 2 ⟨fun a => (a : ℝ), 6⟩).2
        = readBatch 1 2 0 ⟨fun a => (a : ℝ), 6⟩ ∧
      readTwiddle 2 2 (idst_forward_mem fftReal 1 2 0 2 ⟨fun a => (a : ℝ), 6⟩).2
        = readTwiddle 2 2 ⟨fun a => (a : ℝ), 6⟩ ∧
      0 + 1 * 2 ≤ (idst_forward_mem fftReal 1 2 0 2 ⟨fun a => (a : ℝ), 6⟩).1 ∧
      readBatch 1 2 (idst_forward_mem fftReal 1 2 0 2 ⟨fun a => (a : ℝ), 6⟩).1
          (idst_forward_mem fftReal 1 2 0 2 ⟨fun a => (a : ℝ), 6⟩).2
        = idst_forward fftReal (readBatch 1 2 0 ⟨fun a => (a : ℝ), 6⟩)
            (readTwiddle 2 2 ⟨fun a => (a : ℝ), 6⟩)) :=
  ⟨by decide, by decide,
    sine_orchestrators_keep_inputs fftReal 1 2 0 2 ⟨fun a => (a : ℝ), 6⟩ (by decide)
      (by decide)⟩

section MoveBoundary

variable {K : Type} [LinearOrderedField K]

end MoveBoundary

section HPWLClaims

variable {K : Type} [LinearOrderedField K]

/-- Claim C19: total wirelength and masking. `hpwl_forward` returns the sum over all
`num_nets = len(netpin_start) - 1` nets of the entries of `hpwl` that `computeHPWLLauncher`
leaves, the entry of net `i` being its per-net value when `net_mask[i] ≠ 0` and the zero it
was initialised with when `net_mask[i] = 0`, whatever the pins of the net are. -/
theorem hpwl_forward_eq_sum (T_max : K) (pos : ℕ → K) (pos_numel : ℕ)
    (flat_netpin netpin_start : ℕ → ℕ) (netpin_start_numel : ℕ) (net_mask : ℕ → ℕ) :
    hpwl_forward T_max pos pos_numel flat_netpin netpin_start netpin_start_numel net_mask
      = ∑ i in Finset.range (netpin_start_numel - 1),
          computeHPWLLauncher T_max pos (fun i => pos (pos_numel / 2 + i)) flat_netpin
            netpin_start net_mask (netpin_start_numel - 1) (fun _ => 0) i
    ∧ ∀ i : ℕ,
        computeHPWLLauncher T_max pos (fun i => pos (pos_numel / 2 + i)) flat_netpin
            netpin_start net_mask (netpin_start_numel - 1) (fun _ => 0) i
          = if net_mask i = 0 then 0
            else if i < netpin_start_numel - 1 then
              netHPWL T_max pos (fun i => pos (pos_numel / 2 + i)) flat_netpin netpin_start i
            else 0 := by
  refine ⟨rfl, fun i => ?_⟩
  rw [computeHPWLLauncher_apply]
  by_cases hm : net_mask i = 0
  · simp [hm]
  · by_cases hi : i < netpin_start_numel - 1 <;> simp [hm, hi]

end HPWLClaims

section DensityClaims

variable {K : Type} [LinearOrderedField K]

/-- The cost that `density_potential_forward` returns is the sum over the bins of
`(density - target_area)^2`, without a clamp at zero. -/
theorem density_potential_forward_cost {num_bins_x num_bins_y : ℕ}
    (launcher : ℤ → ℤ → K → (Fin num_bins_x → Fin num_bins_y → K) →
      (Fin num_bins_x → Fin num_bins_y → K))
    (pos_numel : ℕ) (initial_density_map : Fin num_bins_x → Fin num_bins_y → K)
    (target_density bin_size_x bin_size_y : K) (num_movable_nodes num_filler_nodes : ℤ)
    (padding : ℤ) (padding_mask : Fin num_bins_x → Fin num_bins_y → Bool) :
    (density_potential_forward launcher pos_numel initial_density_map target_density bin_size_x
        bin_size_y num_movable_nodes num_filler_nodes padding padding_mask).1
      = ∑ i, ∑ j, ((density_potential_forward launcher pos_numel initial_density_map
          target_density bin_size_x bin_size_y num_movable_nodes num_filler_nodes padding
          padding_mask).2.1 i j - target_density * bin_size_x * bin_size_y) ^ 2 := rfl

end DensityClaims

/-- Claim C20 fails on the code: on a `1 × 1` density map with density `0` that the kernel
leaves unchanged, `target_density = bin_size_x = bin_size_y = 1` and no padding,
`density_potential_forward` returns the map `[[0]]` and the cost `(0 - 1)^2 = 1`, while the
formula of the comment, `(max(0, density - target_area))^2` summed over the bins, is `0`. -/
theorem density_cost_not_clamped :
    (density_potential_forward (fun _ _ _ m => m) 0 (fun _ _ => (0 : ℚ) : Fin 1 → Fin 1 → ℚ)
        1 1 1 0 0 0 (fun _ _ => false)).1 = 1 ∧
    (density_potential_forward (fun _ _ _ m => m) 0 (fun _ _ => (0 : ℚ) : Fin 1 → Fin 1 → ℚ)
        1 1 1 0 0 0 (fun _ _ => false)).2.1 = (fun _ _ => 0) ∧
    (∑ i : Fin 1, ∑ j : Fin 1,
      (max 0 ((density_potential_forward (fun _ _ _ m => m) 0
          (fun _ _ => (0 : ℚ) : Fin 1 → Fin 1 → ℚ) 1 1 1 0 0 0 (fun _ _ => false)).2.1 i j
        - 1 * 1 * 1)) ^ 2) = 0 := by
  refine ⟨?_, ?_, ?_⟩
  · simp [density_potential_forward]
  · simp [density_potential_forward]
  · simp [density_potential_forward]

/-! ## Lemmas on the floating-point scalars and the alignment to sites -/

section FltLemmas

variable {fmt : FloatFormat}

theorem quantumExpAux_eq_some (prec num den : ℕ) :
    ∀ (fuel s0 s : ℕ), s0 ≤ s → s < s0 + fuel →
      (∀ j, s0 ≤ j → j < s → ¬ num < den * 2 ^ (prec + j)) →
      num < den * 2 ^ (prec + s) →
      quantumExpAux prec num den fuel s0 = some s := by
  intro fuel
  induction fuel with
  | zero => intro s0 s h1 h2; omega
  | succ f ih =>
    intro s0 s h1 h2 hlow hhi
    unfold quantumExpAux
    by_cases hs : s0 = s
    · subst hs
      rw [if_pos hhi]
    · rw [if_neg (hlow s0 le_rfl (by omega))]
      exact ih (s0 + 1) s (by omega) (by omega) (fun j hj hjs => hlow j (by omega) hjs) hhi

theorem quantumExp_eq_some (fmt : FloatFormat) (num den s : ℕ)
    (hs : s ≤ fmt.emax + fmt.emin)
    (hlo : s = 0 ∨ den * 2 ^ (fmt.prec + s - 1) ≤ num)
    (hhi : num < den * 2 ^ (fmt.prec + s)) :
    quantumExp fmt num den = some s := by
  refine quantumExpAux_eq_some fmt.prec num den _ 0 s (Nat.zero_le _) (by omega) ?_ hhi
  intro j _ hjs
  rcases hlo with h0 | hlo
  · omega
  · have hle : den * 2 ^ (fmt.prec + j) ≤ den * 2 ^ (fmt.prec + s - 1) :=
      Nat.mul_le_mul_left _ (Nat.pow_le_pow_right (by decide) (by omega))
    omega

/-- Evaluation of a rounding whose spacing exponent `s` and result `m` are known. -/
theorem Flt.round_eval (fmt : FloatFormat) (neg : Bool) (num den s m : ℕ) (hden : 0 < den)
    (hs : s ≤ fmt.emax + fmt.emin)
    (hlo : s = 0 ∨ den * 2 ^ (fmt.prec + s - 1) ≤ num)
    (hhi : num < den * 2 ^ (fmt.prec + s))
    (hm : 2 ^ s * roundHalfEven num (den * 2 ^ s) = m)
    (hfin : m < 2 ^ (fmt.emax + fmt.emin)) :
    Flt.round fmt neg num den = Flt.fin (if neg then -(m : ℤ) else (m : ℤ)) := by
  unfold Flt.round
  rw [if_neg (by omega), quantumExp_eq_some fmt num den s hs hlo hhi]
  simp only [hm, if_pos hfin]

end FltLemmas

section FltEval

variable {fmt : FloatFormat}

/-- Evaluation of a rounding of a non-negative numerator. -/
theorem Flt.round_eval_nonneg (fmt : FloatFormat) (z : ℤ) (num den s m : ℕ)
    (hz : z = (num : ℤ)) (hden : 0 < den) (hs : s ≤ fmt.emax + fmt.emin)
    (hlo : s = 0 ∨ den * 2 ^ (fmt.prec + s - 1) ≤ num)
    (hhi : num < den * 2 ^ (fmt.prec + s))
    (hm : 2 ^ s * roundHalfEven num (den * 2 ^ s) = m)
    (hfin : m < 2 ^ (fmt.emax + fmt.emin)) :
    Flt.round fmt (decide (z < 0)) z.natAbs den = Flt.fin (m : ℤ) := by
  subst hz
  rw [Int.natAbs_ofNat, Flt.round_eval fmt _ num den s m hden hs hlo hhi hm hfin]
  have : ¬ ((num : ℤ) < 0) := by omega
  simp [this]

/-- Evaluation of a rounding of a negative numerator. -/
theorem Flt.round_eval_neg (fmt : FloatFormat) (z : ℤ) (num den s m : ℕ)
    (hz : z = -(num : ℤ)) (hpos : 0 < num) (hden : 0 < den) (hs : s ≤ fmt.emax + fmt.emin)
    (hlo : s = 0 ∨ den * 2 ^ (fmt.prec + s - 1) ≤ num)
    (hhi : num < den * 2 ^ (fmt.prec + s))
    (hm : 2 ^ s * roundHalfEven num (den * 2 ^ s) = m)
    (hfin : m < 2 ^ (fmt.emax + fmt.emin)) :
    Flt.round fmt (decide (z < 0)) z.natAbs den = Flt.fin (-(m : ℤ)) := by
  subst hz
  rw [Int.natAbs_neg, Int.natAbs_ofNat, Flt.round_eval fmt _ num den s m hden hs hlo hhi hm hfin]
  have : (-(num : ℤ) < 0) := by omega
  simp [this]

theorem Flt.add_fin (a b : ℤ) :
    (Flt.fin a + Flt.fin b : Flt fmt) = Flt.round fmt (decide (a + b < 0)) (a + b).natAbs 1 :=
  rfl

theorem Flt.sub_fin (a b : ℤ) :
    (Flt.fin a - Flt.fin b : Flt fmt) = Flt.round fmt (decide (a - b < 0)) (a - b).natAbs 1 :=
  rfl

theorem Flt.mul_fin (a b : ℤ) :
    (Flt.fin a * Flt.fin b : Flt fmt)
      = Flt.round fmt (decide (a * b < 0)) (a * b).natAbs (2 ^ fmt.emin) :=
  rfl

theorem Flt.div_fin_pos (a b : ℤ) (na nb : ℕ) (ha : a = (na : ℤ)) (hb : b = (nb : ℤ))
    (hb0 : 0 < nb) :
    (Flt.fin a / Flt.fin b : Flt fmt)
      = Flt.round fmt (decide (((na * 2 ^ fmt.emin : ℕ) : ℤ) < 0))
          ((na * 2 ^ fmt.emin : ℕ) : ℤ).natAbs nb := by
  subst ha hb
  show Flt.div _ _ = _
  unfold Flt.div
  have h1 : ¬ ((nb : ℤ) = 0) := by omega
  have h2 : ¬ ((na : ℤ) < 0) := by omega
  have h3 : ¬ ((nb : ℤ) < 0) := by omega
  have h4 : ¬ (((na * 2 ^ fmt.emin : ℕ) : ℤ) < 0) := by omega
  simp only [h1, h2, h3, h4, if_false, decide_False, Int.natAbs_ofNat, bne_self_eq_false]

end FltEval

section Grid

variable {fmt : FloatFormat}

end Grid

section Abacus

variable {fmt : FloatFormat}

end Abacus

section AlignUnfold

variable {fmt : FloatFormat}

/-- The step of the inner loop for a movable node. -/
theorem alignNodeStep_movable (node_size_x : ℕ → Flt fmt) (xl xh site_width : Flt fmt)
    (num_nodes num_movable_nodes num_filler_nodes : ℤ) (s : (ℕ → Flt fmt) × Flt fmt)
    (node_id : ℕ) (h : (node_id : ℤ) < num_movable_nodes) :
    alignNodeStep node_size_x xl xh site_width num_nodes num_movable_nodes num_filler_nodes s
        node_id
      = (Function.update s.1 node_id
          (Flt.floor ((Flt.max (Flt.min (s.1 node_id) (xh - node_size_x node_id)) s.2 - s.2)
            / site_width) * site_width + s.2),
        s.2 + Flt.ceil (node_size_x node_id / site_width) * site_width) := by
  simp only [alignNodeStep, h, if_true, Function.update_same, Function.update_idem]

/-- The step of the inner loop for a fixed node. -/
theorem alignNodeStep_fixed (node_size_x : ℕ → Flt fmt) (xl xh site_width : Flt fmt)
    (num_nodes num_movable_nodes num_filler_nodes : ℤ) (s : (ℕ → Flt fmt) × Flt fmt)
    (node_id : ℕ) (h : ¬ (node_id : ℤ) < num_movable_nodes)
    (h' : (node_id : ℤ) < num_nodes - num_filler_nodes) :
    alignNodeStep node_size_x xl xh site_width num_nodes num_movable_nodes num_filler_nodes s
        node_id
      = (s.1, Flt.ceil ((s.1 node_id + node_size_x node_id - xl) / site_width) * site_width
          + xl) := by
  simp only [alignNodeStep, h, h', if_true, if_false]

end AlignUnfold

/-! ## Runs in `double` and `float` arithmetic -/

section FloatEval

set_option exponentiation.threshold 5000

/-- The alignment loop in `double` arithmetic with site width `0.5`: one bin with the movable
node 0, the fixed node 2 and the movable node 1, all of width `1.2`, at `0.7`, `5.3` and
`2.2`, in the region `[0, 10]`. Node 0 goes to `0.5`, the bound passes the fixed node and
becomes `3.5`, node 1 goes to `5`. -/
theorem alignNodesToSites_half :
    alignNodesToSites (fun _ => Flt.ofFrac binary64 6 5) (Flt.fin 0)
        (Flt.ofFrac binary64 10 1) (Flt.fin (2 ^ 1073)) 3 2 0 [[0, 2, 1]]
        (fun n => [Flt.ofFrac binary64 7 10, Flt.ofFrac binary64 53 10,
          Flt.ofFrac binary64 22 10].getD n (Flt.fin 0)) 0
      = Flt.ofFrac binary64 1 2 ∧
    alignNodesToSites (fun _ => Flt.ofFrac binary64 6 5) (Flt.fin 0)
        (Flt.ofFrac binary64 10 1) (Flt.fin (2 ^ 1073)) 3 2 0 [[0, 2, 1]]
        (fun n => [Flt.ofFrac binary64 7 10, Flt.ofFrac binary64 53 10,
          Flt.ofFrac binary64 22 10].getD n (Flt.fin 0)) 1
      = Flt.ofFrac binary64 5 1 := by
  have h1 : (Flt.ofFrac binary64 1 2 : Flt binary64)
      = Flt.fin (2 ^ 1073) := by
    unfold Flt.ofFrac
    rw [show decide (((1 : ℤ)) < 0) = false by decide,
      Flt.round_eval binary64 _ _ 2 1021 (2 ^ 1073) (by norm_num)
        (by norm_num [binary64]) (Or.inr (by norm_num [binary64])) (by norm_num [binary64])
        (by norm_num [roundHalfEven, binary64]) (by norm_num [binary64])]
    norm_num
  have h2 : (Flt.ofFrac binary64 6 5 : Flt binary64)
      = Flt.fin (5404319552844595 * 2 ^ 1022) := by
    unfold Flt.ofFrac
    rw [show decide (((6 : ℤ)) < 0) = false by decide,
      Flt.round_eval binary64 _ _ 5 1022 (5404319552844595 * 2 ^ 1022) (by norm_num)
        (by norm_num [binary64]) (Or.inr (by norm_num [binary64])) (by norm_num [binary64])
        (by norm_num [roundHalfEven, binary64]) (by norm_num [binary64])]
    norm_num
  have h3 : (Flt.ofFrac binary64 7 10 : Flt binary64)
      = Flt.fin (3152519739159347 * 2 ^ 1022) := by
    unfold Flt.ofFrac
    rw [show decide (((7 : ℤ)) < 0) = false by decide,
      Flt.round_eval binary64 _ _ 10 1021 (3152519739159347 * 2 ^ 1022) (by norm_num)
        (by norm_num [binary64]) (Or.inr (by norm_num [binary64])) (by norm_num [binary64])
        (by norm_num [roundHalfEven, binary64]) (by norm_num [binary64])]
    norm_num
  have h4 : (Flt.ofFrac binary64 53 10 : Flt binary64)
      = Flt.fin (5967269506265907 * 2 ^ 1024) := by
    unfold Flt.ofFrac
    rw [show decide (((53 : ℤ)) < 0) = false by decide,
      Flt.round_eval binary64 _ _ 10 1024 (5967269506265907 * 2 ^ 1024) (by norm_num)
        (by norm_num [binary64]) (Or.inr (by norm_num [binary64])) (by norm_num [binary64])
        (by norm_num [roundHalfEven, binary64]) (by norm_num [binary64])]
    norm_num
  have h5 : (Flt.ofFrac binary64 22 10 : Flt binary64)
      = Flt.fin (2476979795053773 * 2 ^ 1024) := by
    unfold Flt.ofFrac
    rw [show decide (((22 : ℤ)) < 0) = false by decide,
      Flt.round_eval binary64 _ _ 10 1023 (2476979795053773 * 2 ^ 1024) (by norm_num)
        (by norm_num [binary64]) (Or.inr (by norm_num [binary64])) (by norm_num [binary64])
        (by norm_num [roundHalfEven, binary64]) (by norm_num [binary64])]
    norm_num
  have h6 : (Flt.ofFrac binary64 10 1 : Flt binary64)
      = Flt.fin (5 * 2 ^ 1075) := by
    unfold Flt.ofFrac
    rw [show decide (((10 : ℤ)) < 0) = false by decide,
      Flt.round_eval binary64 _ _ 1 1025 (5 * 2 ^ 1075) (by norm_num)
        (by norm_num [binary64]) (Or.inr (by norm_num [binary64])) (by norm_num [binary64])
        (by norm_num [roundHalfEven, binary64]) (by norm_num [binary64])]
    norm_num
  have h7 : (Flt.fin (5 * 2 ^ 1075) - Flt.fin (5404319552844595 * 2 ^ 1022) : Flt binary64)
      = Flt.fin (2476979795053773 * 2 ^ 1026) := by
    rw [Flt.sub_fin,
      Flt.round_eval_nonneg binary64 _ (39631676720860365 * 2 ^ 1022)
        (1) 1025 (2476979795053773 * 2 ^ 1026)
        (by norm_num) (by norm_num [binary64]) (by norm_num [binary64])
        (Or.inr (by norm_num [binary64])) (by norm_num [binary64])
        (by norm_num [roundHalfEven, binary64]) (by norm_num [binary64])]
    norm_num
  have h8 :
      (Flt.min (Flt.fin (3152519739159347 * 2 ^ 1022))
        (Flt.fin (2476979795053773 * 2 ^ 1026)) : Flt binary64)
      = Flt.fin (3152519739159347 * 2 ^ 1022) := by
    simp only [Flt.min]
    norm_num
  have h9 : (Flt.max (Flt.fin (3152519739159347 * 2 ^ 1022)) (Flt.fin (0)) : Flt binary64)
      = Flt.fin (3152519739159347 * 2 ^ 1022) := by
    simp only [Flt.max]
    norm_num
  have h10 : (Flt.fin (3152519739159347 * 2 ^ 1022) - Flt.fin (0) : Flt binary64)
      = Flt.fin (3152519739159347 * 2 ^ 1022) := by
    rw [Flt.sub_fin,
      Flt.round_eval_nonneg binary64 _ (3152519739159347 * 2 ^ 1022)
        (1) 1021 (3152519739159347 * 2 ^ 1022)
        (by norm_num) (by norm_num [binary64]) (by norm_num [binary64])
        (Or.inr (by norm_num [binary64])) (by norm_num [binary64])
        (by norm_num [roundHalfEven, binary64]) (by norm_num [binary64])]
    norm_num
  have h11 : (Flt.fin (3152519739159347 * 2 ^ 1022) / Flt.fin (2 ^ 1073) : Flt binary64)
      = Flt.fin (3152519739159347 * 2 ^ 1023) := by
    rw [Flt.div_fin_pos _ _ (3152519739159347 * 2 ^ 1022) (2 ^ 1073)
        (by norm_num) (by norm_num) (by norm_num),
      Flt.round_eval_nonneg binary64 _ (3152519739159347 * 2 ^ 2096)
        (2 ^ 1073) 1022 (3152519739159347 * 2 ^ 1023)
        (by norm_num [binary64]) (by norm_num [binary64]) (by norm_num [binary64])
        (Or.inr (by norm_num [binary64])) (by norm_num [binary64])
        (by norm_num [roundHalfEven, binary64]) (by norm_num [binary64])]
    norm_num
  have h12 : (Flt.floor (Flt.fin (3152519739159347 * 2 ^ 1023)) : Flt binary64)
      = Flt.fin (2 ^ 1074) := by
    simp only [Flt.floor]
    norm_num [binary64]
  have h13 : (Flt.fin (2 ^ 1074) * Flt.fin (2 ^ 1073) : Flt binary64)
      = Flt.fin (2 ^ 1073) := by
    rw [Flt.mul_fin,
      Flt.round_eval_nonneg binary64 _ (2 ^ 2147)
        (2 ^ binary64.emin) 1021 (2 ^ 1073)
        (by norm_num) (by norm_num [binary64]) (by norm_num [binary64])
        (Or.inr (by norm_num [binary64])) (by norm_num [binary64])
        (by norm_num [roundHalfEven, binary64]) (by norm_num [binary64])]
    norm_num
  have h14 : (Flt.fin (2 ^ 1073) + Flt.fin (0) : Flt binary64)
      = Flt.fin (2 ^ 1073) := by
    rw [Flt.add_fin,
      Flt.round_eval_nonneg binary64 _ (2 ^ 1073)
        (1) 1021 (2 ^ 1073)
        (by norm_num) (by norm_num [binary64]) (by norm_num [binary64])
        (Or.inr (by norm_num [binary64])) (by norm_num [binary64])
        (by norm_num [roundHalfEven, binary64]) (by norm_num [binary64])]
    norm_num
  have h15 : (Flt.fin (5404319552844595 * 2 ^ 1022) / Flt.fin (2 ^ 1073) : Flt binary64)
      = Flt.fin (5404319552844595 * 2 ^ 1023) := by
    rw [Flt.div_fin_pos _ _ (5404319552844595 * 2 ^ 1022) (2 ^ 1073)
        (by norm_num) (by norm_num) (by norm_num),
      Flt.round_eval_nonneg binary64 _ (5404319552844595 * 2 ^ 2096)
        (2 ^ 1073) 1023 (5404319552844595 * 2 ^ 1023)
        (by norm_num [binary64]) (by norm_num [binary64]) (by norm_num [binary64])
        (Or.inr (by norm_num [binary64])) (by norm_num [binary64])
        (by norm_num [roundHalfEven, binary64]) (by norm_num [binary64])]
    norm_num
  have h16 : (Flt.ceil (Flt.fin (5404319552844595 * 2 ^ 1023)) : Flt binary64)
      = Flt.fin (3 * 2 ^ 1074) := by
    simp only [Flt.ceil]
    norm_num [binary64]
  have h17 : (Flt.fin (3 * 2 ^ 1074) * Flt.fin (2 ^ 1073) : Flt binary64)
      = Flt.fin (3 * 2 ^ 1073) := by
    rw [Flt.mul_fin,
      Flt.round_eval_nonneg binary64 _ (3 * 2 ^ 2147)
        (2 ^ binary64.emin) 1022 (3 * 2 ^ 1073)
        (by norm_num) (by norm_num [binary64]) (by norm_num [binary64])
        (Or.inr (by norm_num [binary64])) (by norm_num [binary64])
        (by norm_num [roundHalfEven, binary64]) (by norm_num [binary64])]
    norm_num
  have h18 : (Flt.fin (0) + Flt.fin (3 * 2 ^ 1073) : Flt binary64)
      = Flt.fin (3 * 2 ^ 1073) := by
    rw [Flt.add_fin,
      Flt.round_eval_nonneg binary64 _ (3 * 2 ^ 1073)
        (1) 1022 (3 * 2 ^ 1073)
        (by norm_num) (by norm_num [binary64]) (by norm_num [binary64])
        (Or.inr (by norm_num [binary64])) (by norm_num [binary64])
        (by norm_num [roundHalfEven, binary64]) (by norm_num [binary64])]
    norm_num
  have h19 :
      (Flt.fin (2476979795053773 * 2 ^ 1024)
        + Flt.fin (5404319552844595 * 2 ^ 1022) : Flt binary64)
      = Flt.fin (1914029841632461 * 2 ^ 1025) := by
    rw [Flt.add_fin,
      Flt.round_eval_nonneg binary64 _ (15312238733059687 * 2 ^ 1022)
        (1) 1023 (1914029841632461 * 2 ^ 1025)
        (by norm_num) (by norm_num [binary64]) (by norm_num [binary64])
        (Or.inr (by norm_num [binary64])) (by norm_num [binary64])
        (by norm_num [roundHalfEven, binary64]) (by norm_num [binary64])]
    norm_num
  have h20 : (Flt.fin (1914029841632461 * 2 ^ 1025) - Flt.fin (0) : Flt binary64)
      = Flt.fin (1914029841632461 * 2 ^ 1025) := by
    rw [Flt.sub_fin,
      Flt.round_eval_nonneg binary64 _ (1914029841632461 * 2 ^ 1025)
        (1) 1023 (1914029841632461 * 2 ^ 1025)
        (by norm_num) (by norm_num [binary64]) (by norm_num [binary64])
        (Or.inr (by norm_num [binary64])) (by norm_num [binary64])
        (by norm_num [roundHalfEven, binary64]) (by norm_num [binary64])]
    norm_num
  have h21 : (Flt.fin (1914029841632461 * 2 ^ 1025) / Flt.fin (2 ^ 1073) : Flt binary64)
      = Flt.fin (1914029841632461 * 2 ^ 1026) := by
    rw [Flt.div_fin_pos _ _ (1914029841632461 * 2 ^ 1025) (2 ^ 1073)
        (by norm_num) (by norm_num) (by norm_num),
      Flt.round_eval_nonneg binary64 _ (1914029841632461 * 2 ^ 2099)
        (2 ^ 1073) 1024 (1914029841632461 * 2 ^ 1026)
        (by norm_num [binary64]) (by norm_num [binary64]) (by norm_num [binary64])
        (Or.inr (by norm_num [binary64])) (by norm_num [binary64])
        (by norm_num [roundHalfEven, binary64]) (by norm_num [binary64])]
    norm_num
  have h22 : (Flt.ceil (Flt.fin (1914029841632461 * 2 ^ 1026)) : Flt binary64)
      = Flt.fin (7 * 2 ^ 1074) := by
    simp only [Flt.ceil]
    norm_num [binary64]
  have h23 : (Flt.fin (7 * 2 ^ 1074) * Flt.fin (2 ^ 1073) : Flt binary64)
      = Flt.fin (7 * 2 ^ 1073) := by
    rw [Flt.mul_fin,
      Flt.round_eval_nonneg binary64 _ (7 * 2 ^ 2147)
        (2 ^ binary64.emin) 1023 (7 * 2 ^ 1073)
        (by norm_num) (by norm_num [binary64]) (by norm_num [binary64])
        (Or.inr (by norm_num [binary64])) (by norm_num [binary64])
        (by norm_num [roundHalfEven, binary64]) (by norm_num [binary64])]
    norm_num
  have h24 : (Flt.fin (7 * 2 ^ 1073) + Flt.fin (0) : Flt binary64)
      = Flt.fin (7 * 2 ^ 1073) := by
    rw [Flt.add_fin,
      Flt.round_eval_nonneg binary64 _ (7 * 2 ^ 1073)
        (1) 1023 (7 * 2 ^ 1073)
        (by norm_num) (by norm_num [binary64]) (by norm_num [binary64])
        (Or.inr (by norm_num [binary64])) (by norm_num [binary64])
        (by norm_num [roundHalfEven, binary64]) (by norm_num [binary64])]
    norm_num
  have h25 :
      (Flt.min (Flt.fin (5967269506265907 * 2 ^ 1024))
        (Flt.fin (2476979795053773 * 2 ^ 1026)) : Flt binary64)
      = Flt.fin (5967269506265907 * 2 ^ 1024) := by
    simp only [Flt.min]
    norm_num
  have h26 :
      (Flt.max (Flt.fin (5967269506265907 * 2 ^ 1024))
        (Flt.fin (7 * 2 ^ 1073)) : Flt binary64)
      = Flt.fin (5967269506265907 * 2 ^ 1024) := by
    simp only [Flt.max]
    norm_num
  have h27 : (Flt.fin (5967269506265907 * 2 ^ 1024) - Flt.fin (7 * 2 ^ 1073) : Flt binary64)
      = Flt.fin (2026619832316723 * 2 ^ 1024) := by
    rw [Flt.sub_fin,
      Flt.round_eval_nonneg binary64 _ (2026619832316723 * 2 ^ 1024)
        (1) 1022 (2026619832316723 * 2 ^ 1024)
        (by norm_num) (by norm_num [binary64]) (by norm_num [binary64])
        (Or.inr (by norm_num [binary64])) (by norm_num [binary64])
        (by norm_num [roundHalfEven, binary64]) (by norm_num [binary64])]
    norm_num
  have h28 : (Flt.fin (2026619832316723 * 2 ^ 1024) / Flt.fin (2 ^ 1073) : Flt binary64)
      = Flt.fin (2026619832316723 * 2 ^ 1025) := by
    rw [Flt.div_fin_pos _ _ (2026619832316723 * 2 ^ 1024) (2 ^ 1073)
        (by norm_num) (by norm_num) (by norm_num),
      Flt.round_eval_nonneg binary64 _ (2026619832316723 * 2 ^ 2098)
        (2 ^ 1073) 1023 (2026619832316723 * 2 ^ 1025)
        (by norm_num [binary64]) (by norm_num [binary64]) (by norm_num [binary64])
        (Or.inr (by norm_num [binary64])) (by norm_num [binary64])
        (by norm_num [roundHalfEven, binary64]) (by norm_num [binary64])]
    norm_num
  have h29 : (Flt.floor (Flt.fin (2026619832316723 * 2 ^ 1025)) : Flt binary64)
      = Flt.fin (3 * 2 ^ 1074) := by
    simp only [Flt.floor]
    norm_num [binary64]
  have h30 : (Flt.fin (3 * 2 ^ 1073) + Flt.fin (7 * 2 ^ 1073) : Flt binary64)
      = Flt.fin (5 * 2 ^ 1074) := by
    rw [Flt.add_fin,
      Flt.round_eval_nonneg binary64 _ (5 * 2 ^ 1074)
        (1) 1024 (5 * 2 ^ 1074)
        (by norm_num) (by norm_num [binary64]) (by norm_num [binary64])
        (Or.inr (by norm_num [binary64])) (by norm_num [binary64])
        (by norm_num [roundHalfEven, binary64]) (by norm_num [binary64])]
    norm_num
  have h31 : (Flt.fin (7 * 2 ^ 1073) + Flt.fin (3 * 2 ^ 1073) : Flt binary64)
      = Flt.fin (5 * 2 ^ 1074) := by
    rw [Flt.add_fin,
      Flt.round_eval_nonneg binary64 _ (5 * 2 ^ 1074)
        (1) 1024 (5 * 2 ^ 1074)
        (by norm_num) (by norm_num [binary64]) (by norm_num [binary64])
        (Or.inr (by norm_num [binary64])) (by norm_num [binary64])
        (by norm_num [roundHalfEven, binary64]) (by norm_num [binary64])]
    norm_num
  have h5' : (Flt.ofFrac binary64 5 1 : Flt binary64) = Flt.fin (5 * 2 ^ 1074) := by
    unfold Flt.ofFrac
    rw [show decide (((5 : ℤ)) < 0) = false by decide,
      Flt.round_eval binary64 _ _ 1 1024 (5 * 2 ^ 1074) (by norm_num)
        (by norm_num [binary64]) (Or.inr (by norm_num [binary64])) (by norm_num [binary64])
        (by norm_num [roundHalfEven, binary64]) (by norm_num [binary64])]
    norm_num
  simp only [alignNodesToSites, alignBinCells, List.foldl_cons, List.foldl_nil]
  rw [alignNodeStep_movable _ _ _ _ _ _ _ _ 0 (by norm_num),
    alignNodeStep_fixed _ _ _ _ _ _ _ _ 2 (by norm_num) (by norm_num),
    alignNodeStep_movable _ _ _ _ _ _ _ _ 1 (by norm_num)]
  constructor <;>
  · simp only [Function.update_same, ne_eq, one_ne_zero, not_false_eq_true, zero_ne_one,
      OfNat.ofNat_ne_zero, OfNat.ofNat_ne_one, OfNat.zero_ne_ofNat, OfNat.one_ne_ofNat,
      Function.update_noteq, List.getD_cons_zero, List.getD_cons_succ, h5',
      h1, h2, h3, h4, h5, h6, h7, h8, h9, h10, h11, h12, h13, h14, h15, h16, h17, h18, h19, h20,
      h21, h22, h23, h24, h25, h26, h27, h28, h29, h30, h31]

/-- In `float` arithmetic `Box<float>(0, 0, 1e8, 1).bloat(1, 1)` has the width `1e8` it had
before: `xh + dx = 100000001` rounds to `1e8`, and so does `xh - xl = 1e8 - (-1)`. -/
theorem Box.bloat_float_width :
    ((Box.mk (Flt.fin 0) (Flt.fin 0) (Flt.ofFrac binary32 100000000 1)
        (Flt.ofFrac binary32 1 1)).bloat (Flt.ofFrac binary32 1 1)
        (Flt.ofFrac binary32 1 1)).width = Flt.fin (390625 * 2 ^ 157) ∧
    (Box.mk (Flt.fin 0) (Flt.fin 0) (Flt.ofFrac binary32 100000000 1)
        (Flt.ofFrac binary32 1 1)).width = Flt.fin (390625 * 2 ^ 157) ∧
    Flt.ofFrac binary32 1 1 = Flt.fin (2 ^ 149) := by
  have h1 : (Flt.ofFrac binary32 100000000 1 : Flt binary32)
      = Flt.fin (390625 * 2 ^ 157) := by
    unfold Flt.ofFrac
    rw [show decide (((100000000 : ℤ)) < 0) = false by decide,
      Flt.round_eval binary32 _ _ 1 152 (390625 * 2 ^ 157) (by norm_num)
        (by norm_num [binary32]) (Or.inr (by norm_num [binary32])) (by norm_num [binary32])
        (by norm_num [roundHalfEven, binary32]) (by norm_num [binary32])]
    norm_num
  have h2 : (Flt.ofFrac binary32 1 1 : Flt binary32)
      = Flt.fin (2 ^ 149) := by
    unfold Flt.ofFrac
    rw [show decide (((1 : ℤ)) < 0) = false by decide,
      Flt.round_eval binary32 _ _ 1 126 (2 ^ 149) (by norm_num)
        (by norm_num [binary32]) (Or.inr (by norm_num [binary32])) (by norm_num [binary32])
        (by norm_num [roundHalfEven, binary32]) (by norm_num [binary32])]
    norm_num
  have h3 : (Flt.fin (0) - Flt.fin (2 ^ 149) : Flt binary32)
      = Flt.fin (-(2 ^ 149)) := by
    rw [Flt.sub_fin,
      Flt.round_eval_neg binary32 _ (2 ^ 149)
        (1) 126 (2 ^ 149)
        (by norm_num) (by norm_num) (by norm_num [binary32])
        (by norm_num [binary32]) (Or.inr (by norm_num [binary32])) (by norm_num [binary32])
        (by norm_num [roundHalfEven, binary32]) (by norm_num [binary32])]
    norm_num
  have h4 : (Flt.fin (390625 * 2 ^ 157) + Flt.fin (2 ^ 149) : Flt binary32)
      = Flt.fin (390625 * 2 ^ 157) := by
    rw [Flt.add_fin,
      Flt.round_eval_nonneg binary32 _ (100000001 * 2 ^ 149)
        (1) 152 (390625 * 2 ^ 157)
        (by norm_num) (by norm_num [binary32]) (by norm_num [binary32])
        (Or.inr (by norm_num [binary32])) (by norm_num [binary32])
        (by norm_num [roundHalfEven, binary32]) (by norm_num [binary32])]
    norm_num
  have h5 : (Flt.fin (390625 * 2 ^ 157) - Flt.fin (-(2 ^ 149)) : Flt binary32)
      = Flt.fin (390625 * 2 ^ 157) := by
    rw [Flt.sub_fin,
      Flt.round_eval_nonneg binary32 _ (100000001 * 2 ^ 149)
        (1) 152 (390625 * 2 ^ 157)
        (by norm_num) (by norm_num [binary32]) (by norm_num [binary32])
        (Or.inr (by norm_num [binary32])) (by norm_num [binary32])
        (by norm_num [roundHalfEven, binary32]) (by norm_num [binary32])]
    norm_num
  have h6 : (Flt.fin (390625 * 2 ^ 157) - Flt.fin (0) : Flt binary32)
      = Flt.fin (390625 * 2 ^ 157) := by
    rw [Flt.sub_fin,
      Flt.round_eval_nonneg binary32 _ (390625 * 2 ^ 157)
        (1) 152 (390625 * 2 ^ 157)
        (by norm_num) (by norm_num [binary32]) (by norm_num [binary32])
        (Or.inr (by norm_num [binary32])) (by norm_num [binary32])
        (by norm_num [roundHalfEven, binary32]) (by norm_num [binary32])]
    norm_num
  refine ⟨?_, ?_, h2⟩
  · simp only [Box.bloat, Box.width, h1, h2, h3, h4, h5, h6]
  · simp only [Box.width, h1, h2, h3, h4, h5, h6]

end FloatEval

/-- The exact value of the integer `m`, stored as `m * 2^emin` units. -/
theorem Flt.toRat_fin_mul_pow (fmt : FloatFormat) (m : ℤ) :
    (Flt.fin (m * 2 ^ fmt.emin) : Flt fmt).toRat = (m : ℚ) := by
  have h : ((2 : ℚ) ^ fmt.emin) ≠ 0 := pow_ne_zero _ (by norm_num)
  simp only [Flt.toRat, Int.cast_mul, Int.cast_pow, Int.cast_ofNat]
  field_simp

/-- In exact arithmetic (a commutative ring) `bloat` grows the width by `2*dx` and the height
by `2*dy`. -/
theorem Box.bloat_width_height_of_commRing {T : Type} [CommRing T] (b : Box T) (dx dy : T) :
    (b.bloat dx dy).width = b.width + 2 * dx ∧
    (b.bloat dx dy).height = b.height + 2 * dy := by
  constructor
  · simp only [Box.bloat, Box.width]
    ring
  · simp only [Box.bloat, Box.height]
    ring

/-! ## Lemmas on boxes and on the scratch buffer -/

section BoxLemmas

variable {T : Type} [LinearOrder T]

/-- After `encompass(x, y)` the box contains `(x, y)` exactly when `y` was not above the old
top `yh`: the new top is `min(yh, y)`. -/
theorem Box.contains_encompass_iff (b : Box T) (x y : T) :
    (b.encompass x y).contains x y = true ↔ y ≤ b.yh := by
  simp [Box.contains, Box.encompass]

/-- After `encompass(x, y)` the box is valid exactly when `y` or the old bottom `yl` was not
above the old top `yh`. -/
theorem Box.valid_encompass_iff (b : Box T) (x y : T) :
    (b.encompass x y).valid = true ↔ (b.yl ≤ b.yh ∨ y ≤ b.yh) := by
  have hx : min b.xl x ≤ max b.xh x := (min_le_right _ _).trans (le_max_right _ _)
  simp only [Box.valid, Box.encompass, Bool.and_eq_true, decide_eq_true_eq, hx, true_and,
    le_min_iff, min_le_iff, le_refl, or_true, and_true]

end BoxLemmas

section Capacity

theorem halfComplexNumel_even (M : ℕ) {N : ℕ} (hN : Even N) :
    halfComplexNumel M N = M * N + 2 * M := by
  obtain ⟨n, rfl⟩ := hN
  unfold halfComplexNumel
  rw [show (n + n) / 2 = n by omega]
  ring

theorem resize__eq_max (storage numel : ℕ) : resize_ storage numel = max storage numel := by
  unfold resize_
  split <;> omega

theorem idct_forward_mem_fst {K : Type} [Field K] (F : FFTPrimitive K) (M N x expk : ℕ)
    (st : Mem K) :
    (idct_forward_mem F M N x expk st).1
      = if halfComplexNumel M N ≤ scratchNumel M N then st.brk
        else st.brk + scratchNumel M N := by
  unfold halfComplexNumel scratchNumel
  by_cases hcap : M * (N / 2 + 1) * 2 ≤ M * N + max M N
  · simp only [idct_forward_mem, if_pos hcap, Mem.alloc_fst]
  · simp only [idct_forward_mem, if_neg hcap, Mem.alloc_fst, Mem.alloc_brk]

end Capacity

/-! ## The claims C21 to C25 -/

/-- Claim C22 (as amended): `Box::bloat` grows the box by `2*dx` and `2*dy` for coordinates
of an integer type. For every box `b` and all `dx`, `dy` over the integers (a signed type
without overflow) and over the integers modulo `2^w` (a `w`-bit unsigned type, with its
wrap-around), after `b.bloat(dx, dy)` the new `width()` is the old `width() + 2*dx` and the
new `height()` is the old `height() + 2*dy`. -/
theorem Box_bloat_width_height :
    (∀ (b : Box ℤ) (dx dy : ℤ),
      (b.bloat dx dy).width = b.width + 2 * dx ∧
      (b.bloat dx dy).height = b.height + 2 * dy) ∧
    (∀ (w : ℕ) (b : Box (ZMod (2 ^ w))) (dx dy : ZMod (2 ^ w)),
      (b.bloat dx dy).width = b.width + 2 * dx ∧
      (b.bloat dx dy).height = b.height + 2 * dy) :=
  ⟨fun b dx dy => Box.bloat_width_height_of_commRing b dx dy,
    fun _ b dx dy => Box.bloat_width_height_of_commRing b dx dy⟩

/-- Claim C22 as stated fails for floating-point coordinates: in `float` arithmetic
`Box<float>(0, 0, 1e8, 1).bloat(1, 1)` has the width `1e8` before and after, although
`dx = 1`; the new width is not the old width plus `2*dx`. -/
theorem Box_bloat_float_width_unchanged :
    (((Box.mk (Flt.fin 0) (Flt.fin 0) (Flt.ofFrac binary32 100000000 1)
        (Flt.ofFrac binary32 1 1)).bloat (Flt.ofFrac binary32 1 1)
        (Flt.ofFrac binary32 1 1)).width).toRat = 100000000 ∧
    ((Box.mk (Flt.fin 0) (Flt.fin 0) (Flt.ofFrac binary32 100000000 1)
        (Flt.ofFrac binary32 1 1)).width).toRat = 100000000 ∧
    (Flt.ofFrac binary32 1 1).toRat = 1 ∧
    (((Box.mk (Flt.fin 0) (Flt.fin 0) (Flt.ofFrac binary32 100000000 1)
        (Flt.ofFrac binary32 1 1)).bloat (Flt.ofFrac binary32 1 1)
        (Flt.ofFrac binary32 1 1)).width).toRat
      ≠ ((Box.mk (Flt.fin 0) (Flt.fin 0) (Flt.ofFrac binary32 100000000 1)
        (Flt.ofFrac binary32 1 1)).width).toRat + 2 * (Flt.ofFrac binary32 1 1).toRat := by
  obtain ⟨h1, h2, h3⟩ := Box.bloat_float_width
  have e1 : (Flt.fin (390625 * 2 ^ 157) : Flt binary32).toRat = 100000000 := by
    rw [show (390625 * 2 ^ 157 : ℤ) = 100000000 * 2 ^ binary32.emin by norm_num [binary32],
      Flt.toRat_fin_mul_pow]
    norm_num
  have e2 : (Flt.fin (2 ^ 149) : Flt binary32).toRat = 1 := by
    rw [show ((2 : ℤ) ^ 149) = 1 * 2 ^ binary32.emin by norm_num [binary32],
      Flt.toRat_fin_mul_pow]
    norm_num
  rw [h1, h2, h3, e1, e2]
  norm_num

/-- Claim C23 fails on the code for `T = unsigned char`: `numeric_limits<unsigned char>::max()`
returns `0`, so `lowest() < max()` is false and the `unsigned char` values `1` and `255` are
above `max()`; the sibling `numeric_limits<unsigned short>::max()` returns `USHRT_MAX`. -/
theorem numeric_limits_unsigned_char_max_zero :
    numeric_limits_unsigned_char.max = 0 ∧
    ¬ (numeric_limits_unsigned_char.lowest < numeric_limits_unsigned_char.max) ∧
    ¬ ((1 : ℤ) ≤ numeric_limits_unsigned_char.max) ∧
    ¬ ((255 : ℤ) ≤ numeric_limits_unsigned_char.max) ∧
    (numeric_limits_unsigned_short limitsLP64).max = 65535 := by
  decide

/-- Claim C24 as stated fails: for `M = N = 2` the allocated buffer has `2*2 + max(2, 2) = 6`
elements and the half-complex spectrum of shape `{2, 2, 2}` has `8`. -/
theorem scratchNumel_lt_halfComplexNumel :
    1 ≤ 2 ∧ Even 2 ∧ scratchNumel 2 2 = 6 ∧ halfComplexNumel 2 2 = 8 ∧
    scratchNumel 2 2 < halfComplexNumel 2 2 := by
  decide

/-- Claim C24 (as amended): for every `M ≥ 1` and every even `N ≥ 2`, the buffer of
`M*N + max(M, N)` elements that `idct_forward` and `idct2_forward` allocate has at least the
`M*(N/2+1)*2` elements of `v` exactly when `2*M ≤ N`; `idct_forward` returns the allocated
buffer in that case and a larger one that `resize_` takes otherwise. In `idct2_forward`, for
even `M`, the buffer has at least the `N*(M/2+1)*2` elements of the second pass exactly when
`2*N ≤ M`, so never in both passes, and the storage of `v` ends with `M*N + 2*max(M, N)`
elements. -/
theorem scratch_capacity_iff {K : Type} [Field K] (F : FFTPrimitive K) (M N x expk : ℕ)
    (st : Mem K) (hM : 1 ≤ M) (hN : Even N) (hN2 : 2 ≤ N) :
    (halfComplexNumel M N ≤ scratchNumel M N ↔ 2 * M ≤ N) ∧
    ((idct_forward_mem F M N x expk st).1 = st.brk ↔ 2 * M ≤ N) ∧
    (Even M →
      (halfComplexNumel N M ≤ scratchNumel M N ↔ 2 * N ≤ M) ∧
      ¬ (halfComplexNumel M N ≤ scratchNumel M N ∧ halfComplexNumel N M ≤ scratchNumel M N) ∧
      idct2_forward_storage M N
        = [M * N + max M N, M * N + max N (2 * M), M * N + max N (2 * M),
            M * N + 2 * max M N, M * N + 2 * max M N]) := by
  have h1 := halfComplexNumel_even M hN
  have hs : scratchNumel M N = M * N + max M N := rfl
  refine ⟨by rw [h1, hs]; omega, ?_, fun hM2 => ?_⟩
  · rw [idct_forward_mem_fst, h1, hs]
    split <;> omega
  · have h2 := halfComplexNumel_even N hM2
    have hc : N * M = M * N := Nat.mul_comm N M
    refine ⟨by rw [h2, hs]; omega, by rw [h1, h2, hs]; omega, ?_⟩
    simp only [idct2_forward_storage, resize__eq_max, h1, h2, hs, hc, List.cons.injEq,
      and_true, true_and]
    omega

/-- Witness for `scratch_capacity_iff`: `M = 2`, `N = 4` (the first reshape fits, `12 ≤ 12`,
the second does not, `16 > 12`). -/
theorem scratch_capacity_iff_witness :
    1 ≤ 2 ∧ Even 4 ∧ 2 ≤ 4 ∧
    (halfComplexNumel 2 4 ≤ scratchNumel 2 4 ↔ 2 * 2 ≤ 4) ∧
    ((idct_forward_mem fftReal 2 4 0 8 (⟨fun _ => 0, 14⟩ : Mem ℝ)).1
        = (⟨fun _ => 0, 14⟩ : Mem ℝ).brk ↔ 2 * 2 ≤ 4) ∧
    (halfComplexNumel 4 2 ≤ scratchNumel 2 4 ↔ 2 * 4 ≤ 2) ∧
    ¬ (halfComplexNumel 2 4 ≤ scratchNumel 2 4 ∧ halfComplexNumel 4 2 ≤ scratchNumel 2 4) ∧
    idct2_forward_storage 2 4
      = [2 * 4 + max 2 4, 2 * 4 + max 4 (2 * 2), 2 * 4 + max 4 (2 * 2),
          2 * 4 + 2 * max 2 4, 2 * 4 + 2 * max 2 4] :=
  ⟨by decide, by decide, by decide,
    (scratch_capacity_iff fftReal 2 4 0 8 ⟨fun _ => 0, 14⟩ (by decide) (by decide)
      (by decide)).1,
    (scratch_capacity_iff fftReal 2 4 0 8 ⟨fun _ => 0, 14⟩ (by decide) (by decide)
      (by decide)).2.1,
    ((scratch_capacity_iff fftReal 2 4 0 8 ⟨fun _ => 0, 14⟩ (by decide) (by decide)
      (by decide)).2.2 (by decide)).1,
    ((scratch_capacity_iff fftReal 2 4 0 8 ⟨fun _ => 0, 14⟩ (by decide) (by decide)
      (by decide)).2.2 (by decide)).2.1,
    ((scratch_capacity_iff fftReal 2 4 0 8 ⟨fun _ => 0, 14⟩ (by decide) (by decide)
      (by decide)).2.2 (by decide)).2.2⟩

/-- Claim C25 fails on the code: `encompass(x, y)` sets `yh = min(yh, y)`. A default-constructed
`Box<int>` (limits of a 32-bit `int`) after `encompass(0, 0)` is `(0, 0, 0, INT_MIN)`: it does
not contain `(0, 0)` and is not valid. The valid box `(0, 0, 0, 0)` after `encompass(1, 1)` is
`(0, 0, 1, 0)` and does not contain `(1, 1)`. -/
theorem Box_encompass_not_contains :
    (Box.default (numeric_limits_int limitsLP64) ⟨0, 0, 0, 0⟩).encompass 0 0
      = ⟨0, 0, 0, -2147483648⟩ ∧
    ((Box.default (numeric_limits_int limitsLP64) ⟨0, 0, 0, 0⟩).encompass 0 0).contains 0 0
      = false ∧
    ((Box.default (numeric_limits_int limitsLP64) ⟨0, 0, 0, 0⟩).encompass 0 0).valid = false ∧
    (⟨0, 0, 0, 0⟩ : Box ℤ).encompass 1 1 = ⟨0, 0, 1, 0⟩ ∧
    ((⟨0, 0, 0, 0⟩ : Box ℤ).encompass 1 1).contains 1 1 = false := by
  decide

end DreamPlace
